import Mathlib

/-!
Paperkey: extract pipeline, base-16 framer and byte stream.

A shallow embedding of `output.c`, `extract.c` and `stream.c` of the CPaperkey sources, and the
properties of the specification proved over it.  The packet reader, the secret locator, the
fingerprint and `restore` are not among the sources; where a property needs them they are
modelled from the specification, and each such definition says so.

Conventions of the embedding.

* A byte is a `Nat` below 256, a byte buffer a `List Nat`.  A C pair `(buf, length)` is the list
  of the `length` bytes at `buf`; a pointer that may be `NULL` is an `Option`.
* `unsigned long` is 64 bits wide (LP64) and `unsigned int` 32 bits wide; their arithmetic is on
  `Nat` with an explicit `% 2 ^ 64` or `% 2 ^ 32` wherever the C operation can wrap.
* The `int` fields of `struct stream` are `Int`; signed overflow is undefined in C and is not
  modelled, so the model describes streams below `2 ^ 31` bytes.
* Text written by `stream_printf` is the list of its ASCII codes.
-/

set_option maxRecDepth 100000

/-! ## stream.h, stream.c -/

/-- The `struct stream` of stream.h: a buffer of `memsize` allocated bytes of which the first
`size` are the logical content, and a cursor `pos`. -/
structure stream where
  buffer : List Nat
  size : Int
  pos : Int
  memsize : Int
deriving DecidableEq

/-- The logical content of a stream: the first `size` bytes of its buffer. -/
def stream.contents (s : stream) : List Nat := s.buffer.take s.size.toNat

/-- The libc `realloc` on a buffer: the old bytes are kept up to the new length and the bytes
gained (indeterminate in C) read as 0. -/
def realloc (buffer : List Nat) (n : Int) : List Nat :=
  buffer.take n.toNat ++ List.replicate (n.toNat - buffer.length) 0

/-- The libc `memcpy (buffer + at, src, |src|)`. -/
def memcpy_at (buffer : List Nat) (dst : Int) (src : List Nat) : List Nat :=
  buffer.take dst.toNat ++ src ++ buffer.drop (dst.toNat + src.length)

/-- The function `create_empty_stream`: one allocated byte, nothing written. -/
def create_empty_stream : stream :=
  { buffer := [0], size := 0, pos := 0, memsize := 1 }

/-- The tail of `stream_write` and `stream_printf`: grow the buffer when `pos + total` reaches
the capacity, extend the logical size, copy the bytes at the cursor and advance it. -/
def stream_put (s : stream) (src : List Nat) (total : Int) : stream :=
  let s1 :=
    if s.pos + total ≥ s.memsize then
      { s with buffer := realloc s.buffer (2 * (s.pos + total)), memsize := 2 * (s.pos + total) }
    else s
  let s2 := if s1.pos + total > s1.size then { s1 with size := s1.pos + total } else s1
  { s2 with buffer := memcpy_at s2.buffer s2.pos (src.take total.toNat), pos := s2.pos + total }

/-- The function `stream_write (ptr, size, nmemb, stream)`: writes `size * nmemb` bytes of `ptr`
and returns `nmemb`.  `int total = size * nmemb` is taken as the product itself, which it is for
every byte count that fits in an `int`; a count of `2 ^ 31` bytes or more, which a stream with
`int` fields cannot hold, is outside what this definition describes. -/
def stream_write (ptr : List Nat) (size nmemb : Nat) (s : stream) : Nat × stream :=
  let total : Int := (size * nmemb : Nat)
  (nmemb, stream_put s ptr total)

/-- The function `stream_printf`, applied to the text `vsnprintf` produces for the format and
its arguments: a text of 1024 bytes or more is refused with -1 and nothing is written. -/
def stream_printf (s : stream) (text : List Nat) : Int × stream :=
  let len : Int := (text.length : Nat)
  if len < 0 ∨ len ≥ 1024 then (-1, s)
  else (len, stream_put s text len)

/-! ## printf conversions used by output.c -/

/-- The digits of `n` in `base`, least significant first, at least one digit. -/
def digitsRev (base : Nat) : Nat → Nat → List Nat
  | 0, _ => []
  | fuel + 1, n => (n % base) :: (if n / base = 0 then [] else digitsRev base fuel (n / base))

/-- The digits of `n` in `base`, most significant first (`0` is the single digit 0). -/
def digits (base n : Nat) : List Nat := (digitsRev base (n + 1) n).reverse

/-- Left padding of a printf field to a minimum width. -/
def padLeft (width fill : Nat) (field : List Nat) : List Nat :=
  List.replicate (width - field.length) fill ++ field

/-- ASCII code of an uppercase hexadecimal digit. -/
def hexDigit (d : Nat) : Nat := if d < 10 then 48 + d else 55 + d

/-- ASCII code of a decimal digit. -/
def decDigit (d : Nat) : Nat := 48 + d

/-- The conversion `%3u`: decimal, padded with spaces to width 3. -/
def fmt_3u (n : Nat) : List Nat := padLeft 3 32 ((digits 10 n).map decDigit)

/-- The conversion `%06lX`: uppercase hexadecimal, padded with zeros to width 6. -/
def fmt_06lX (v : Nat) : List Nat := padLeft 6 48 ((digits 16 v).map hexDigit)

/-- The conversion `%02X`: uppercase hexadecimal, padded with zeros to width 2. -/
def fmt_02X (v : Nat) : List Nat := padLeft 2 48 ((digits 16 v).map hexDigit)

/-! ## output.h, output.c -/

/-- The `enum data_type` of output.h. -/
inductive data_type where
  | AUTO
  | BASE16
  | RAW
deriving DecidableEq

def CRC24_POLY : Nat := 0x864CFB

def CRC24_INIT : Nat := 0xB704CE

/-- Modulus of `unsigned long` arithmetic. -/
def ULONG_MOD : Nat := 2 ^ 64

/-- Modulus of `unsigned int` arithmetic. -/
def UINT_MOD : Nat := 2 ^ 32

/-- One round of the inner loop of `do_crc24`: `*crc <<= 1`, then the polynomial is XORed in
when bit 24 is set.  Bits above bit 24 are never cleared. -/
def crc24_shift (crc : Nat) : Nat :=
  let c := (crc <<< 1) % ULONG_MOD
  if c &&& 0x1000000 ≠ 0 then c ^^^ CRC24_POLY else c

/-- The inner loop `for (j = 0; j < 8; j++)` of `do_crc24`, with `j` rounds left. -/
def crc24_bits : Nat → Nat → Nat
  | 0, crc => crc
  | j + 1, crc => crc24_bits j (crc24_shift crc)

/-- The function `do_crc24 (crc, buf, len)`: the state left in `*crc`. -/
def do_crc24 (crc : Nat) : List Nat → Nat
  | [] => crc
  | b :: rest => do_crc24 (crc24_bits 8 (crc ^^^ (b <<< 16))) rest

/-- The locals of `extract` that the output functions update through pointers. -/
structure emitter where
  all_crc : Nat
  line : Nat
  line_crc : Nat
  offset : Nat
deriving DecidableEq

/-- The locals as `extract` initialises them. -/
def emitter_init : emitter :=
  { all_crc := CRC24_INIT, line := 0, line_crc := CRC24_INIT, offset := 0 }

/-- One pass of the `for` loop of `print_base16`, on the byte `b`. -/
def print_base16_byte (line_items : Nat) (st : stream × emitter) (b : Nat) : stream × emitter :=
  let output := st.1
  let e := st.2
  let st1 : stream × emitter :=
    if e.offset % line_items = 0 then
      let st0 : stream × emitter :=
        if e.line ≠ 0 then
          ((stream_printf output (fmt_06lX (e.line_crc &&& 0xFFFFFF) ++ [10])).2,
            { e with line_crc := CRC24_INIT })
        else (output, e)
      let line := (st0.2.line + 1) % UINT_MOD
      ((stream_printf st0.1 (fmt_3u line ++ [58, 32])).2, { st0.2 with line := line })
    else (output, e)
  let output2 := (stream_printf st1.1 (fmt_02X b ++ [32])).2
  (output2, { st1.2 with line_crc := do_crc24 st1.2.line_crc [b],
                         offset := (st1.2.offset + 1) % UINT_MOD })

/-- The function `print_base16`: the loop over the bytes of a non-null buffer, or for `NULL`
the CRC of the open line and the terminator line. -/
def print_base16 (output : stream) (buf : Option (List Nat)) (line_items : Nat)
    (all_crc : Nat) (e : emitter) : stream × emitter :=
  match buf with
  | some bytes => bytes.foldl (print_base16_byte line_items) (output, e)
  | none =>
    let o1 := (stream_printf output (fmt_06lX (e.line_crc &&& 0xFFFFFF) ++ [10])).2
    ((stream_printf o1
        (fmt_3u ((e.line + 1) % UINT_MOD) ++ [58, 32] ++ fmt_06lX (all_crc &&& 0xFFFFFF) ++ [10])).2,
      e)

/-- Length of a C buffer argument: `NULL` is only ever passed with length 0. -/
def buf_length : Option (List Nat) → Nat
  | some bytes => bytes.length
  | none => 0

/-- The function `output_bytes`: return value, output stream and updated locals. -/
def output_bytes (output : stream) (type : data_type) (buf : Option (List Nat))
    (line_items : Nat) (e : emitter) : Int × stream × emitter :=
  let e1 := { e with all_crc := do_crc24 e.all_crc (buf.getD []) }
  match type with
  | data_type.RAW =>
    match buf with
    | none =>
      let crc : List Nat :=
        [((e1.all_crc &&& 0xFFFFFF) >>> 16) % 256,
         ((e1.all_crc &&& 0xFFFFFF) >>> 8) % 256,
         (e1.all_crc &&& 0xFFFFFF) % 256]
      let r := stream_write crc 1 3 output
      ((r.1 : Int), r.2, e1)
    | some bytes =>
      let r := stream_write bytes 1 bytes.length output
      ((r.1 : Int), r.2, e1)
  | _ =>
    let r := print_base16 output buf line_items e1.all_crc e1
    ((buf_length buf : Int), r.1, r.2)

/-- The function `output_length16`: `none` when `assert (length <= 65535)` aborts. -/
def output_length16 (output : stream) (type : data_type) (length : Nat)
    (line_items : Nat) (e : emitter) : Option (Int × stream × emitter) :=
  if length ≤ 65535 then
    some (output_bytes output type (some [(length >>> 8) % 256, length % 256]) line_items e)
  else none

/-- The bytes `encoded[0..bytes)` that `output_openpgp_header` builds for a tag and a length. -/
def openpgp_header (tag length : Nat) : List Nat :=
  if tag < 16 then
    if length > 65535 then
      [(0x80 ||| (tag <<< 2) ||| 2) % 256, (length >>> 24) % 256, (length >>> 16) % 256,
        (length >>> 8) % 256, length % 256]
    else if length > 255 then
      [(0x80 ||| (tag <<< 2) ||| 1) % 256, (length >>> 8) % 256, length % 256]
    else
      [(0x80 ||| (tag <<< 2)) % 256, length % 256]
  else
    if length > 8383 then
      [(0xC0 ||| tag) % 256, 0xFF, (length >>> 24) % 256, (length >>> 16) % 256,
        (length >>> 8) % 256, length % 256]
    else if length > 191 then
      [(0xC0 ||| tag) % 256, (192 + ((length - 192) >>> 8)) % 256, (length - 192) % 256]
    else
      [(0xC0 ||| tag) % 256, length % 256]

/-- The function `output_openpgp_header`. -/
def output_openpgp_header (output : stream) (type : data_type) (tag length : Nat)
    (line_items : Nat) (e : emitter) : Int × stream × emitter :=
  output_bytes output type (some (openpgp_header tag length)) line_items e

/-- The function `output_finish`. -/
def output_finish (output : stream) (type : data_type) (line_items : Nat) (e : emitter) :
    stream × emitter :=
  (output_bytes output type none line_items e).2

/-! ## Reference CRC-24 and the layout of the artifact, in the words of the specification -/

/-- One shift of the reference CRC-24 of the specification: the state is shifted left by one,
the polynomial `0x864CFB` is XORed in when bit 24 is set, and the state is kept to 24 bits. -/
def crc24_ref_shift (state : Nat) : Nat :=
  let c := state <<< 1
  (if c &&& 0x1000000 ≠ 0 then c ^^^ 0x864CFB else c) &&& 0xFFFFFF

/-- Repeated reference shifts (eight per byte). -/
def crc24_ref_bits : Nat → Nat → Nat
  | 0, state => state
  | j + 1, state => crc24_ref_bits j (crc24_ref_shift state)

/-- The reference OpenPGP CRC-24 of the specification: for each byte `b`, `state ^= b << 16`,
then eight shifts. -/
def crc24_ref (state : Nat) : List Nat → Nat
  | [] => state
  | b :: rest => crc24_ref (crc24_ref_bits 8 (state ^^^ (b <<< 16))) rest

/-- The CRC-24 of a byte sequence: the reference algorithm run from the initial value. -/
def crc24 (bytes : List Nat) : Nat := crc24_ref CRC24_INIT bytes

/-- A stream in append position: the cursor is at the end of the content and the buffer has
the recorded capacity. -/
def stream.appending (s : stream) : Prop :=
  s.pos = s.size ∧ 0 ≤ s.size ∧ s.size ≤ s.memsize ∧ s.buffer.length = s.memsize.toNat

/-- The `w` low digits of `v` in `base`, least significant first. -/
def fixedRev (base : Nat) : Nat → Nat → List Nat
  | 0, _ => []
  | w + 1, v => (v % base) :: fixedRev base w (v / base)

/-- A value written as exactly six uppercase hexadecimal digits, most significant first. -/
def hex_token (v : Nat) : List Nat :=
  [hexDigit (v / 16 ^ 5 % 16), hexDigit (v / 16 ^ 4 % 16), hexDigit (v / 16 ^ 3 % 16),
    hexDigit (v / 16 ^ 2 % 16), hexDigit (v / 16 % 16), hexDigit (v % 16)]

/-- Octets written as two uppercase hexadecimal digits each, every one followed by a space. -/
def hex_octets : List Nat → List Nat
  | [] => []
  | b :: rest => hexDigit (b / 16) :: hexDigit (b % 16) :: 32 :: hex_octets rest

/-- Consecutive pieces of `n` bytes of a payload, the last one possibly shorter (`fuel` bounds
the number of pieces). -/
def chunksFuel (n : Nat) : Nat → List Nat → List (List Nat)
  | 0, _ => []
  | fuel + 1, payload =>
    if payload = [] then [] else payload.take n :: chunksFuel n fuel (payload.drop n)

/-- The pieces of `n` bytes a payload is cut into. -/
def chunks (n : Nat) (payload : List Nat) : List (List Nat) :=
  chunksFuel n payload.length payload

/-- The calls `output_bytes (output, type, b, |b|, ...)` for the buffers `b` of a list, in
order, each on the stream and the locals the previous one left. -/
def output_seq (type : data_type) (line_items : Nat) :
    List (List Nat) → stream × emitter → stream × emitter
  | [], st => st
  | b :: rest, st =>
    output_seq type line_items rest (output_bytes st.1 type (some b) line_items st.2).2

/-- Modelled from the spec: the header framing of the packet reader `parse` (parse.c is not
among the sources), section 4.3.  Old format (top two bits `10`): the tag is bits 5..2 and the
length type, bits 1..0, selects a 1-, 2- or 4-byte big-endian length, the indeterminate type 3
being refused.  New format (top two bits `11`): the tag is bits 5..0; a first length octet
below 192 is the length, 192..223 starts the two-octet form `((b0 - 192) << 8) + b1 + 192`,
255 is followed by a 4-octet big-endian length, and 224..254 (partial lengths) is refused.
The result is the tag, the body length and the input left after the header. -/
def parse_header : List Nat → Option (Nat × Nat × List Nat)
  | [] => none
  | b :: r =>
    if b >>> 6 = 2 then
      let tag := (b >>> 2) &&& 0xF
      match b &&& 3, r with
      | 0, l0 :: r1 => some (tag, l0, r1)
      | 1, l0 :: l1 :: r1 => some (tag, (l0 <<< 8) + l1, r1)
      | 2, l0 :: l1 :: l2 :: l3 :: r1 =>
        some (tag, (l0 <<< 24) + (l1 <<< 16) + (l2 <<< 8) + l3, r1)
      | _, _ => none
    else if b >>> 6 = 3 then
      let tag := b &&& 0x3F
      match r with
      | [] => none
      | b0 :: r1 =>
        if b0 < 192 then some (tag, b0, r1)
        else if b0 < 224 then
          match r1 with
          | b1 :: r2 => some (tag, ((b0 - 192) <<< 8) + b1 + 192, r2)
          | [] => none
        else if b0 = 255 then
          match r1 with
          | l0 :: l1 :: l2 :: l3 :: r2 =>
            some (tag, (l0 <<< 24) + (l1 <<< 16) + (l2 <<< 8) + l3, r2)
          | _ => none
        else none
    else none

/-- The text of a data line of the base-16 artifact: the line number, `: `, the octets and the
CRC-24 of these octets as six hexadecimal digits. -/
def data_line_text (number : Nat) (octets : List Nat) : List Nat :=
  fmt_3u number ++ [58, 32] ++ hex_octets octets ++ hex_token (crc24 octets)

/-- A data line of the base-16 artifact: its text and a newline. -/
def data_line (number : Nat) (octets : List Nat) : List Nat :=
  data_line_text number octets ++ [10]

/-- The data lines of a list of pieces, numbered consecutively from `first`. -/
def data_lines (first : Nat) (pieces : List (List Nat)) : List (List Nat) :=
  (pieces.enumFrom first).map fun kc => data_line kc.1 kc.2

/-- The text of the terminator line of the base-16 artifact: a line number, `: ` and a CRC-24
as six hexadecimal digits. -/
def terminator_text (number crc : Nat) : List Nat :=
  fmt_3u number ++ [58, 32] ++ hex_token crc

/-- The terminator line of the base-16 artifact: its text and a newline. -/
def terminator_line (number crc : Nat) : List Nat :=
  terminator_text number crc ++ [10]

/-- The lines of a text, split at the newlines (which are dropped); `cur` is the line begun. -/
def text_lines_from : List Nat → List Nat → List (List Nat)
  | cur, [] => if cur = [] then [] else [cur]
  | cur, b :: rest =>
    if b = 10 then cur :: text_lines_from [] rest else text_lines_from (cur ++ [b]) rest

/-- The lines of a text. -/
def text_lines (text : List Nat) : List (List Nat) := text_lines_from [] text

/-- The bytes a stream holds beyond the content of an earlier state of it. -/
def written_since (s0 s1 : stream) : List Nat := s1.contents.drop s0.contents.length

/-- The stream left by `output_bytes` on each buffer of a list and then `output_finish`,
starting from the stream `s0` with the locals as `extract` initialises them. -/
def emit_all (type : data_type) (line_items : Nat) (bs : List (List Nat)) (s0 : stream) :
    stream :=
  (output_finish (output_seq type line_items bs (s0, emitter_init)).1 type line_items
    (output_seq type line_items bs (s0, emitter_init)).2).1

/-! ## output.c: the comment block -/

/-- The ASCII codes of a C string literal. -/
def ascii (text : String) : List Nat := text.toList.map Char.toNat

/-- The function `print_bytes`: every byte as `%02X`, one `stream_printf` call each. -/
def print_bytes (s : stream) : List Nat → stream
  | [] => s
  | b :: rest => print_bytes (stream_printf s (fmt_02X b)).2 rest

/-- The lines of `output_file_format`, each to be preceded by the prefix. -/
def file_format_lines : List (List Nat) :=
  [ascii "File format:\n",
   ascii "a) 1 octet:  Version of the paperkey format (currently 0).\n",
   ascii "b) 1 octet:  OpenPGP key or subkey version (currently 4)\n",
   ascii "c) n octets: Key fingerprint (20 octets for a version 4 key or subkey)\n",
   ascii "d) 2 octets: 16-bit big endian length of the following secret data\n",
   ascii "e) n octets: Secret data: a partial OpenPGP secret key or subkey packet as\n",
   ascii "             specified in RFC 4880, starting with the string-to-key usage\n",
   ascii "             octet and continuing until the end of the packet.\n",
   ascii "Repeat fields b through e as needed to cover all subkeys.\n",
   ascii "\n",
   ascii "To recover a secret key without using the paperkey program, use the\n",
   ascii "key fingerprint to match an existing public key packet with the\n",
   ascii "corresponding secret data from the paper key.  Next, append this secret\n",
   ascii "data to the public key packet.  Finally, switch the public key packet tag\n",
   ascii "from 6 to 5 (14 to 7 for subkeys).  This will recreate the original secret\n",
   ascii "key or secret subkey packet.  Repeat as needed for all public key or subkey\n",
   ascii "packets in the public key.  All other packets (user IDs, signatures, etc.)\n",
   ascii "may simply be copied from the public key.\n"]

/-- The calls `stream_printf (stream, "%s...", prefix)` for a list of lines, in order. -/
def printf_lines (s : stream) (pre : List Nat) : List (List Nat) → stream
  | [] => s
  | l :: rest => printf_lines (stream_printf s (pre ++ l)).2 pre rest

/-- The function `output_file_format`. -/
def output_file_format (s : stream) (pre : List Nat) : stream :=
  printf_lines s pre file_format_lines

/-- What `output_start` takes from outside the sources: the text of `ctime (&now)` and the
`PACKAGE_STRING` of config.h. -/
structure banner where
  ctime_now : List Nat
  package_string : List Nat

/-- The function `output_start`: return value, output stream and `*line_items`, which RAW
framing leaves as it was.  `(output_width - 5 - 6) / 3` is unsigned int arithmetic. -/
def output_start (env : banner) (output : stream) (type : data_type) (fingerprint : List Nat)
    (output_width : Nat) (line_items : Nat) : Int × stream × Nat :=
  match type with
  | data_type.RAW => (0, output, line_items)
  | _ =>
    let items := ((output_width + (UINT_MOD - 5) + (UINT_MOD - 6)) % UINT_MOD) / 3
    let o1 := (stream_printf output (ascii "# Secret portions of key ")).2
    let o2 := print_bytes o1 (fingerprint.take 20)
    let o3 := (stream_printf o2 (ascii "\n")).2
    let o4 := (stream_printf o3
      (ascii "# Base16 data extracted " ++ env.ctime_now.take 24 ++ ascii "\n")).2
    let o5 := (stream_printf o4
      (ascii "# Created with " ++ env.package_string ++ ascii " by David Shaw\n#\n")).2
    let o6 := output_file_format o5 (ascii "# ")
    let o7 := (stream_printf o6
      (ascii "#\n# Each base16 line ends with a CRC-24 of that line.\n")).2
    let o8 := (stream_printf o7
      (ascii "# The entire block of data ends with a CRC-24 of the entire block of data.\n\n")).2
    (0, o8, items)

/-! ## extract.c -/

/-- Modelled from the spec: the `struct packet` of packets.h, which is not among the sources: a
tag and a body; `extract` reads the body as `buf` and its length as `len`. -/
structure packet where
  type : Nat
  buf : List Nat
deriving DecidableEq

/-- The field `len` of a packet. -/
def packet.len (p : packet) : Nat := p.buf.length

/-- The functions `extract` calls that are not among the sources, taken as parameters: the
packet reader `parse (input, wanted, alt)`, which returns a packet or `NULL` and moves the input
stream; the secret locator `extract_secrets`, which returns an offset or -1; and
`calculate_fingerprint`, whose result is the content of the array `fingerprint` it fills. -/
structure collaborators where
  parse : stream → Nat → Nat → Option packet × stream
  extract_secrets : packet → Int
  calculate_fingerprint : packet → Int → List Nat

/-- How a run of the model ends: the function returned, an `assert` aborted the program, or
the bound on the number of loop passes was reached. -/
inductive run (α : Type) where
  | returned : α → run α
  | aborted : run α
  | out_of_fuel : run α

/-- The `size_t` value of `packet->len - offset`, `offset` being an `int`. -/
def secret_length (p : packet) (offset : Int) : Nat :=
  (((p.len : Int) - offset) % (ULONG_MOD : Int)).toNat

/-- The four output calls `extract` makes for a key or subkey packet: its first octet, the
fingerprint, the 16-bit length of the secret region and the secret region; `none` when the
`assert` of `output_length16` aborts. -/
def output_record (output : stream) (type : data_type) (p : packet) (offset : Int)
    (fingerprint : List Nat) (line_items : Nat) (e : emitter) : Option (stream × emitter) :=
  let r1 := (output_bytes output type (some (p.buf.take 1)) line_items e).2
  let r2 := (output_bytes r1.1 type (some (fingerprint.take 20)) line_items r1.2).2
  match output_length16 r2.1 type (secret_length p offset) line_items r2.2 with
  | none => none
  | some r3 =>
    some (output_bytes r3.2.1 type
      (some ((p.buf.drop offset.toNat).take (secret_length p offset))) line_items r3.2.2).2

/-- The loop `while ((packet = parse (input, 7, 5)))` of `extract` and what follows it, with
at most `fuel` passes: the return value and the streams `input` and `output`. -/
def extract_subkeys (x : collaborators) (type : data_type) (line_items : Nat) :
    Nat → stream → stream → emitter → run (Int × stream × stream)
  | 0, _, _, _ => run.out_of_fuel
  | fuel + 1, input, output, e =>
    match x.parse input 7 5 with
    | (none, input1) =>
      run.returned (0, input1, (output_finish output type line_items e).1)
    | (some p, input1) =>
      let offset := x.extract_secrets p
      if offset = -1 then run.returned (1, input1, output)
      else
        match output_record output type p offset (x.calculate_fingerprint p offset)
            line_items e with
        | none => run.aborted
        | some r => extract_subkeys x type line_items fuel input1 r.1 r.2

/-- The function `extract`: the return value and the streams `input` and `output` it leaves.
`line_items` is the indeterminate initial value of the local of that name. -/
def extract (x : collaborators) (env : banner) (fuel : Nat) (line_items : Nat)
    (input output : stream) (output_type : data_type) (output_width : Nat) :
    run (Int × stream × stream) :=
  match x.parse input 5 0 with
  | (none, input1) => run.returned (1, input1, output)
  | (some p, input1) =>
    let offset := x.extract_secrets p
    if offset = -1 then run.returned (1, input1, output)
    else
      let fingerprint := x.calculate_fingerprint p offset
      let st := output_start env output output_type fingerprint output_width line_items
      let r0 := (output_bytes st.2.1 output_type (some [0]) st.2.2 emitter_init).2
      match output_record r0.1 output_type p offset fingerprint st.2.2 r0.2 with
      | none => run.aborted
      | some r => extract_subkeys x output_type st.2.2 fuel input1 r.1 r.2

/-- The packets `parse (input, wanted, alt)` returns on successive calls until it returns
`NULL`, and the input stream it then leaves. -/
def parse_yields (x : collaborators) (wanted alt : Nat) :
    stream → List packet → stream → Prop
  | input, [], final => x.parse input wanted alt = (none, final)
  | input, p :: rest, final =>
    ∃ input1, x.parse input wanted alt = (some p, input1) ∧
      parse_yields x wanted alt input1 rest final

/-- The record of a key or subkey packet in the paper key: its first octet, the fingerprint,
the big-endian 16-bit length of the secret region and the secret region. -/
def secret_record (x : collaborators) (p : packet) : List Nat :=
  [p.buf.getD 0 0] ++ x.calculate_fingerprint p (x.extract_secrets p) ++
    [(p.len - (x.extract_secrets p).toNat) / 256, (p.len - (x.extract_secrets p).toNat) % 256] ++
    p.buf.drop (x.extract_secrets p).toNat

/-- The three bytes of a CRC-24, most significant first. -/
def crc24_bytes (bytes : List Nat) : List Nat :=
  [crc24 bytes / 65536, crc24 bytes / 256 % 256, crc24 bytes % 256]

/-! ## The collaborators of `extract`, from the specification -/

/-- Modelled from the spec: one packet read by the packet reader of parse.c, which is not
among the sources (section 4.3): the header is decoded by the framing rules, the full body is
read, and a truncated body is an error.  The result is the packet and the input left. -/
def parse_packet (bytes : List Nat) : Option (packet × List Nat) :=
  match parse_header bytes with
  | none => none
  | some (tag, length, rest) =>
    if rest.length < length then none
    else some ({ type := tag, buf := rest.take length }, rest.drop length)

/-- Modelled from the spec: the scan of `parse` (parse.c is not among the sources) over the
bytes from the current position of the stream (section 4.3): packets whose tag is neither
`wanted` nor `alt` are skipped and the next packet matching either tag is returned, or none at
the end of the stream or on an error.  `fuel` bounds the number of packets read. -/
def parse_scan (wanted alt : Nat) : Nat → List Nat → Option packet × List Nat
  | 0, bytes => (none, bytes)
  | fuel + 1, bytes =>
    match parse_packet bytes with
    | none => (none, bytes)
    | some (p, rest) =>
      if p.type = wanted ∨ p.type = alt then (some p, rest)
      else parse_scan wanted alt fuel rest

/-- Modelled from the spec: the packet reader `parse (stream, wanted_tag, alt_tag)` of parse.c,
which is not among the sources (section 4.3): it scans forward from the current position of
the stream and leaves the cursor after what it has read. -/
def parse (input : stream) (wanted alt : Nat) : Option packet × stream :=
  let bytes := input.contents.drop input.pos.toNat
  let r := parse_scan wanted alt bytes.length bytes
  (r.1, { input with pos := input.size - (r.2.length : Nat) })

/-- Modelled from the spec: an MPI skipped at index `i` of a packet body (section 4.5, step 4):
two length bytes, the big-endian bit count, followed by `ceil (bits / 8)` body bytes; `none`
when the body is over-run. -/
def skip_mpi (buf : List Nat) (i : Nat) : Option Nat :=
  if i + 2 ≤ buf.length then
    let bits := buf.getD i 0 * 256 + buf.getD (i + 1) 0
    if i + 2 + (bits + 7) / 8 ≤ buf.length then some (i + 2 + (bits + 7) / 8) else none
  else none

/-- Modelled from the spec: a number of consecutive MPIs skipped (section 4.5). -/
def skip_mpis (buf : List Nat) : Nat → Nat → Option Nat
  | 0, i => some i
  | count + 1, i =>
    match skip_mpi buf i with
    | none => none
    | some j => skip_mpis buf count j

/-- Modelled from the spec: an OID or a KDF parameter block skipped at index `i` (section 4.5,
step 3): one length byte and that many bytes; `none` when the body is over-run. -/
def skip_block (buf : List Nat) (i : Nat) : Option Nat :=
  if i + 1 ≤ buf.length then
    if i + 1 + buf.getD i 0 ≤ buf.length then some (i + 1 + buf.getD i 0) else none
  else none

/-- Modelled from the spec: the public algorithm-specific fields skipped from index `i`, by
algorithm (section 4.5, step 3). -/
def skip_public_fields (buf : List Nat) (algorithm i : Nat) : Option Nat :=
  if algorithm = 1 ∨ algorithm = 2 ∨ algorithm = 3 then skip_mpis buf 2 i
  else if algorithm = 16 then skip_mpis buf 3 i
  else if algorithm = 17 then skip_mpis buf 4 i
  else if algorithm = 18 then
    match skip_block buf i with
    | none => none
    | some j =>
      match skip_mpi buf j with
      | none => none
      | some k => skip_block buf k
  else if algorithm = 19 ∨ algorithm = 22 then
    match skip_block buf i with
    | none => none
    | some j => skip_mpi buf j
  else none

/-- Modelled from the spec: the secret locator `extract_secrets` of the absent sources
(section 4.5): the version byte must be 4, four bytes of creation time are skipped, the
algorithm byte is read and the public fields are skipped; the result is the index reached,
or -1 on any failure. -/
def extract_secrets (p : packet) : Int :=
  if p.buf.length < 6 then -1
  else if p.buf.getD 0 0 ≠ 4 then -1
  else
    match skip_public_fields p.buf (p.buf.getD 5 0) 6 with
    | none => -1
    | some offset => (offset : Int)

/-- Modelled from the spec: `calculate_fingerprint` of the absent sources (section 4.6): the
hash `sha1`, a parameter, of the byte `0x99`, the two bytes of the offset, big-endian, and the
first `offset` bytes of the body. -/
def calculate_fingerprint (sha1 : List Nat → List Nat) (p : packet) (offset : Int) :
    List Nat :=
  sha1 ([0x99, (offset.toNat >>> 8) &&& 0xFF, offset.toNat &&& 0xFF] ++
    p.buf.take offset.toNat)

/-- The collaborators of `extract` as the specification describes them, for a hash `sha1`. -/
def spec_collaborators (sha1 : List Nat → List Nat) : collaborators :=
  { parse := parse, extract_secrets := extract_secrets,
    calculate_fingerprint := calculate_fingerprint sha1 }

/-- A stream holding the given bytes, the cursor at `pos`. -/
def stream_at (bytes : List Nat) (pos : Int) : stream :=
  { buffer := bytes, size := bytes.length, pos := pos, memsize := bytes.length }

/-- A stream holding the given bytes, the cursor at 0, as `create_stream` builds it from a
file. -/
def stream_of (bytes : List Nat) : stream := stream_at bytes 0

/-- A stand-in for the hash, used to run the model on sample keys: twenty bytes that depend
on the length of the input only. -/
def sample_hash (bytes : List Nat) : List Nat := List.replicate 20 (bytes.length % 256)

/-- A small secret key for running the model: an RSA secret key packet (tag 5) with one-byte
MPIs, a user ID packet (tag 13) and an RSA secret subkey packet (tag 7), framed by the
policy of the writer. -/
def sample_secret_key : List Nat :=
  [0x94, 15, 4, 0, 0, 0, 0, 1, 0, 8, 0xC3, 0, 2, 3, 0, 0xAA, 0xBB,
   0xB4, 3, 65, 66, 67,
   0x9C, 14, 4, 0, 0, 0, 0, 1, 0, 8, 0xC5, 0, 2, 3, 0, 0xCC]

/-- The body of the primary packet of the sample key. -/
def sample_primary : packet :=
  { type := 5, buf := [4, 0, 0, 0, 0, 1, 0, 8, 0xC3, 0, 2, 3, 0, 0xAA, 0xBB] }

/-- The body of the subkey packet of the sample key. -/
def sample_subkey : packet :=
  { type := 7, buf := [4, 0, 0, 0, 0, 1, 0, 8, 0xC5, 0, 2, 3, 0, 0xCC] }

/-! ## The restore pipeline, from the specification -/

/-- Modelled from the spec: the value of a hexadecimal digit read by the base-16 input side of
restore.c, which is not among the sources (section 4.8); case is tolerated and any other
character is refused. -/
def hex_value (c : Nat) : Option Nat :=
  if 48 ≤ c ∧ c ≤ 57 then some (c - 48)
  else if 65 ≤ c ∧ c ≤ 70 then some (c - 55)
  else if 97 ≤ c ∧ c ≤ 102 then some (c - 87)
  else none

/-- Modelled from the spec: the number a token of hexadecimal digits denotes (section 4.8),
continuing from `acc`; `none` when a character is not a hexadecimal digit. -/
def hex_number (acc : Nat) : List Nat → Option Nat
  | [] => some acc
  | c :: rest =>
    match hex_value c with
    | none => none
    | some d => hex_number (acc * 16 + d) rest

/-- White space inside a line: space, tab and carriage return. -/
def is_space (c : Nat) : Bool := c = 32 || c = 9 || c = 13

/-- Modelled from the spec: the tokens of a line, separated by white space (section 4.8);
`cur` is the token begun. -/
def tokens_from : List Nat → List Nat → List (List Nat)
  | cur, [] => if cur = [] then [] else [cur]
  | cur, c :: rest =>
    if is_space c then
      if cur = [] then tokens_from [] rest else cur :: tokens_from [] rest
    else tokens_from (cur ++ [c]) rest

/-- Modelled from the spec: a line with its leading `NNN: ` stripped, that is without
everything up to and including the first `:` (section 4.8); `none` when there is no `:`. -/
def after_colon : List Nat → Option (List Nat)
  | [] => none
  | c :: rest => if c = 58 then some rest else after_colon rest

/-- Modelled from the spec: the octets of a data line, pairs of hexadecimal digits, up to
the final token of six hexadecimal digits, the declared CRC of the line (section 4.8). -/
def decode_tokens : List (List Nat) → Option (List Nat × Nat)
  | [] => none
  | [t] =>
    if t.length = 6 then
      match hex_number 0 t with
      | none => none
      | some crc => some ([], crc)
    else none
  | t :: rest =>
    if t.length = 2 then
      match hex_number 0 t, decode_tokens rest with
      | some v, some (octets, crc) => some (v :: octets, crc)
      | _, _ => none
    else none

/-- The first character of a line that is not white space. -/
def first_visible : List Nat → Option Nat
  | [] => none
  | c :: rest => if is_space c then first_visible rest else some c

/-- Modelled from the spec: the base-16 input side of restore.c, which is not among the
sources (section 4.8), on the lines of the artifact: a line whose first visible character is
`#` and a line without any is ignored; a data line gives its octets once its CRC-24 is
verified; the line with a single token of six digits is the final one, verified against the
CRC-24 of all octets accepted, and ends the reading.  `none` is a failure: a malformed line, a
CRC mismatch or a missing final line. -/
def decode_lines : List (List Nat) → List Nat → Option (List Nat)
  | [], _ => none
  | l :: rest, acc =>
    match first_visible l with
    | none => decode_lines rest acc
    | some c =>
      if c = 35 then decode_lines rest acc
      else
        match after_colon l with
        | none => none
        | some body =>
          match decode_tokens (tokens_from [] body) with
          | none => none
          | some ([], crc) =>
            if crc = do_crc24 CRC24_INIT acc &&& 0xFFFFFF then some acc else none
          | some (octets, crc) =>
            if crc = do_crc24 CRC24_INIT octets &&& 0xFFFFFF then
              decode_lines rest (acc ++ octets)
            else none

/-- Modelled from the spec: the binary paper key a base-16 artifact decodes to (4.8). -/
def decode_base16 (artifact : List Nat) : Option (List Nat) :=
  decode_lines (text_lines artifact) []

/-- Modelled from the spec: the binary paper key of a RAW artifact (section 6): the payload
is followed by the three bytes of its CRC-24, big-endian, which is verified (section 7). -/
def decode_raw (artifact : List Nat) : Option (List Nat) :=
  if artifact.length < 3 then none
  else
    let payload := artifact.take (artifact.length - 3)
    if artifact.drop (artifact.length - 3) =
        [((do_crc24 CRC24_INIT payload &&& 0xFFFFFF) >>> 16) % 256,
         ((do_crc24 CRC24_INIT payload &&& 0xFFFFFF) >>> 8) % 256,
         (do_crc24 CRC24_INIT payload &&& 0xFFFFFF) % 256] then
      some payload
    else none

/-- Modelled from the spec: the records of a binary paper key after its version octet
(section 4.10, step 2): one octet of key version, 20 octets of fingerprint, two octets of
big-endian length `L` and `L` octets of secret bytes, repeated to the end; each record is kept
as its fingerprint and its secret bytes.  `fuel` bounds the number of records. -/
def read_records : Nat → List Nat → Option (List (List Nat × List Nat))
  | _, [] => some []
  | 0, _ :: _ => none
  | fuel + 1, b :: bytes =>
    if (b :: bytes).length < 23 then none
    else
      let body := (b :: bytes).drop 23
      let length := (b :: bytes).getD 21 0 * 256 + (b :: bytes).getD 22 0
      if body.length < length then none
      else
        match read_records fuel (body.drop length) with
        | none => none
        | some records => some ((((b :: bytes).drop 1).take 20, body.take length) :: records)

/-- A packet of the public key in the merge of restore: the packet, the bytes it was read
from, and the secret bytes matched to it, if any. -/
structure pub_entry where
  p : packet
  raw : List Nat
  secret : Option (List Nat)

/-- Modelled from the spec: the public-key stream parsed into its sequence of packets,
in order (section 4.10); `none` on a framing error.  `fuel` bounds the number of packets. -/
def parse_all : Nat → List Nat → Option (List pub_entry)
  | _, [] => some []
  | 0, _ :: _ => none
  | fuel + 1, b :: bytes =>
    match parse_packet (b :: bytes) with
    | none => none
    | some (p, rest) =>
      match parse_all fuel rest with
      | none => none
      | some entries =>
        some ({ p := p, raw := (b :: bytes).take ((b :: bytes).length - rest.length),
                secret := none } :: entries)

/-- Modelled from the spec: a record matched to the public key (section 4.10): the first
packet of the given tag not yet used whose fingerprint, computed with the length of its own
body as offset, equals that of the record receives the secret bytes; `none` when there
is no such packet. -/
def assign_record (sha1 : List Nat → List Nat) (tag : Nat) (record : List Nat × List Nat) :
    List pub_entry → Option (List pub_entry)
  | [] => none
  | e :: rest =>
    if e.p.type = tag ∧ e.secret = none ∧
        calculate_fingerprint sha1 e.p (e.p.len : Nat) = record.1 then
      some ({ e with secret := some record.2 } :: rest)
    else
      match assign_record sha1 tag record rest with
      | none => none
      | some rest1 => some (e :: rest1)

/-- Modelled from the spec: the subkey records matched in order to public subkey packets,
tag 14 (section 4.10); a record without a matching packet fails the key. -/
def assign_subkeys (sha1 : List Nat → List Nat) :
    List (List Nat × List Nat) → List pub_entry → Option (List pub_entry)
  | [], entries => some entries
  | record :: rest, entries =>
    match assign_record sha1 14 record entries with
    | none => none
    | some entries1 => assign_subkeys sha1 rest entries1

/-- Modelled from the spec: what restore emits for a packet of the public key (section 4.10):
a matched public key packet becomes a packet of tag 5, a matched public subkey one of tag 7,
with the public body followed by the secret bytes and the header of the writer (section 4.4);
an unmatched key packet is omitted; every other packet is copied with its framing. -/
def emit_entry (e : pub_entry) : List Nat :=
  match e.secret with
  | some secret =>
    openpgp_header (if e.p.type = 6 then 5 else 7) (e.p.len + secret.length) ++ e.p.buf ++ secret
  | none => if e.p.type = 6 ∨ e.p.type = 14 then [] else e.raw

/-- Modelled from the spec: the binary paper key of an artifact, by its framing (section
4.10): RAW or BASE16; no other framing is selected for restore. -/
def decode_artifact (type : data_type) (artifact : List Nat) : Option (List Nat) :=
  match type with
  | data_type.RAW => decode_raw artifact
  | data_type.BASE16 => decode_base16 artifact
  | data_type.AUTO => none

/-- Modelled from the spec: the merge of restore (section 4.10) of the bytes of the public key
with a binary paper key: the version octet must be 0, the first record is matched to a public
key packet (tag 6) and the others, in order, to public subkey packets; the result is what is
emitted for the packets of the public key, in their order; `none` is any failure. -/
def merge_paper_key (sha1 : List Nat → List Nat) (pub : List Nat) :
    List Nat → Option (List Nat)
  | [] => none
  | version :: records_bytes =>
    if version ≠ 0 then none
    else
      match read_records records_bytes.length records_bytes, parse_all pub.length pub with
      | some (primary :: subkeys), some entries =>
        match assign_record sha1 6 primary entries with
        | none => none
        | some entries1 =>
          match assign_subkeys sha1 subkeys entries1 with
          | none => none
          | some entries2 => some (entries2.map emit_entry).flatten
      | _, _ => none

/-- Modelled from the spec: the bytes of the secret key restore reassembles from the bytes of
the public key and the artifact (sections 4.8 and 4.10): the artifact is decoded by its
framing and merged with the public key; `none` is any failure. -/
def restore_bytes (sha1 : List Nat → List Nat) (pub artifact : List Nat) (type : data_type) :
    Option (List Nat) :=
  match decode_artifact type artifact with
  | none => none
  | some payload => merge_paper_key sha1 pub payload

/-- Modelled from the spec: the function `restore` of restore.c, which is not among the
sources, as paperkeytest.c calls it: it reads the public key and the artifact from the
cursors of their streams and, on success, writes the reassembled secret key to the output
stream and returns 0; on a failure it returns 1 and writes nothing. -/
def restore (sha1 : List Nat → List Nat) (pub paper : stream) (type : data_type)
    (output : stream) : Int × stream :=
  match restore_bytes sha1 (pub.contents.drop pub.pos.toNat)
      (paper.contents.drop paper.pos.toNat) type with
  | none => (1, output)
  | some bytes => (0, (stream_write bytes 1 bytes.length output).2)

/-- A packet framed by the policy of the writer: the header `output_openpgp_header` builds
for its tag and length, and its body. -/
def framed (p : packet) : List Nat := openpgp_header p.type p.len ++ p.buf

/-- The public packet of a secret key or subkey packet (tags 5 and 7): tag 6 or 14 and the
public part of the body, up to the secret offset; any other packet is kept. -/
def public_packet (p : packet) : packet :=
  if p.type = 5 then { type := 6, buf := p.buf.take (extract_secrets p).toNat }
  else if p.type = 7 then { type := 14, buf := p.buf.take (extract_secrets p).toNat }
  else p

/-- The bytes of the public key of a secret key given by its packets. -/
def public_key (packets : List packet) : List Nat :=
  ((packets.map public_packet).map framed).flatten

/-- The bytes of a secret key given by its packets, each framed by the policy of the writer. -/
def secret_key (packets : List packet) : List Nat := (packets.map framed).flatten

/-- The user ID packet of the sample key. -/
def sample_user_id : packet := { type := 13, buf := [65, 66, 67] }

/-- The four buffers `extract` passes to the output functions for a key or subkey packet. -/
def record_buffers (x : collaborators) (p : packet) : List (List Nat) :=
  [[p.buf.getD 0 0], x.calculate_fingerprint p (x.extract_secrets p),
    [(p.len - (x.extract_secrets p).toNat) / 256, (p.len - (x.extract_secrets p).toNat) % 256],
    p.buf.drop (x.extract_secrets p).toNat]

/-- The buffers `extract` passes to the output functions for a primary packet and the packets
that follow: the version octet of the paper key and the buffers of each packet. -/
def paper_key_buffers (x : collaborators) (ps : List packet) : List (List Nat) :=
  [[0]] ++ (ps.map (record_buffers x)).flatten

/-- The entry of a packet of the public key as `parse_all` reads it. -/
def read_entry (q : packet) : pub_entry := { p := q, raw := framed q, secret := none }

/-- The entry of the public packet of a secret key packet once its record is matched: the
secret bytes of a key or subkey packet, nothing for another packet. -/
def merged_entry (p : packet) : pub_entry :=
  { p := public_packet p, raw := framed (public_packet p),
    secret := if p.type = 5 ∨ p.type = 7 then some (p.buf.drop (extract_secrets p).toNat)
      else none }

/-- The record of a key or subkey packet as restore reads it: fingerprint and secret bytes. -/
def record_of (sha1 : List Nat → List Nat) (p : packet) : List Nat × List Nat :=
  (calculate_fingerprint sha1 p (extract_secrets p), p.buf.drop (extract_secrets p).toNat)

/-- The round trip of paperkeytest.c for a secret key given by its packets and a framing:
`extract` at width 78 returns 0, and `restore` on the public key and the artifact rewound to
position 0 returns 0 and writes exactly the bytes of the secret key. -/
def round_trips (sha1 : List Nat → List Nat) (env : banner) (fuel line_items : Nat)
    (packets : List packet) (type : data_type) : Prop :=
  ∃ input1 artifact,
    extract (spec_collaborators sha1) env fuel line_items (stream_of (secret_key packets))
        create_empty_stream type 78 = run.returned (0, input1, artifact) ∧
      (restore sha1 (stream_of (public_key packets)) { artifact with pos := 0 } type
        create_empty_stream).1 = 0 ∧
      (restore sha1 (stream_of (public_key packets)) { artifact with pos := 0 } type
        create_empty_stream).2.contents = secret_key packets ∧
      (restore sha1 (stream_of (public_key packets)) { artifact with pos := 0 } type
        create_empty_stream).2.size = ((secret_key packets).length : Nat)

/-- A scan of the text one `stream_printf` call adds to the header of a base-16 artifact.
`fresh` says that the text before it ends where a line starts; at the start of a line only a
newline (an empty line) or `#` (a comment) may follow, inside a comment anything may, and a
newline ends the comment.  The result says where the text leaves off; `none` is a text that
would start a line a reader of the artifact does not ignore. -/
def comment_scan : Bool → List Nat → Option Bool
  | fresh, [] => some fresh
  | true, c :: rest =>
    if c = 10 then comment_scan true rest
    else if c = 35 then comment_scan false rest
    else none
  | false, c :: rest =>
    if c = 10 then comment_scan true rest else comment_scan false rest

/-- A text whose lines are all ignored by a reader of the base-16 artifact (`first_visible` is
nothing or `#`): the full lines `ls` and the line begun `cur`, which is empty when `fresh` and
a comment otherwise. -/
def comment_state (text : List Nat) (fresh : Bool) : Prop :=
  ∃ (ls : List (List Nat)) (cur : List Nat),
    (∀ l ∈ ls, first_visible l = none ∨ first_visible l = some 35) ∧
      (if fresh = true then cur = [] else first_visible cur = some 35) ∧
      ∀ rest, text_lines_from [] (text ++ rest) = ls ++ text_lines_from cur rest

/-- A stream in the state `output_start` keeps while it writes the header of a base-16
artifact: it is appended to and everything in it is comment or empty lines. -/
def header_state (s : stream) (fresh : Bool) : Prop :=
  s.appending ∧ comment_state s.contents fresh

/-- A sample of what `output_start` takes from outside the sources: a `ctime` text, which
ends in a newline after 24 characters, and a package string. -/
def sample_banner : banner :=
  { ctime_now := ascii "Sat Oct 31 12:00:00 2026\n", package_string := ascii "paperkey 1.6" }

/-! ## stream.c: the reading side -/

/-- The value `EOF` of stdio.h. -/
def EOF : Int := -1

/-- Conversion of a value to `unsigned long` (and `size_t`): modulo `2 ^ 64`. -/
def to_ulong (v : Int) : Nat := (v % (ULONG_MOD : Int)).toNat

/-- Conversion of a value to `int`: the 32-bit two's complement value. -/
def to_int (v : Int) : Int := (v + 2 ^ 31) % (UINT_MOD : Int) - 2 ^ 31

/-- The function `stream_eof`. -/
def stream_eof (s : stream) : Int := if s.pos ≥ s.size then 1 else 0

/-- The function `stream_getc`: the return value and the stream.  `buffer[pos]` is read as
the byte at index `pos` of the buffer (0 outside of it, where C leaves it undefined). -/
def stream_getc (s : stream) : Int × stream :=
  if stream_eof s ≠ 0 then (EOF, s)
  else ((s.buffer.getD s.pos.toNat 0 : Nat), { s with pos := s.pos + 1 })

/-- The function `stream_revert`. -/
def stream_revert (s : stream) : stream :=
  if s.pos > 0 then { s with pos := s.pos - 1 } else s

/-- The function `stream_leftbyte`. -/
def stream_leftbyte (s : stream) : Int := s.size - s.pos

/-- The function `stream_read (buf, size, nitems, stream)`: the return value, the bytes
copied to `buf` and the stream.  The division is done in `unsigned long` and its result stored
in an `int`, `nitems` is compared and stored as an `int`, and the products are `unsigned long`
(a division by a `size` of 0, undefined in C, gives 0 here). -/
def stream_read (size nitems : Nat) (s : stream) : Int × List Nat × stream :=
  let items_available : Int := to_int ((to_ulong (s.size - s.pos) / size : Nat) : Int)
  let items_count : Int :=
    if items_available > to_int (nitems : Int) then to_int (nitems : Int) else items_available
  let bytes : Nat := to_ulong ((size : Int) * items_count)
  (to_int (to_ulong (items_count * (size : Int)) : Nat),
    (s.buffer.drop s.pos.toNat).take bytes,
    { s with pos := to_int ((to_ulong s.pos + to_ulong (items_count * (size : Int))) %
        ULONG_MOD : Nat) })

/-- The loop of `stream_gets` with `k` passes left; `buf` holds the bytes stored so far, so
the index `i` of the code is its length.  At the end `buf[i] = 0` is stored and `buf` is
returned; `none` is the return value `NULL`. -/
def stream_gets_loop : Nat → List Nat → stream → Option (List Nat) × stream
  | 0, buf, s => (some (buf ++ [0]), s)
  | k + 1, buf, s =>
    if (stream_getc s).1 = EOF then
      if buf.length = 0 then (none, (stream_getc s).2)
      else (some (buf ++ [0]), (stream_getc s).2)
    else if (stream_getc s).1 = 10 then
      (some (buf ++ [(stream_getc s).1.toNat] ++ [0]), (stream_getc s).2)
    else stream_gets_loop k (buf ++ [(stream_getc s).1.toNat]) (stream_getc s).2

/-- The function `stream_gets (buf, n, stream)`: what `buf` holds up to the NUL stored at the
end, or `none` for `NULL`, and the stream.  The loop bound `n - 1` is `size_t` arithmetic. -/
def stream_gets (n : Nat) (s : stream) : Option (List Nat) × stream :=
  stream_gets_loop ((n + (ULONG_MOD - 1)) % ULONG_MOD) [] s

/-- The calls `stream_write (w, 1, |w|, stream)` for the byte strings `w` of a list, in order. -/
def stream_write_seq (s : stream) : List (List Nat) → stream
  | [] => s
  | w :: rest => stream_write_seq (stream_write w 1 w.length s).2 rest

/-- A stream as the functions of stream.c keep it: the cursor within the content, the content
within the capacity, and a buffer of that capacity. -/
def stream.valid (s : stream) : Prop :=
  0 ≤ s.pos ∧ s.pos ≤ s.size ∧ s.size ≤ s.memsize ∧ s.buffer.length = s.memsize.toNat

/-- The bytes of a stream from the cursor to the end of the content. -/
def stream.remaining (s : stream) : List Nat := s.contents.drop s.pos.toNat

/-- The bounds of the fields of a stream: `0 <= pos <= size <= memsize`. -/
def stream.in_bounds (s : stream) : Prop :=
  0 ≤ s.pos ∧ s.pos ≤ s.size ∧ s.size ≤ s.memsize

/-- A stream of four bytes, written to the stream of `create_empty_stream` by one
`stream_write` and set back to position 0; its capacity is 8 bytes. -/
def sample_written_stream : stream :=
  { (stream_write [1, 2, 3, 4] 1 4 create_empty_stream).2 with pos := 0 }

/-- The value of `int total = size * nmemb` in `stream_write`: the `size_t` product converted
to `int`.  `stream_write` above takes the product itself, which is this value whenever the
byte count fits in an `int`. -/
def stream_write_total (size nmemb : Nat) : Int := to_int (to_ulong ((size * nmemb : Nat) : Int))

theorem and_bit24_ne_zero (c : Nat) : (c &&& 0x1000000 ≠ 0) ↔ c.testBit 24 = true := by
  have h : (0x1000000 : Nat) = 2 ^ 24 := by norm_num
  rw [h, Nat.and_two_pow]
  cases c.testBit 24 <;> simp

theorem mask24_eq_mod (c : Nat) : c &&& 0xFFFFFF = c % 2 ^ 24 := by
  have h : (0xFFFFFF : Nat) = 2 ^ 24 - 1 := by norm_num
  rw [h, Nat.and_pow_two_sub_one_eq_mod]

theorem mod_pow_eq_of_testBit {n a b : Nat}
    (h : ∀ i, i < n → a.testBit i = b.testBit i) : a % 2 ^ n = b % 2 ^ n := by
  apply Nat.eq_of_testBit_eq
  intro i
  simp only [Nat.testBit_mod_two_pow]
  by_cases hi : i < n
  · simp [hi, h i hi]
  · simp [hi]

theorem testBit_of_mod_pow_eq {n a b : Nat} (h : a % 2 ^ n = b % 2 ^ n) (i : Nat) (hi : i < n) :
    a.testBit i = b.testBit i := by
  have := congrArg (fun x => x.testBit i) h
  simpa [Nat.testBit_mod_two_pow, hi] using this

/-! ## CRC-24: the accumulator of `do_crc24` against the reference -/

theorem crc24_shift_low (a b : Nat) (h : a % 2 ^ 24 = b % 2 ^ 24) :
    crc24_shift a % 2 ^ 24 = crc24_ref_shift b := by
  have hb : ∀ i, i < 24 → a.testBit i = b.testBit i := testBit_of_mod_pow_eq h
  have h23 : a.testBit 23 = b.testBit 23 := hb 23 (by norm_num)
  unfold crc24_shift crc24_ref_shift
  simp only [and_bit24_ne_zero, mask24_eq_mod, ULONG_MOD]
  have e1 : ((a <<< 1) % 2 ^ 64).testBit 24 = a.testBit 23 := by
    rw [Nat.testBit_mod_two_pow, Nat.testBit_shiftLeft]
    simp
  have e2 : (b <<< 1).testBit 24 = b.testBit 23 := by
    simp [Nat.testBit_shiftLeft]
  rw [e1, e2, h23]
  have low : ∀ i, i < 24 → ((a <<< 1) % 2 ^ 64).testBit i = (b <<< 1).testBit i := by
    intro i hi
    simp only [Nat.testBit_mod_two_pow, Nat.testBit_shiftLeft]
    have : i < 64 := by omega
    simp only [this, decide_True, Bool.true_and]
    by_cases h1 : 1 ≤ i
    · simp only [h1, ge_iff_le, decide_True, Bool.true_and]
      exact hb _ (by omega)
    · simp [h1]
  split
  · apply mod_pow_eq_of_testBit
    intro i hi
    simp only [Nat.testBit_xor, low i hi]
    rfl
  · exact mod_pow_eq_of_testBit low

theorem crc24_bits_low (j a b : Nat) (h : a % 2 ^ 24 = b % 2 ^ 24) :
    crc24_bits j a % 2 ^ 24 = crc24_ref_bits j b % 2 ^ 24 := by
  induction j generalizing a b with
  | zero => exact h
  | succ j ih =>
    simp only [crc24_bits, crc24_ref_bits]
    apply ih
    rw [crc24_shift_low a b h]
    unfold crc24_ref_shift
    simp only [mask24_eq_mod, Nat.mod_mod]

theorem crc24_ref_shift_lt (s : Nat) : crc24_ref_shift s < 2 ^ 24 := by
  unfold crc24_ref_shift
  simp only [mask24_eq_mod]
  exact Nat.mod_lt _ (by norm_num)

theorem crc24_ref_bits_lt (j s : Nat) (h : s < 2 ^ 24 ∨ 0 < j) : crc24_ref_bits j s < 2 ^ 24 := by
  induction j generalizing s with
  | zero => simpa [crc24_ref_bits] using h
  | succ j ih =>
    simp only [crc24_ref_bits]
    exact ih _ (Or.inl (crc24_ref_shift_lt s))

theorem do_crc24_low (buf : List Nat) (a b : Nat) (h : a % 2 ^ 24 = b % 2 ^ 24) :
    do_crc24 a buf % 2 ^ 24 = crc24_ref b buf % 2 ^ 24 := by
  induction buf generalizing a b with
  | nil => exact h
  | cons x rest ih =>
    simp only [do_crc24, crc24_ref]
    apply ih
    apply crc24_bits_low
    apply mod_pow_eq_of_testBit
    intro i hi
    simp only [Nat.testBit_xor, testBit_of_mod_pow_eq h i hi]

theorem crc24_ref_lt (buf : List Nat) (s : Nat) (h : s < 2 ^ 24) : crc24_ref s buf < 2 ^ 24 := by
  induction buf generalizing s with
  | nil => exact h
  | cons x rest ih =>
    simp only [crc24_ref]
    exact ih _ (crc24_ref_bits_lt 8 _ (Or.inr (by norm_num)))

theorem do_crc24_mask (s : Nat) (buf : List Nat) :
    do_crc24 s buf &&& 0xFFFFFF = crc24_ref (s &&& 0xFFFFFF) buf := by
  rw [mask24_eq_mod, mask24_eq_mod]
  rw [do_crc24_low buf s (s % 2 ^ 24) (by simp)]
  exact Nat.mod_eq_of_lt (crc24_ref_lt buf _ (Nat.mod_lt _ (by norm_num)))

theorem do_crc24_append (s : Nat) (a b : List Nat) :
    do_crc24 s (a ++ b) = do_crc24 (do_crc24 s a) b := by
  induction a generalizing s with
  | nil => rfl
  | cons x rest ih => exact ih _

theorem crc24_lt (bytes : List Nat) : crc24 bytes < 2 ^ 24 :=
  crc24_ref_lt bytes _ (by norm_num [CRC24_INIT])

theorem do_crc24_init_mask (buf : List Nat) :
    do_crc24 CRC24_INIT buf &&& 0xFFFFFF = crc24 buf := by
  rw [do_crc24_mask]
  rfl

/-! ## Streams in append position -/

theorem create_empty_stream_appending : create_empty_stream.appending := by
  simp [stream.appending, create_empty_stream]

theorem create_empty_stream_contents : create_empty_stream.contents = [] := by
  simp [stream.contents, create_empty_stream]

theorem memcpy_at_length (B : List Nat) (p : Nat) (src : List Nat)
    (h : p + src.length ≤ B.length) : (memcpy_at B (p : Int) src).length = B.length := by
  simp only [memcpy_at, Int.toNat_ofNat, List.length_append, List.length_take, List.length_drop]
  omega

theorem memcpy_at_take (B : List Nat) (p : Nat) (src : List Nat) (h : p ≤ B.length) :
    (memcpy_at B (p : Int) src).take (p + src.length) = B.take p ++ src := by
  simp only [memcpy_at, Int.toNat_ofNat]
  have hl : (List.take p B ++ src).length = p + src.length := by
    simp [List.length_take, h]
  rw [← hl, List.take_left]

theorem realloc_length (B : List Nat) (k : Nat) : (realloc B (k : Int)).length = k := by
  simp only [realloc, Int.toNat_ofNat, List.length_append, List.length_take, List.length_replicate]
  omega

theorem realloc_take (B : List Nat) (p k : Nat) (hp : p ≤ B.length) (hk : p ≤ k) :
    (realloc B (k : Int)).take p = B.take p := by
  simp only [realloc, Int.toNat_ofNat]
  rw [List.take_append_of_le_length (by simp [List.length_take]; omega), List.take_take]
  congr 1
  omega

theorem stream_put_appending (s : stream) (src : List Nat) (h : s.appending) :
    (stream_put s src (src.length : Nat)).appending ∧
      (stream_put s src (src.length : Nat)).contents = s.contents ++ src := by
  obtain ⟨buffer, size, pos, memsize⟩ := s
  obtain ⟨hp, h0, hm, hl⟩ := h
  simp only at hp h0 hm hl
  subst hp
  obtain ⟨p, rfl⟩ := Int.eq_ofNat_of_zero_le h0
  obtain ⟨m, rfl⟩ := Int.eq_ofNat_of_zero_le (le_trans h0 hm)
  have hpm : p ≤ m := by exact_mod_cast hm
  simp only [Int.toNat_ofNat] at hl
  have e2 : (2 : Int) * ((p : Int) + ((src.length : Nat) : Int)) =
      ((2 * (p + src.length) : Nat) : Int) := by
    push_cast; ring
  have e1 : (p : Int) + ((src.length : Nat) : Int) = ((p + src.length : Nat) : Int) := by
    push_cast; ring
  unfold stream_put
  simp only [stream.appending, stream.contents, Int.toNat_ofNat, List.take_length]
  by_cases hg : (p : Int) + (src.length : Nat) ≥ (m : Int)
  · have hg2 : m ≤ p + src.length := by exact_mod_cast hg
    have hB : (realloc buffer ((2 * (p + src.length) : Nat) : Int)).length =
        2 * (p + src.length) := realloc_length _ _
    simp only [hg, if_true]
    by_cases hn : (p : Int) + (src.length : Nat) > (p : Int)
    · simp only [hn, if_true]
      rw [e2, e1]
      simp only [Int.toNat_ofNat]
      refine ⟨⟨trivial, by omega, by omega, ?_⟩, ?_⟩
      · rw [memcpy_at_length _ _ _ (by rw [hB]; omega), hB]
      · rw [memcpy_at_take _ _ _ (by rw [hB]; omega), realloc_take _ _ _ (by omega) (by omega)]
    · have hz : src.length = 0 := by omega
      have hs : src = [] := List.length_eq_zero.mp hz
      subst hs
      simp only [hn, if_false]
      rw [e2]
      simp only [List.length_nil, Nat.cast_zero, add_zero, Int.toNat_ofNat, List.append_nil,
        true_and]
      refine ⟨⟨by omega, by omega, ?_⟩, ?_⟩
      · rw [memcpy_at_length _ _ _ (by rw [realloc_length]; simp; omega), realloc_length]
      · have := memcpy_at_take (realloc buffer ((2 * p : Nat) : Int)) p []
          (by rw [realloc_length]; omega)
        simp only [List.length_nil, add_zero, List.append_nil] at this
        rw [this, realloc_take _ _ _ (by omega) (by omega)]
  · have hg2 : p + src.length < m := by
      have : (p : Int) + (src.length : Nat) < (m : Int) := not_le.mp hg
      exact_mod_cast this
    simp only [hg, if_false]
    by_cases hn : (p : Int) + (src.length : Nat) > (p : Int)
    · simp only [hn, if_true]
      rw [e1]
      simp only [Int.toNat_ofNat]
      refine ⟨⟨trivial, by omega, by omega, ?_⟩, ?_⟩
      · rw [memcpy_at_length _ _ _ (by omega), hl]
      · rw [memcpy_at_take _ _ _ (by omega)]
    · have hz : src.length = 0 := by omega
      have hs : src = [] := List.length_eq_zero.mp hz
      subst hs
      simp only [hn, if_false]
      simp only [List.length_nil, Nat.cast_zero, add_zero, Int.toNat_ofNat, List.append_nil,
        true_and]
      refine ⟨⟨by omega, by omega, ?_⟩, ?_⟩
      · rw [memcpy_at_length _ _ _ (by simp; omega), hl]
      · have := memcpy_at_take buffer p [] (by omega)
        simp only [List.length_nil, add_zero, List.append_nil] at this
        rw [this]

theorem stream_write_appending (s : stream) (bytes : List Nat) (h : s.appending) :
    (stream_write bytes 1 bytes.length s).2.appending ∧
      (stream_write bytes 1 bytes.length s).2.contents = s.contents ++ bytes := by
  simp only [stream_write, one_mul]
  exact stream_put_appending s bytes h

theorem stream_printf_appending (s : stream) (text : List Nat) (h : s.appending)
    (hl : text.length < 1024) :
    (stream_printf s text).2.appending ∧
      (stream_printf s text).2.contents = s.contents ++ text := by
  have h1 : ¬ (((text.length : Nat) : Int) < 0 ∨ ((text.length : Nat) : Int) ≥ 1024) := by
    omega
  simp only [stream_printf, h1, if_false]
  exact stream_put_appending s text h

/-! ## RAW framing -/

theorem output_bytes_raw_some (s : stream) (bytes : List Nat) (n : Nat) (e : emitter)
    (h : s.appending) :
    (output_bytes s data_type.RAW (some bytes) n e).2.1.appending ∧
      (output_bytes s data_type.RAW (some bytes) n e).2.1.contents = s.contents ++ bytes ∧
      (output_bytes s data_type.RAW (some bytes) n e).2.2 =
        { e with all_crc := do_crc24 e.all_crc bytes } := by
  simp only [output_bytes, Option.getD_some]
  exact ⟨(stream_write_appending s bytes h).1, (stream_write_appending s bytes h).2, trivial⟩

theorem output_seq_raw (bs : List (List Nat)) (n : Nat) (st : stream × emitter)
    (h : st.1.appending) :
    (output_seq data_type.RAW n bs st).1.appending ∧
      (output_seq data_type.RAW n bs st).1.contents = st.1.contents ++ bs.flatten ∧
      (output_seq data_type.RAW n bs st).2 =
        { st.2 with all_crc := do_crc24 st.2.all_crc bs.flatten } := by
  induction bs generalizing st with
  | nil => simp [output_seq, do_crc24, h]
  | cons b rest ih =>
    obtain ⟨h1, h2, h3⟩ := output_bytes_raw_some st.1 b n st.2 h
    obtain ⟨i1, i2, i3⟩ := ih (output_bytes st.1 data_type.RAW (some b) n st.2).2 h1
    simp only [output_seq]
    refine ⟨i1, ?_, ?_⟩
    · rw [i2, h2, List.flatten_cons, List.append_assoc]
    · rw [i3, h3, List.flatten_cons, do_crc24_append]

theorem output_finish_raw (s : stream) (n : Nat) (e : emitter) (h : s.appending) :
    (output_finish s data_type.RAW n e).1.contents =
      s.contents ++ [((e.all_crc &&& 0xFFFFFF) >>> 16) % 256,
        ((e.all_crc &&& 0xFFFFFF) >>> 8) % 256, (e.all_crc &&& 0xFFFFFF) % 256] := by
  simp only [output_finish, output_bytes, Option.getD_none, do_crc24]
  exact (stream_write_appending s _ h).2


/-! ## Packet headers -/

theorem old_header_byte (tag lt : Nat) (ht : tag < 16) (hl : lt < 4) :
    (0x80 ||| (tag <<< 2) ||| lt) % 256 = 128 + 4 * tag + lt := by
  interval_cases tag <;> interval_cases lt <;> rfl

theorem old_header_byte0 (tag : Nat) (ht : tag < 16) :
    (0x80 ||| (tag <<< 2)) % 256 = 128 + 4 * tag := by
  interval_cases tag <;> rfl

theorem new_header_byte (tag : Nat) (ht : tag < 64) : (0xC0 ||| tag) % 256 = 192 + tag := by
  interval_cases tag <;> rfl

theorem old_header_fields (tag lt : Nat) (ht : tag < 16) (hl : lt < 4) :
    (128 + 4 * tag + lt) >>> 6 = 2 ∧ ((128 + 4 * tag + lt) >>> 2) &&& 0xF = tag ∧
      (128 + 4 * tag + lt) &&& 3 = lt := by
  interval_cases tag <;> interval_cases lt <;> exact ⟨rfl, rfl, rfl⟩

theorem new_header_fields (tag : Nat) (ht : tag < 64) :
    (192 + tag) >>> 6 = 3 ∧ (192 + tag) &&& 0x3F = tag := by
  interval_cases tag <;> exact ⟨rfl, rfl⟩

theorem parse_openpgp_header (tag length : Nat) (rest : List Nat) (ht : tag < 64)
    (hl : length < 2 ^ 32) :
    parse_header (openpgp_header tag length ++ rest) = some (tag, length, rest) := by
  unfold openpgp_header
  by_cases h16 : tag < 16
  · simp only [h16, if_true]
    by_cases h1 : length > 65535
    · simp only [h1, if_true, old_header_byte tag 2 h16 (by norm_num), List.cons_append,
        List.nil_append, parse_header]
      obtain ⟨f1, f2, f3⟩ := old_header_fields tag 2 h16 (by norm_num)
      simp only [f1, f2, f3, if_true]
      simp only [f2, Nat.shiftRight_eq_div_pow, Nat.shiftLeft_eq]
      simp only [Option.some.injEq, Prod.mk.injEq, true_and, and_true]
      omega
    · by_cases h2 : length > 255
      · simp only [h1, h2, if_true, if_false, old_header_byte tag 1 h16 (by norm_num),
          List.cons_append, List.nil_append, parse_header]
        obtain ⟨f1, f2, f3⟩ := old_header_fields tag 1 h16 (by norm_num)
        simp only [f1, f2, f3, if_true]
        simp only [f2, Nat.shiftRight_eq_div_pow, Nat.shiftLeft_eq]
        simp only [Option.some.injEq, Prod.mk.injEq, true_and, and_true]
        omega
      · simp only [h1, h2, if_false, old_header_byte0 tag h16,
          List.cons_append, List.nil_append, parse_header]
        obtain ⟨f1, f2, f3⟩ := old_header_fields tag 0 h16 (by norm_num)
        simp only [add_zero] at f1 f2 f3
        simp only [f1, f2, f3, if_true]
        simp only [Option.some.injEq, Prod.mk.injEq, true_and, and_true]
        omega
  · have hn := new_header_byte tag ht
    obtain ⟨f1, f2⟩ := new_header_fields tag ht
    have f0 : ¬ ((3 : Nat) = 2) := by decide
    simp only [h16, if_false]
    by_cases h1 : length > 8383
    · simp only [h1, if_true, hn, List.cons_append, List.nil_append, parse_header, f0, f1, f2,
        if_false]
      simp only [Nat.shiftRight_eq_div_pow, Nat.shiftLeft_eq]
      norm_num
      omega
    · by_cases h2 : length > 191
      · simp only [h1, h2, if_true, if_false, hn, List.cons_append, List.nil_append,
          parse_header, f0, f1, f2]
        simp only [Nat.shiftRight_eq_div_pow, Nat.shiftLeft_eq]
        have e1 : (192 + (length - 192) / 2 ^ 8) % 256 = 192 + (length - 192) / 256 := by
          omega
        have e2 : ¬ (192 + (length - 192) / 256 < 192) := by omega
        have e3 : 192 + (length - 192) / 256 < 224 := by omega
        simp only [e1, e2, e3, f0, if_true, if_false]
        simp only [Option.some.injEq, Prod.mk.injEq, true_and, and_true]
        omega
      · have e1 : length % 256 = length := by omega
        have e2 : length < 192 := by omega
        simp only [h1, h2, if_false, hn, List.cons_append, List.nil_append,
          parse_header, f0, f1, f2, e1, e2, if_true, if_false]

theorem or_mod_two_pow (a b n : Nat) : (a ||| b) % 2 ^ n = (a % 2 ^ n) ||| (b % 2 ^ n) := by
  apply Nat.eq_of_testBit_eq
  intro i
  simp only [Nat.testBit_mod_two_pow, Nat.testBit_or, Bool.and_or_distrib_left]

theorem new_header_top_bits (tag : Nat) : ((0xC0 ||| tag) % 256) >>> 6 = 3 := by
  have h : ∀ t, t < 256 → (192 ||| t) >>> 6 = 3 := by decide
  have e : (256 : Nat) = 2 ^ 8 := by norm_num
  rw [e, or_mod_two_pow]
  exact h _ (Nat.mod_lt _ (by norm_num))

theorem openpgp_header_format (tag length : Nat) :
    (openpgp_header tag length).headD 0 >>> 6 = (if tag < 16 then 2 else 3) := by
  unfold openpgp_header
  by_cases h16 : tag < 16
  · simp only [h16, if_true]
    split
    · simp only [List.headD_cons, old_header_byte tag 2 h16 (by norm_num)]
      exact (old_header_fields tag 2 h16 (by norm_num)).1
    · split
      · simp only [List.headD_cons, old_header_byte tag 1 h16 (by norm_num)]
        exact (old_header_fields tag 1 h16 (by norm_num)).1
      · simp only [List.headD_cons, old_header_byte0 tag h16]
        exact (old_header_fields tag 0 h16 (by norm_num)).1
  · simp only [h16, if_false]
    split
    · exact new_header_top_bits tag
    · split <;> exact new_header_top_bits tag

theorem openpgp_header_length_type (tag length : Nat) (h16 : tag < 16) :
    (openpgp_header tag length).headD 0 &&& 3 =
      (if length ≤ 255 then 0 else if length ≤ 65535 then 1 else 2) := by
  unfold openpgp_header
  simp only [h16, if_true]
  by_cases h1 : length > 65535
  · have a1 : ¬ length ≤ 255 := by omega
    have a2 : ¬ length ≤ 65535 := by omega
    simp only [h1, a1, a2, if_true, if_false, List.headD_cons,
      old_header_byte tag 2 h16 (by norm_num)]
    exact (old_header_fields tag 2 h16 (by norm_num)).2.2
  · by_cases h2 : length > 255
    · have a1 : ¬ length ≤ 255 := by omega
      have a2 : length ≤ 65535 := by omega
      simp only [h1, h2, a1, a2, if_true, if_false, List.headD_cons,
        old_header_byte tag 1 h16 (by norm_num)]
      exact (old_header_fields tag 1 h16 (by norm_num)).2.2
    · have a1 : length ≤ 255 := by omega
      simp only [h1, h2, a1, if_true, if_false, List.headD_cons, old_header_byte0 tag h16]
      exact (old_header_fields tag 0 h16 (by norm_num)).2.2

theorem openpgp_header_size (tag length : Nat) :
    (openpgp_header tag length).length =
      (if tag < 16 then
        1 + (if length ≤ 255 then 1 else if length ≤ 65535 then 2 else 4)
      else
        1 + (if length ≤ 191 then 1 else if length ≤ 8383 then 2 else 5)) := by
  unfold openpgp_header
  by_cases h16 : tag < 16
  · simp only [h16, if_true]
    by_cases h1 : length > 65535
    · have a1 : ¬ length ≤ 255 := by omega
      have a2 : ¬ length ≤ 65535 := by omega
      simp [h1, a1, a2]
    · by_cases h2 : length > 255
      · have a1 : ¬ length ≤ 255 := by omega
        have a2 : length ≤ 65535 := by omega
        simp [h1, h2, a1, a2]
      · have a1 : length ≤ 255 := by omega
        simp [h1, h2, a1]
  · simp only [h16, if_false]
    by_cases h1 : length > 8383
    · have a1 : ¬ length ≤ 191 := by omega
      have a2 : ¬ length ≤ 8383 := by omega
      simp [h1, a1, a2]
    · by_cases h2 : length > 191
      · have a1 : ¬ length ≤ 191 := by omega
        have a2 : length ≤ 8383 := by omega
        simp [h1, h2, a1, a2]
      · have a1 : length ≤ 191 := by omega
        simp [h1, h2, a1]

theorem openpgp_header_new_length_octet (tag length : Nat) (h16 : ¬ tag < 16) :
    (openpgp_header tag length).getD 1 0 =
      (if length ≤ 191 then length
       else if length ≤ 8383 then 192 + (length - 192) / 256 else 255) := by
  unfold openpgp_header
  simp only [h16, if_false]
  by_cases h1 : length > 8383
  · have a1 : ¬ length ≤ 191 := by omega
    have a2 : ¬ length ≤ 8383 := by omega
    simp [h1, a1, a2]
  · by_cases h2 : length > 191
    · have a1 : ¬ length ≤ 191 := by omega
      have a2 : length ≤ 8383 := by omega
      simp only [h1, h2, a1, a2, if_true, if_false, List.getD_cons_succ, List.getD_cons_zero,
        Nat.shiftRight_eq_div_pow]
      omega
    · have a1 : length ≤ 191 := by omega
      simp only [h1, h2, a1, if_true, if_false, List.getD_cons_succ, List.getD_cons_zero]
      omega

theorem output_openpgp_header_raw_contents (tag length line_items : Nat) (e : emitter) :
    (output_openpgp_header create_empty_stream data_type.RAW tag length line_items e).2.1.contents
      = openpgp_header tag length := by
  have h := (output_bytes_raw_some create_empty_stream (openpgp_header tag length) line_items e
    create_empty_stream_appending).2.1
  rw [create_empty_stream_contents, List.nil_append] at h
  exact h

theorem and_255_eq_mod (x : Nat) : x &&& 0xFF = x % 256 := by
  have h : (0xFF : Nat) = 2 ^ 8 - 1 := by norm_num
  rw [h, Nat.and_pow_two_sub_one_eq_mod]

/-! ## printf conversions -/

theorem fixedRev_zero (base w : Nat) : fixedRev base w 0 = List.replicate w 0 := by
  induction w with
  | zero => rfl
  | succ w ih => simp [fixedRev, ih, List.replicate_succ]

theorem fixedRev_length (base w v : Nat) : (fixedRev base w v).length = w := by
  induction w generalizing v with
  | zero => rfl
  | succ w ih => simp [fixedRev, ih]

theorem digitsRev_pad (base : Nat) (hb : 2 ≤ base) (w fuel v : Nat) (hf : v < fuel)
    (hv : v < base ^ w) (hw : 1 ≤ w) :
    digitsRev base fuel v ++ List.replicate (w - (digitsRev base fuel v).length) 0 =
      fixedRev base w v := by
  induction w generalizing fuel v with
  | zero => omega
  | succ w ih =>
    obtain ⟨f, rfl⟩ : ∃ f, fuel = f + 1 := ⟨fuel - 1, by omega⟩
    by_cases hz : v / base = 0
    · simp only [digitsRev, hz, if_true, fixedRev, fixedRev_zero, List.length_singleton,
        Nat.add_sub_cancel, List.singleton_append]
    · simp only [digitsRev, hz, if_false, fixedRev, List.length_cons, Nat.add_sub_add_right,
        List.cons_append]
      have hbv : base ≤ v := by
        by_contra hlt
        exact hz (Nat.div_eq_of_lt (by omega))
      have hlt : v / base < v := Nat.div_lt_self (by omega) (by omega)
      have hw1 : 1 ≤ w := by
        by_contra h0
        have : w = 0 := by omega
        subst this
        simp only [zero_add, pow_one] at hv
        omega
      have hv1 : v / base < base ^ w := by
        apply Nat.div_lt_of_lt_mul
        rw [pow_succ] at hv
        rw [Nat.mul_comm]
        exact hv
      rw [ih f (v / base) (by omega) hv1 hw1]

theorem digitsRev_length_le (base : Nat) (hb : 2 ≤ base) (w fuel v : Nat) (hf : v < fuel)
    (hv : v < base ^ w) (hw : 1 ≤ w) : (digitsRev base fuel v).length ≤ w := by
  have h := congrArg List.length (digitsRev_pad base hb w fuel v hf hv hw)
  rw [List.length_append, List.length_replicate, fixedRev_length] at h
  omega

theorem padLeft_hex_fixed (w v : Nat) (hv : v < 16 ^ w) (hw : 1 ≤ w) :
    padLeft w 48 ((digits 16 v).map hexDigit) = ((fixedRev 16 w v).reverse).map hexDigit := by
  rw [← digitsRev_pad 16 (by norm_num) w (v + 1) v (by omega) hv hw]
  simp only [padLeft, digits, List.length_map, List.length_reverse, List.reverse_append,
    List.reverse_replicate, List.map_append, List.map_replicate]
  rfl

theorem fmt_06lX_eq (v : Nat) (hv : v < 2 ^ 24) : fmt_06lX v = hex_token v := by
  unfold fmt_06lX
  rw [padLeft_hex_fixed 6 v (by norm_num at hv ⊢; omega) (by norm_num)]
  simp only [fixedRev, List.reverse_cons, List.reverse_nil, List.nil_append, List.cons_append,
    List.map_cons, List.map_nil, hex_token, Nat.div_div_eq_div_mul]
  norm_num

theorem fmt_02X_eq (b : Nat) (hb : b < 256) : fmt_02X b = [hexDigit (b / 16), hexDigit (b % 16)] := by
  unfold fmt_02X
  rw [padLeft_hex_fixed 2 b (by norm_num; omega) (by norm_num)]
  simp only [fixedRev, List.reverse_cons, List.reverse_nil, List.nil_append, List.cons_append,
    List.map_cons, List.map_nil]
  have : b / 16 % 16 = b / 16 := by omega
  rw [this]

theorem fmt_3u_length (n : Nat) (hn : n < 2 ^ 32) : (fmt_3u n).length ≤ 10 := by
  have h := digitsRev_length_le 10 (by norm_num) 10 (n + 1) n (by omega)
    (by norm_num at hn ⊢; omega) (by norm_num)
  simp only [fmt_3u, padLeft, digits, List.length_append, List.length_replicate,
    List.length_map, List.length_reverse]
  omega

theorem hex_token_length (v : Nat) : (hex_token v).length = 6 := rfl

/-! ## Base-16 framing: one byte -/

theorem fmt_06lX_mask (x : Nat) : fmt_06lX (x &&& 0xFFFFFF) = hex_token (x % 2 ^ 24) := by
  rw [mask24_eq_mod]
  exact fmt_06lX_eq _ (Nat.mod_lt _ (by norm_num))

theorem print_base16_byte_mid (n : Nat) (s : stream) (e : emitter) (b : Nat)
    (hs : s.appending) (hmid : e.offset % n ≠ 0) (hb : b < 256) (ho : e.offset + 1 < 2 ^ 32) :
    (print_base16_byte n (s, e) b).1.appending ∧
      (print_base16_byte n (s, e) b).1.contents =
        s.contents ++ [hexDigit (b / 16), hexDigit (b % 16), 32] ∧
      (print_base16_byte n (s, e) b).2 =
        { e with line_crc := do_crc24 e.line_crc [b], offset := e.offset + 1 } := by
  have h := stream_printf_appending s (fmt_02X b ++ [32]) hs (by rw [fmt_02X_eq b hb]; simp)
  have hm : (e.offset + 1) % UINT_MOD = e.offset + 1 := Nat.mod_eq_of_lt ho
  simp only [print_base16_byte, hmid, if_false, hm]
  refine ⟨h.1, ?_, trivial⟩
  rw [h.2, fmt_02X_eq b hb]
  rfl

theorem print_base16_byte_start (n : Nat) (s : stream) (e : emitter) (b : Nat)
    (hs : s.appending) (hstart : e.offset % n = 0) (hb : b < 256)
    (ho : e.offset + 1 < 2 ^ 32) (hl : e.line + 1 < 2 ^ 32) :
    (print_base16_byte n (s, e) b).1.appending ∧
      (print_base16_byte n (s, e) b).1.contents =
        s.contents ++ (if e.line ≠ 0 then hex_token (e.line_crc % 2 ^ 24) ++ [10] else []) ++
          (fmt_3u (e.line + 1) ++ [58, 32]) ++ [hexDigit (b / 16), hexDigit (b % 16), 32] ∧
      (print_base16_byte n (s, e) b).2 =
        { all_crc := e.all_crc, line := e.line + 1,
          line_crc := do_crc24 (if e.line ≠ 0 then CRC24_INIT else e.line_crc) [b],
          offset := e.offset + 1 } := by
  have hm : (e.offset + 1) % UINT_MOD = e.offset + 1 := Nat.mod_eq_of_lt ho
  have hlm : (e.line + 1) % UINT_MOD = e.line + 1 := Nat.mod_eq_of_lt hl
  have h3 : (fmt_3u (e.line + 1) ++ [58, 32]).length < 1024 := by
    have := fmt_3u_length (e.line + 1) hl
    simp only [List.length_append, List.length_cons, List.length_nil]
    omega
  have h2 : (fmt_02X b ++ [32]).length < 1024 := by rw [fmt_02X_eq b hb]; simp
  by_cases hline : e.line ≠ 0
  · have a1 := stream_printf_appending s (fmt_06lX (e.line_crc &&& 0xFFFFFF) ++ [10]) hs
      (by rw [fmt_06lX_mask]; simp [hex_token_length])
    have a2 := stream_printf_appending _ (fmt_3u (e.line + 1) ++ [58, 32]) a1.1 h3
    have a3 := stream_printf_appending _ (fmt_02X b ++ [32]) a2.1 h2
    simp only [print_base16_byte, hstart, if_true, hline, hm, hlm, ne_eq, not_false_eq_true]
    refine ⟨a3.1, ?_, trivial⟩
    rw [a3.2, a2.2, a1.2, fmt_02X_eq b hb, fmt_06lX_mask]
    rfl
  · have a2 := stream_printf_appending s (fmt_3u (e.line + 1) ++ [58, 32]) hs h3
    have a3 := stream_printf_appending _ (fmt_02X b ++ [32]) a2.1 h2
    simp only [print_base16_byte, hstart, if_true, hline, if_false, hm, hlm]
    refine ⟨a3.1, ?_, trivial⟩
    rw [a3.2, a2.2, fmt_02X_eq b hb]
    simp

/-! ## Base-16 framing: one line -/

theorem hex_octets_append (a b : List Nat) : hex_octets (a ++ b) = hex_octets a ++ hex_octets b := by
  induction a with
  | nil => rfl
  | cons x rest ih => simp [hex_octets, ih]

theorem print_base16_line_rest (n : Nat) (c : List Nat) (s : stream) (e : emitter) (i : Nat)
    (hs : s.appending) (hi : e.offset % n = i) (h0 : 0 < i) (hn : i + c.length ≤ n)
    (hb : ∀ b ∈ c, b < 256) (ho : e.offset + c.length < 2 ^ 32) :
    (c.foldl (print_base16_byte n) (s, e)).1.appending ∧
      (c.foldl (print_base16_byte n) (s, e)).1.contents = s.contents ++ hex_octets c ∧
      (c.foldl (print_base16_byte n) (s, e)).2 =
        { e with line_crc := do_crc24 e.line_crc c, offset := e.offset + c.length } := by
  induction c generalizing s e i with
  | nil => exact ⟨hs, by simp [hex_octets], rfl⟩
  | cons b rest ih =>
    simp only [List.length_cons] at hn ho
    obtain ⟨a1, a2, a3⟩ := print_base16_byte_mid n s e b hs (by omega)
      (hb b (List.mem_cons_self _ _)) (by omega)
    simp only [List.foldl_cons]
    by_cases hr : rest = []
    · subst hr
      simp only [List.foldl_nil, hex_octets, List.length_cons, List.length_nil]
      exact ⟨a1, a2, a3⟩
    · have hlen : 0 < rest.length := List.length_pos.mpr hr
      have hn1 : 1 < n := by omega
      have hi1 : (print_base16_byte n (s, e) b).2.offset % n = i + 1 := by
        rw [a3]
        show (e.offset + 1) % n = i + 1
        rw [Nat.add_mod, hi, Nat.mod_eq_of_lt hn1, Nat.mod_eq_of_lt (by omega)]
      have hoff : (print_base16_byte n (s, e) b).2.offset = e.offset + 1 := by rw [a3]
      have hcrc : (print_base16_byte n (s, e) b).2.line_crc = do_crc24 e.line_crc [b] := by
        rw [a3]
      obtain ⟨b1, b2, b3⟩ := ih (print_base16_byte n (s, e) b).1
        (print_base16_byte n (s, e) b).2 (i + 1) a1 hi1 (by omega) (by omega)
        (fun x hx => hb x (List.mem_cons_of_mem _ hx)) (by rw [hoff]; omega)
      refine ⟨b1, ?_, ?_⟩
      · rw [b2, a2]
        simp [hex_octets]
      · rw [b3, a3]
        simp only [emitter.mk.injEq, true_and, List.length_cons]
        refine ⟨?_, by omega⟩
        exact (do_crc24_append e.line_crc [b] rest).symm

theorem print_base16_line (n : Nat) (b : Nat) (rest : List Nat) (s : stream) (e : emitter)
    (hs : s.appending) (hstart : e.offset % n = 0) (hn : (b :: rest).length ≤ n)
    (hb : ∀ x ∈ b :: rest, x < 256) (ho : e.offset + (b :: rest).length < 2 ^ 32)
    (hl : e.line + 1 < 2 ^ 32) :
    ((b :: rest).foldl (print_base16_byte n) (s, e)).1.appending ∧
      ((b :: rest).foldl (print_base16_byte n) (s, e)).1.contents =
        s.contents ++ (if e.line ≠ 0 then hex_token (e.line_crc % 2 ^ 24) ++ [10] else []) ++
          (fmt_3u (e.line + 1) ++ [58, 32]) ++ hex_octets (b :: rest) ∧
      ((b :: rest).foldl (print_base16_byte n) (s, e)).2 =
        { all_crc := e.all_crc, line := e.line + 1,
          line_crc := do_crc24 (if e.line ≠ 0 then CRC24_INIT else e.line_crc) (b :: rest),
          offset := e.offset + (b :: rest).length } := by
  simp only [List.length_cons] at hn ho
  obtain ⟨a1, a2, a3⟩ := print_base16_byte_start n s e b hs hstart
    (hb b (List.mem_cons_self _ _)) (by omega) hl
  simp only [List.foldl_cons]
  by_cases hr : rest = []
  · subst hr
    simp only [List.foldl_nil, hex_octets, List.length_cons, List.length_nil]
    exact ⟨a1, a2, a3⟩
  · have hlen : 0 < rest.length := List.length_pos.mpr hr
    have hn1 : 1 < n := by omega
    have hi1 : (print_base16_byte n (s, e) b).2.offset % n = 1 := by
      rw [a3]
      show (e.offset + 1) % n = 1
      rw [Nat.add_mod, hstart, Nat.mod_eq_of_lt hn1, Nat.mod_eq_of_lt (by omega)]
    have hoff : (print_base16_byte n (s, e) b).2.offset = e.offset + 1 := by rw [a3]
    obtain ⟨b1, b2, b3⟩ := print_base16_line_rest n rest (print_base16_byte n (s, e) b).1
      (print_base16_byte n (s, e) b).2 1 a1 hi1 (by omega) (by omega)
      (fun x hx => hb x (List.mem_cons_of_mem _ hx)) (by rw [hoff]; omega)
    refine ⟨b1, ?_, ?_⟩
    · rw [b2, a2]
      simp [hex_octets]
    · rw [b3, a3]
      simp only [emitter.mk.injEq, true_and, List.length_cons]
      refine ⟨?_, by omega⟩
      exact (do_crc24_append _ [b] rest).symm

/-! ## Base-16 framing: the whole payload -/

theorem chunksFuel_nil (n fuel : Nat) : chunksFuel n fuel [] = [] := by
  cases fuel <;> simp [chunksFuel]

theorem chunksFuel_cons (n fuel : Nat) (P : List Nat) (hP : P ≠ []) :
    chunksFuel n (fuel + 1) P = P.take n :: chunksFuel n fuel (P.drop n) := by
  simp [chunksFuel, hP]

theorem data_lines_nil (k : Nat) : data_lines k [] = [] := rfl

theorem data_lines_cons (k : Nat) (c : List Nat) (cs : List (List Nat)) :
    data_lines k (c :: cs) = data_line k c :: data_lines (k + 1) cs := rfl

theorem do_crc24_init_mod (buf : List Nat) : do_crc24 CRC24_INIT buf % 2 ^ 24 = crc24 buf := by
  rw [← mask24_eq_mod]
  exact do_crc24_init_mask buf

theorem print_base16_chunks (n : Nat) (hn : 1 ≤ n) (fuel : Nat) (P : List Nat) (s : stream)
    (e : emitter) (hs : s.appending) (hstart : e.offset % n = 0) (hf : P.length ≤ fuel)
    (hP : P ≠ []) (hb : ∀ b ∈ P, b < 256) (ho : e.offset + P.length < 2 ^ 32)
    (hl : e.line + P.length < 2 ^ 32) (hc : e.line = 0 → e.line_crc = CRC24_INIT) :
    (P.foldl (print_base16_byte n) (s, e)).1.appending ∧
      (P.foldl (print_base16_byte n) (s, e)).1.contents ++
          hex_token ((P.foldl (print_base16_byte n) (s, e)).2.line_crc % 2 ^ 24) ++ [10] =
        s.contents ++ (if e.line ≠ 0 then hex_token (e.line_crc % 2 ^ 24) ++ [10] else []) ++
          (data_lines (e.line + 1) (chunksFuel n fuel P)).flatten ∧
      (P.foldl (print_base16_byte n) (s, e)).2.line = e.line + (chunksFuel n fuel P).length ∧
      (P.foldl (print_base16_byte n) (s, e)).2.offset = e.offset + P.length ∧
      (P.foldl (print_base16_byte n) (s, e)).2.all_crc = e.all_crc ∧
      ∃ c, (chunksFuel n fuel P).getLast? = some c ∧
        (P.foldl (print_base16_byte n) (s, e)).2.line_crc % 2 ^ 24 = crc24 c := by
  induction fuel generalizing P s e with
  | zero =>
    have : P.length = 0 := by omega
    exact absurd (List.length_eq_zero.mp this) hP
  | succ f ih =>
    have hlen : 0 < P.length := List.length_pos.mpr hP
    obtain ⟨b, rest, hc1⟩ : ∃ b rest, P.take n = b :: rest := by
      cases hP1 : P with
      | nil => exact absurd hP1 hP
      | cons x xs =>
        obtain ⟨m, rfl⟩ : ∃ m, n = m + 1 := ⟨n - 1, by omega⟩
        exact ⟨x, xs.take m, by simp [List.take_succ_cons]⟩
    have htl : (P.take n).length = min n P.length := List.length_take _ _
    have hsplit : P = (b :: rest) ++ P.drop n := by rw [← hc1, List.take_append_drop]
    have hfold : P.foldl (print_base16_byte n) (s, e) =
        (P.drop n).foldl (print_base16_byte n) ((b :: rest).foldl (print_base16_byte n) (s, e)) := by
      conv_lhs => rw [hsplit]
      rw [List.foldl_append]
    have hcl : (b :: rest).length = min n P.length := by rw [← hc1, htl]
    obtain ⟨a1, a2, a3⟩ := print_base16_line n b rest s e hs hstart (by rw [hcl]; omega)
      (fun x hx => hb x (by rw [hsplit]; exact List.mem_append_left _ hx))
      (by rw [hcl]; omega) (by omega)
    have hinit : (if e.line ≠ 0 then CRC24_INIT else e.line_crc) = CRC24_INIT := by
      by_cases h0 : e.line = 0
      · simp [h0, hc h0]
      · simp [h0]
    rw [hinit] at a3
    rw [chunksFuel_cons n f P hP, hfold, hc1]
    by_cases hd : P.drop n = []
    · rw [hd, chunksFuel_nil]
      simp only [List.foldl_nil, data_lines_cons, data_lines_nil, List.flatten_cons,
        List.flatten_nil, List.append_nil, List.length_singleton, List.getLast?_singleton]
      have hPl : P.length = (b :: rest).length := by
        conv_lhs => rw [hsplit, hd, List.append_nil]
      refine ⟨a1, ?_, by rw [a3], by rw [a3, hPl], by rw [a3], b :: rest, rfl, ?_⟩
      · rw [a2, a3]
        simp only [do_crc24_init_mod, data_line, data_line_text, List.append_assoc]
      · rw [a3]
        exact do_crc24_init_mod _
    · have hdl : 0 < (P.drop n).length := List.length_pos.mpr hd
      have hdl2 : (P.drop n).length = P.length - n := List.length_drop _ _
      have hcn : (b :: rest).length = n := by rw [hcl]; omega
      have e1off : ((b :: rest).foldl (print_base16_byte n) (s, e)).2.offset = e.offset + n := by
        rw [a3, hcn]
      have e1line : ((b :: rest).foldl (print_base16_byte n) (s, e)).2.line = e.line + 1 := by
        rw [a3]
      have e1crc : ((b :: rest).foldl (print_base16_byte n) (s, e)).2.line_crc =
          do_crc24 CRC24_INIT (b :: rest) := by rw [a3]
      have e1all : ((b :: rest).foldl (print_base16_byte n) (s, e)).2.all_crc = e.all_crc := by
        rw [a3]
      obtain ⟨i1, i2, i3, i4, i5, c, i6, i7⟩ := ih (P.drop n)
        ((b :: rest).foldl (print_base16_byte n) (s, e)).1
        ((b :: rest).foldl (print_base16_byte n) (s, e)).2 a1
        (by rw [e1off, Nat.add_mod, hstart, Nat.mod_self]; simp)
        (by omega) hd (fun x hx => hb x (List.mem_of_mem_drop hx))
        (by rw [e1off]; omega) (by rw [e1line]; omega) (by rw [e1line]; omega)
      have hne : ((b :: rest).foldl (print_base16_byte n) (s, e)).2.line ≠ 0 := by
        rw [e1line]; omega
      rw [if_pos hne, e1line, e1crc, a2, do_crc24_init_mod] at i2
      refine ⟨i1, ?_, ?_, ?_, ?_, c, ?_, i7⟩
      · rw [i2]
        simp only [data_lines_cons, List.flatten_cons, data_line, data_line_text, List.append_assoc]
      · rw [i3, e1line, List.length_cons]
        omega
      · rw [i4, e1off]
        omega
      · rw [i5, e1all]
      · rw [List.getLast?_cons, i6]
        rfl

/-! ## The pieces of a payload -/

theorem chunksFuel_length_le (n : Nat) (hn : 1 ≤ n) (fuel : Nat) (P : List Nat) :
    (chunksFuel n fuel P).length ≤ P.length := by
  induction fuel generalizing P with
  | zero => simp [chunksFuel]
  | succ f ih =>
    by_cases hP : P = []
    · simp [chunksFuel, hP]
    · rw [chunksFuel_cons n f P hP, List.length_cons]
      have h1 := ih (P.drop n)
      have h2 : (P.drop n).length = P.length - n := List.length_drop _ _
      have h3 : 0 < P.length := List.length_pos.mpr hP
      omega

theorem chunksFuel_flatten (n : Nat) (hn : 1 ≤ n) (fuel : Nat) (P : List Nat)
    (hf : P.length ≤ fuel) : (chunksFuel n fuel P).flatten = P := by
  induction fuel generalizing P with
  | zero =>
    have : P = [] := List.length_eq_zero.mp (by omega)
    simp [chunksFuel, this]
  | succ f ih =>
    by_cases hP : P = []
    · simp [chunksFuel, hP]
    · have h2 : (P.drop n).length = P.length - n := List.length_drop _ _
      have h3 : 0 < P.length := List.length_pos.mpr hP
      rw [chunksFuel_cons n f P hP, List.flatten_cons, ih (P.drop n) (by omega),
        List.take_append_drop]

theorem chunksFuel_length (n : Nat) (hn : 1 ≤ n) (fuel : Nat) (P : List Nat)
    (hf : P.length ≤ fuel) : (chunksFuel n fuel P).length = (P.length + n - 1) / n := by
  induction fuel generalizing P with
  | zero =>
    have : P = [] := List.length_eq_zero.mp (by omega)
    subst this
    simp only [chunksFuel, List.length_nil, zero_add]
    exact (Nat.div_eq_of_lt (by omega)).symm
  | succ f ih =>
    by_cases hP : P = []
    · subst hP
      simp only [chunksFuel, if_true, List.length_nil, zero_add]
      exact (Nat.div_eq_of_lt (by omega)).symm
    · have h2 : (P.drop n).length = P.length - n := List.length_drop _ _
      have h3 : 0 < P.length := List.length_pos.mpr hP
      rw [chunksFuel_cons n f P hP, List.length_cons, ih (P.drop n) (by omega), h2]
      by_cases hle : P.length ≤ n
      · have e1 : P.length - n + n - 1 = n - 1 := by omega
        rw [e1, Nat.div_eq_of_lt (by omega)]
        have e2 : P.length + n - 1 = (P.length - 1) + n := by omega
        rw [e2, Nat.add_div_right _ (by omega), Nat.div_eq_of_lt (by omega)]
      · have e1 : P.length + n - 1 = (P.length - n + n - 1) + n := by omega
        rw [e1, Nat.add_div_right _ (by omega)]

theorem chunksFuel_sizes (n : Nat) (hn : 1 ≤ n) (fuel : Nat) (P : List Nat) :
    (∀ c ∈ chunksFuel n fuel P, 1 ≤ c.length ∧ c.length ≤ n) ∧
      (∀ c ∈ (chunksFuel n fuel P).dropLast, c.length = n) := by
  induction fuel generalizing P with
  | zero => simp [chunksFuel]
  | succ f ih =>
    by_cases hP : P = []
    · simp [chunksFuel, hP]
    · have h3 : 0 < P.length := List.length_pos.mpr hP
      have ht : (P.take n).length = min n P.length := List.length_take _ _
      rw [chunksFuel_cons n f P hP]
      obtain ⟨i1, i2⟩ := ih (P.drop n)
      constructor
      · intro c hc
        rcases List.mem_cons.mp hc with rfl | hc
        · rw [ht]; omega
        · exact i1 c hc
      · intro c hc
        by_cases hd : chunksFuel n f (P.drop n) = []
        · rw [hd] at hc
          simp at hc
        · obtain ⟨x, xs, hx⟩ := List.exists_cons_of_ne_nil hd
          rw [hx, List.dropLast_cons₂] at hc
          rcases List.mem_cons.mp hc with rfl | hc
          · have hdn : P.drop n ≠ [] := by
              intro h0
              rw [h0, chunksFuel_nil] at hd
              exact hd rfl
            have : 0 < (P.drop n).length := List.length_pos.mpr hdn
            have h2 : (P.drop n).length = P.length - n := List.length_drop _ _
            rw [ht]; omega
          · rw [hx] at i2
            exact i2 c hc

/-! ## Base-16 framing: `output_bytes` and `output_finish` -/

theorem print_base16_byte_all_crc (n : Nat) (s : stream) (e : emitter) (b x : Nat) :
    print_base16_byte n (s, { e with all_crc := x }) b =
      ((print_base16_byte n (s, e) b).1, { (print_base16_byte n (s, e) b).2 with all_crc := x }) := by
  by_cases h1 : e.offset % n = 0 <;> by_cases h2 : e.line = 0 <;>
    simp [print_base16_byte, h1, h2]

theorem print_base16_fold_all_crc (n : Nat) (P : List Nat) (s : stream) (e : emitter) (x : Nat) :
    P.foldl (print_base16_byte n) (s, { e with all_crc := x }) =
      ((P.foldl (print_base16_byte n) (s, e)).1,
        { (P.foldl (print_base16_byte n) (s, e)).2 with all_crc := x }) := by
  induction P generalizing s e with
  | nil => rfl
  | cons b rest ih =>
    simp only [List.foldl_cons]
    rw [print_base16_byte_all_crc]
    exact ih _ _

theorem output_bytes_base16_some (type : data_type) (ht : type ≠ data_type.RAW) (n : Nat)
    (b : List Nat) (s : stream) (e : emitter) :
    (output_bytes s type (some b) n e).2 =
      ((b.foldl (print_base16_byte n) (s, e)).1,
        { (b.foldl (print_base16_byte n) (s, e)).2 with all_crc := do_crc24 e.all_crc b }) := by
  cases type with
  | RAW => exact absurd rfl ht
  | AUTO =>
    simp only [output_bytes, print_base16, Option.getD_some]
    exact print_base16_fold_all_crc n b s e _
  | BASE16 =>
    simp only [output_bytes, print_base16, Option.getD_some]
    exact print_base16_fold_all_crc n b s e _

theorem output_seq_base16 (type : data_type) (ht : type ≠ data_type.RAW) (n : Nat)
    (bs : List (List Nat)) (s : stream) (e : emitter) :
    output_seq type n bs (s, e) =
      ((bs.flatten.foldl (print_base16_byte n) (s, e)).1,
        { (bs.flatten.foldl (print_base16_byte n) (s, e)).2 with
          all_crc := do_crc24 e.all_crc bs.flatten }) := by
  induction bs generalizing s e with
  | nil => simp [output_seq, do_crc24]
  | cons b rest ih =>
    simp only [output_seq, List.flatten_cons, List.foldl_append]
    rw [output_bytes_base16_some type ht, ih, print_base16_fold_all_crc, do_crc24_append]

theorem output_finish_base16 (type : data_type) (ht : type ≠ data_type.RAW) (n : Nat)
    (s : stream) (e : emitter) (hs : s.appending) (hl : e.line + 1 < 2 ^ 32) :
    (output_finish s type n e).1.contents =
      s.contents ++ hex_token (e.line_crc % 2 ^ 24) ++ [10] ++
        terminator_line (e.line + 1) (e.all_crc % 2 ^ 24) := by
  have hlm : (e.line + 1) % UINT_MOD = e.line + 1 := Nat.mod_eq_of_lt hl
  have a1 := stream_printf_appending s (fmt_06lX (e.line_crc &&& 0xFFFFFF) ++ [10]) hs
    (by rw [fmt_06lX_mask]; simp [hex_token_length])
  have a2 := stream_printf_appending (stream_printf s (fmt_06lX (e.line_crc &&& 0xFFFFFF) ++ [10])).2
    (fmt_3u (e.line + 1) ++ [58, 32] ++ fmt_06lX (e.all_crc &&& 0xFFFFFF) ++ [10]) a1.1
    (by
      have := fmt_3u_length (e.line + 1) hl
      rw [fmt_06lX_mask]
      simp only [List.length_append, List.length_cons, List.length_nil, hex_token_length]
      omega)
  have key : (output_finish s type n e).1 =
      (stream_printf (stream_printf s (fmt_06lX (e.line_crc &&& 0xFFFFFF) ++ [10])).2
        (fmt_3u (e.line + 1) ++ [58, 32] ++ fmt_06lX (e.all_crc &&& 0xFFFFFF) ++ [10])).2 := by
    cases type with
    | RAW => exact absurd rfl ht
    | AUTO => simp only [output_finish, output_bytes, print_base16, Option.getD_none, do_crc24, hlm]
    | BASE16 =>
      simp only [output_finish, output_bytes, print_base16, Option.getD_none, do_crc24, hlm]
  rw [key, a2.2, a1.2, fmt_06lX_mask, fmt_06lX_mask]
  simp only [terminator_line, terminator_text, List.append_assoc]

theorem emit_all_base16 (type : data_type) (ht : type ≠ data_type.RAW) (n : Nat) (hn : 1 ≤ n)
    (bs : List (List Nat)) (s0 : stream) (hs : s0.appending) (hP : bs.flatten ≠ [])
    (hb : ∀ b ∈ bs.flatten, b < 256) (hlen : bs.flatten.length + 1 < 2 ^ 32) :
    (emit_all type n bs s0).contents =
      s0.contents ++ (data_lines 1 (chunks n bs.flatten)).flatten ++
        terminator_line ((chunks n bs.flatten).length + 1) (crc24 bs.flatten) := by
  obtain ⟨a1, a2, a3, a4, a5, c, a6, a7⟩ := print_base16_chunks n hn bs.flatten.length
    bs.flatten s0 emitter_init hs (by simp [emitter_init]) (le_refl _) hP hb
    (by simp only [emitter_init]; omega) (by simp only [emitter_init]; omega) (fun _ => rfl)
  simp only [emit_all]
  rw [output_seq_base16 type ht]
  rw [output_finish_base16 type ht n _ _ a1 (by
    show (bs.flatten.foldl (print_base16_byte n) (s0, emitter_init)).2.line + 1 < 2 ^ 32
    rw [a3]
    have := chunksFuel_length_le n hn bs.flatten.length bs.flatten
    simp only [emitter_init]
    omega)]
  show (bs.flatten.foldl (print_base16_byte n) (s0, emitter_init)).1.contents ++
      hex_token ((bs.flatten.foldl (print_base16_byte n) (s0, emitter_init)).2.line_crc % 2 ^ 24)
      ++ [10] ++ terminator_line
        ((bs.flatten.foldl (print_base16_byte n) (s0, emitter_init)).2.line + 1)
        (do_crc24 emitter_init.all_crc bs.flatten % 2 ^ 24) = _
  rw [a2, a3]
  simp only [emitter_init, ne_eq, not_true_eq_false, if_false, List.append_nil, zero_add,
    do_crc24_init_mod, chunks]

/-! ## Lines of the artifact -/

theorem text_lines_from_line (cur l rest : List Nat) (hl : ∀ x ∈ l, x ≠ 10) :
    text_lines_from cur (l ++ 10 :: rest) = (cur ++ l) :: text_lines_from [] rest := by
  induction l generalizing cur with
  | nil => simp [text_lines_from]
  | cons x xs ih =>
    have hx : x ≠ 10 := hl x (List.mem_cons_self _ _)
    have h1 := ih (cur ++ [x]) (fun y hy => hl y (List.mem_cons_of_mem _ hy))
    rw [List.cons_append]
    show (if x = 10 then cur :: text_lines_from [] (xs ++ 10 :: rest)
      else text_lines_from (cur ++ [x]) (xs ++ 10 :: rest)) = _
    rw [if_neg hx, h1]
    simp

theorem hexDigit_ge (d : Nat) : 48 ≤ hexDigit d := by
  unfold hexDigit
  split <;> omega

theorem fmt_3u_no_newline (k : Nat) : ∀ x ∈ fmt_3u k, x ≠ 10 := by
  intro x hx
  simp only [fmt_3u, padLeft, List.mem_append, List.mem_replicate, List.mem_map, decDigit] at hx
  rcases hx with ⟨_, rfl⟩ | ⟨d, _, rfl⟩ <;> omega

theorem hex_octets_no_newline (c : List Nat) : ∀ x ∈ hex_octets c, x ≠ 10 := by
  induction c with
  | nil => simp [hex_octets]
  | cons b rest ih =>
    intro x hx
    simp only [hex_octets, List.mem_cons] at hx
    rcases hx with rfl | rfl | rfl | hx
    · have := hexDigit_ge (b / 16); omega
    · have := hexDigit_ge (b % 16); omega
    · omega
    · exact ih x hx

theorem hex_token_no_newline (v : Nat) : ∀ x ∈ hex_token v, x ≠ 10 := by
  intro x hx
  simp only [hex_token, List.mem_cons, List.mem_singleton, List.not_mem_nil, or_false] at hx
  rcases hx with rfl | rfl | rfl | rfl | rfl | rfl <;>
    exact Nat.ne_of_gt (Nat.lt_of_lt_of_le (by norm_num) (hexDigit_ge _))

theorem data_line_text_no_newline (k : Nat) (c : List Nat) : ∀ x ∈ data_line_text k c, x ≠ 10 := by
  intro x hx
  simp only [data_line_text, List.mem_append, List.mem_cons, List.mem_singleton,
    List.not_mem_nil, or_false] at hx
  rcases hx with ((h | h | h) | h) | h
  · exact fmt_3u_no_newline k x h
  · omega
  · omega
  · exact hex_octets_no_newline c x h
  · exact hex_token_no_newline _ x h

theorem terminator_text_no_newline (k v : Nat) : ∀ x ∈ terminator_text k v, x ≠ 10 := by
  intro x hx
  simp only [terminator_text, List.mem_append, List.mem_cons, List.mem_singleton,
    List.not_mem_nil, or_false] at hx
  rcases hx with (h | h | h) | h
  · exact fmt_3u_no_newline k x h
  · omega
  · omega
  · exact hex_token_no_newline _ x h

theorem text_lines_terminator (k v : Nat) :
    text_lines_from [] (terminator_line k v) = [terminator_text k v] := by
  have h := text_lines_from_line [] (terminator_text k v) [] (terminator_text_no_newline k v)
  simpa [terminator_line, text_lines_from] using h

theorem text_lines_data_lines (k : Nat) (cs : List (List Nat)) (tail : List Nat) :
    text_lines_from [] ((data_lines k cs).flatten ++ tail) =
      (cs.enumFrom k).map (fun kc => data_line_text kc.1 kc.2) ++ text_lines_from [] tail := by
  induction cs generalizing k with
  | nil => simp [data_lines]
  | cons c rest ih =>
    rw [data_lines_cons, List.flatten_cons, data_line, List.append_assoc, List.append_assoc,
      List.singleton_append,
      text_lines_from_line [] _ _ (data_line_text_no_newline k c), ih]
    simp

theorem text_lines_artifact (k : Nat) (cs : List (List Nat)) (m v : Nat) :
    text_lines ((data_lines k cs).flatten ++ terminator_line m v) =
      (cs.enumFrom k).map (fun kc => data_line_text kc.1 kc.2) ++ [terminator_text m v] := by
  rw [text_lines, text_lines_data_lines, text_lines_terminator]

theorem emit_all_base16_written (type : data_type) (ht : type ≠ data_type.RAW) (n : Nat)
    (hn : 1 ≤ n) (bs : List (List Nat)) (s0 : stream) (hs : s0.appending)
    (hP : bs.flatten ≠ []) (hb : ∀ b ∈ bs.flatten, b < 256)
    (hlen : bs.flatten.length + 1 < 2 ^ 32) :
    written_since s0 (emit_all type n bs s0) =
      (data_lines 1 (chunks n bs.flatten)).flatten ++
        terminator_line ((chunks n bs.flatten).length + 1) (crc24 bs.flatten) := by
  rw [written_since, emit_all_base16 type ht n hn bs s0 hs hP hb hlen, List.append_assoc,
    List.drop_left]

theorem text_lines_written (type : data_type) (ht : type ≠ data_type.RAW) (n : Nat)
    (hn : 1 ≤ n) (bs : List (List Nat)) (s0 : stream) (hs : s0.appending)
    (hP : bs.flatten ≠ []) (hb : ∀ b ∈ bs.flatten, b < 256)
    (hlen : bs.flatten.length + 1 < 2 ^ 32) :
    text_lines (written_since s0 (emit_all type n bs s0)) =
      ((chunks n bs.flatten).enumFrom 1).map (fun kc => data_line_text kc.1 kc.2) ++
        [terminator_text ((chunks n bs.flatten).length + 1) (crc24 bs.flatten)] := by
  rw [emit_all_base16_written type ht n hn bs s0 hs hP hb hlen, text_lines_artifact]

theorem data_line_texts_getElem? (first : Nat) (cs : List (List Nat)) (k : Nat) (c : List Nat)
    (hk : cs[k]? = some c) :
    ((cs.enumFrom first).map (fun kc => data_line_text kc.1 kc.2))[k]? =
      some (data_line_text (first + k) c) := by
  rw [List.getElem?_map, List.getElem?_enumFrom, hk]
  rfl

/-! ## `extract` in RAW framing -/

theorem secret_length_eq (p : packet) (o : Int) (h0 : 0 ≤ o) (h1 : o ≤ p.len)
    (h2 : p.len - o.toNat ≤ 65535) : secret_length p o = p.len - o.toNat := by
  obtain ⟨k, rfl⟩ := Int.eq_ofNat_of_zero_le h0
  have hk : k ≤ p.len := by exact_mod_cast h1
  simp only [Int.toNat_ofNat] at h2 ⊢
  unfold secret_length ULONG_MOD
  have e : ((p.len : Int) - (k : Int)) = ((p.len - k : Nat) : Int) := by omega
  rw [e]
  have e2 : (((p.len - k : Nat) : Int) % ((2 ^ 64 : Nat) : Int)) = ((p.len - k : Nat) : Int) := by
    apply Int.emod_eq_of_lt
    · omega
    · have : p.len - k < 2 ^ 64 := by
        have : (65535 : Nat) < 2 ^ 64 := by norm_num
        omega
      exact_mod_cast this
  rw [e2, Int.toNat_ofNat]

theorem output_length16_raw (s : stream) (L n : Nat) (e : emitter) (hs : s.appending)
    (hL : L ≤ 65535) :
    ∃ r, output_length16 s data_type.RAW L n e = some r ∧ r.2.1.appending ∧
      r.2.1.contents = s.contents ++ [L / 256, L % 256] ∧
      r.2.2 = { e with all_crc := do_crc24 e.all_crc [L / 256, L % 256] } := by
  have e1 : (L >>> 8) % 256 = L / 256 := by
    rw [Nat.shiftRight_eq_div_pow]
    omega
  obtain ⟨a1, a2, a3⟩ := output_bytes_raw_some s [L / 256, L % 256] n e hs
  refine ⟨_, ?_, a1, a2, a3⟩
  simp only [output_length16, hL, if_true, e1]

theorem output_record_raw (s : stream) (p : packet) (o : Int) (fp : List Nat) (n : Nat)
    (e : emitter) (hs : s.appending) (h0 : 0 ≤ o) (h1 : o ≤ p.len)
    (h2 : p.len - o.toNat ≤ 65535) (hfp : fp.length = 20) :
    ∃ r, output_record s data_type.RAW p o fp n e = some r ∧ r.1.appending ∧
      r.1.contents = s.contents ++ (p.buf.take 1 ++ fp ++
        [(p.len - o.toNat) / 256, (p.len - o.toNat) % 256] ++ p.buf.drop o.toNat) ∧
      r.2 = { e with all_crc := do_crc24 e.all_crc (p.buf.take 1 ++ fp ++
        [(p.len - o.toNat) / 256, (p.len - o.toNat) % 256] ++ p.buf.drop o.toNat) } := by
  have hL := secret_length_eq p o h0 h1 h2
  have hfp20 : fp.take 20 = fp := List.take_of_length_le (by omega)
  have hsec : (p.buf.drop o.toNat).take (p.len - o.toNat) = p.buf.drop o.toNat :=
    List.take_of_length_le (by simp [packet.len])
  obtain ⟨a1, a2, a3⟩ := output_bytes_raw_some s (p.buf.take 1) n e hs
  obtain ⟨b1, b2, b3⟩ := output_bytes_raw_some _ fp n
    (output_bytes s data_type.RAW (some (p.buf.take 1)) n e).2.2 a1
  obtain ⟨r3, c0, c1, c2, c3⟩ := output_length16_raw _ (p.len - o.toNat) n
    (output_bytes (output_bytes s data_type.RAW (some (p.buf.take 1)) n e).2.1 data_type.RAW
      (some fp) n (output_bytes s data_type.RAW (some (p.buf.take 1)) n e).2.2).2.2 b1 h2
  obtain ⟨d1, d2, d3⟩ := output_bytes_raw_some r3.2.1 (p.buf.drop o.toNat) n r3.2.2 c1
  refine ⟨_, ?_, d1, ?_, ?_⟩
  · simp only [output_record, hL, hfp20, hsec, c0]
  · rw [d2, c2, b2, a2]
    simp only [List.append_assoc]
  · rw [d3, c3, b3, a3]
    simp only [do_crc24_append, List.append_assoc]

theorem crc_tail_eq (v : Nat) (hv : v < 2 ^ 24) :
    [(v >>> 16) % 256, (v >>> 8) % 256, v % 256] = [v / 65536, v / 256 % 256, v % 256] := by
  simp only [Nat.shiftRight_eq_div_pow]
  congr 1
  norm_num
  omega

theorem take_one_eq (p : packet) (h : 1 ≤ p.len) : p.buf.take 1 = [p.buf.getD 0 0] := by
  unfold packet.len at h
  rcases hb : p.buf with _ | ⟨b, rest⟩
  · rw [hb] at h
    simp at h
  · simp

theorem extract_subkeys_raw (x : collaborators) (n : Nat) (ps : List packet) (fuel : Nat)
    (input final output : stream) (e : emitter)
    (hy : parse_yields x 7 5 input ps final)
    (hv : ∀ p ∈ ps, 0 ≤ x.extract_secrets p ∧ x.extract_secrets p ≤ p.len ∧ 1 ≤ p.len ∧
      p.len - (x.extract_secrets p).toNat ≤ 65535 ∧
      (x.calculate_fingerprint p (x.extract_secrets p)).length = 20)
    (hf : ps.length < fuel) (hs : output.appending) :
    ∃ out, extract_subkeys x data_type.RAW n fuel input output e =
        run.returned (0, final, out) ∧
      out.contents = output.contents ++ (ps.map (secret_record x)).flatten ++
        [((do_crc24 e.all_crc (ps.map (secret_record x)).flatten &&& 0xFFFFFF) >>> 16) % 256,
         ((do_crc24 e.all_crc (ps.map (secret_record x)).flatten &&& 0xFFFFFF) >>> 8) % 256,
         (do_crc24 e.all_crc (ps.map (secret_record x)).flatten &&& 0xFFFFFF) % 256] := by
  induction ps generalizing fuel input output e with
  | nil =>
    obtain ⟨f, rfl⟩ : ∃ f, fuel = f + 1 := ⟨fuel - 1, by simp at hf; omega⟩
    simp only [parse_yields] at hy
    refine ⟨(output_finish output data_type.RAW n e).1, by simp only [extract_subkeys, hy], ?_⟩
    rw [output_finish_raw _ _ _ hs]
    simp [do_crc24]
  | cons p rest ih =>
    obtain ⟨f, rfl⟩ : ∃ f, fuel = f + 1 := ⟨fuel - 1, by simp at hf; omega⟩
    obtain ⟨input1, hp, hy1⟩ := hy
    obtain ⟨v0, v1, v4, v2, v3⟩ := hv p (List.mem_cons_self _ _)
    have hne : ¬ x.extract_secrets p = -1 := by omega
    obtain ⟨r, r0, r1, r2, r3⟩ := output_record_raw output p (x.extract_secrets p)
      (x.calculate_fingerprint p (x.extract_secrets p)) n e hs v0 v1 v2 v3
    obtain ⟨out, o1, o2⟩ := ih f input1 r.1 r.2 hy1
      (fun q hq => hv q (List.mem_cons_of_mem _ hq)) (by simp at hf; omega) r1
    refine ⟨out, ?_, ?_⟩
    · simp only [extract_subkeys, hp, hne, if_false, r0]
      exact o1
    · rw [o2, r2, r3]
      simp only [List.map_cons, List.flatten_cons, do_crc24_append, List.append_assoc,
        secret_record, take_one_eq p v4]

theorem extract_raw (x : collaborators) (env : banner) (fuel line_items : Nat)
    (input input1 final output : stream) (p0 : packet) (ps : List packet) (width : Nat)
    (h0 : x.parse input 5 0 = (some p0, input1))
    (hy : parse_yields x 7 5 input1 ps final)
    (hv : ∀ p ∈ p0 :: ps, 0 ≤ x.extract_secrets p ∧ x.extract_secrets p ≤ p.len ∧ 1 ≤ p.len ∧
      p.len - (x.extract_secrets p).toNat ≤ 65535 ∧
      (x.calculate_fingerprint p (x.extract_secrets p)).length = 20)
    (hf : ps.length < fuel) (hs : output.appending) :
    ∃ out, extract x env fuel line_items input output data_type.RAW width =
        run.returned (0, final, out) ∧
      out.contents = output.contents ++ ([0] ++ ((p0 :: ps).map (secret_record x)).flatten) ++
        crc24_bytes ([0] ++ ((p0 :: ps).map (secret_record x)).flatten) := by
  obtain ⟨v0, v1, v4, v2, v3⟩ := hv p0 (List.mem_cons_self _ _)
  have hne : ¬ x.extract_secrets p0 = -1 := by omega
  obtain ⟨a1, a2, a3⟩ := output_bytes_raw_some output [0] line_items emitter_init hs
  obtain ⟨r, r0, r1, r2, r3⟩ := output_record_raw
    (output_bytes output data_type.RAW (some [0]) line_items emitter_init).2.1 p0
    (x.extract_secrets p0) (x.calculate_fingerprint p0 (x.extract_secrets p0)) line_items
    (output_bytes output data_type.RAW (some [0]) line_items emitter_init).2.2 a1 v0 v1 v2 v3
  obtain ⟨out, o1, o2⟩ := extract_subkeys_raw x line_items ps fuel input1 final r.1 r.2 hy
    (fun q hq => hv q (List.mem_cons_of_mem _ hq)) hf r1
  refine ⟨out, ?_, ?_⟩
  · simp only [extract, h0, hne, if_false, output_start, r0]
    exact o1
  · have hrec : p0.buf.take 1 ++ x.calculate_fingerprint p0 (x.extract_secrets p0) ++
        [(p0.len - (x.extract_secrets p0).toNat) / 256,
          (p0.len - (x.extract_secrets p0).toNat) % 256] ++
        p0.buf.drop (x.extract_secrets p0).toNat = secret_record x p0 := by
      rw [take_one_eq p0 v4]
      rfl
    rw [hrec] at r2 r3
    have hall : do_crc24 r.2.all_crc (ps.map (secret_record x)).flatten &&& 0xFFFFFF =
        crc24 ([0] ++ ((p0 :: ps).map (secret_record x)).flatten) := by
      rw [r3, a3]
      show do_crc24 (do_crc24 (do_crc24 emitter_init.all_crc [0]) (secret_record x p0))
        (ps.map (secret_record x)).flatten &&& 0xFFFFFF = _
      rw [← do_crc24_append, ← do_crc24_append]
      exact do_crc24_init_mask _
    rw [o2, hall, r2, a2, crc_tail_eq _ (crc24_lt _)]
    simp only [List.map_cons, List.flatten_cons, List.append_assoc, crc24_bytes]

/-! ## The packet reader on packets framed by the writer -/

theorem openpgp_header_length_ge (tag length : Nat) : 2 ≤ (openpgp_header tag length).length := by
  rw [openpgp_header_size]
  split <;> split <;> (try split) <;> omega

theorem parse_packet_framed (p : packet) (rest : List Nat) (ht : p.type < 64)
    (hl : p.len < 2 ^ 32) : parse_packet (framed p ++ rest) = some (p, rest) := by
  have h := parse_openpgp_header p.type p.len (p.buf ++ rest) ht hl
  have hlen : ¬ (p.buf ++ rest).length < p.len := by
    simp [packet.len]
  simp only [parse_packet, framed, List.append_assoc, h, hlen, if_false]
  have e1 : (p.buf ++ rest).take p.len = p.buf := by
    simp [packet.len]
  have e2 : (p.buf ++ rest).drop p.len = rest := by
    simp [packet.len]
  rw [e1, e2]

theorem secret_key_cons (p : packet) (ps : List packet) :
    secret_key (p :: ps) = framed p ++ secret_key ps := rfl

theorem framed_length (p : packet) : (framed p).length = (openpgp_header p.type p.len).length + p.len := by
  simp [framed, packet.len]

theorem secret_key_length_ge (ps : List packet) : 2 * ps.length ≤ (secret_key ps).length := by
  induction ps with
  | nil => simp [secret_key]
  | cons p rest ih =>
    rw [secret_key_cons, List.length_append, framed_length, List.length_cons]
    have := openpgp_header_length_ge p.type p.len
    omega

theorem parse_scan_skip (wanted alt fuel : Nat) (skipped : List packet) (tail : List Nat)
    (hs : ∀ p ∈ skipped, p.type < 64 ∧ p.len < 2 ^ 32 ∧ p.type ≠ wanted ∧ p.type ≠ alt) :
    parse_scan wanted alt (fuel + skipped.length) (secret_key skipped ++ tail) =
      parse_scan wanted alt fuel tail := by
  induction skipped with
  | nil => simp [secret_key]
  | cons p rest ih =>
    obtain ⟨h1, h2, h3, h4⟩ := hs p (List.mem_cons_self _ _)
    have hne : ¬ (p.type = wanted ∨ p.type = alt) := by
      rintro (h | h)
      · exact h3 h
      · exact h4 h
    rw [secret_key_cons, List.append_assoc, List.length_cons, ← Nat.add_assoc]
    simp only [parse_scan, parse_packet_framed p _ h1 h2, hne, if_false]
    exact ih (fun q hq => hs q (List.mem_cons_of_mem _ hq))

theorem parse_scan_found (wanted alt fuel : Nat) (skipped : List packet) (p : packet)
    (tail : List Nat)
    (hs : ∀ q ∈ skipped, q.type < 64 ∧ q.len < 2 ^ 32 ∧ q.type ≠ wanted ∧ q.type ≠ alt)
    (hp : p.type < 64 ∧ p.len < 2 ^ 32 ∧ (p.type = wanted ∨ p.type = alt))
    (hf : skipped.length < fuel) :
    parse_scan wanted alt fuel (secret_key skipped ++ (framed p ++ tail)) = (some p, tail) := by
  obtain ⟨f, rfl⟩ : ∃ f, fuel = (f + 1) + skipped.length := ⟨fuel - skipped.length - 1, by omega⟩
  rw [parse_scan_skip wanted alt (f + 1) skipped _ hs]
  simp only [parse_scan, parse_packet_framed p _ hp.1 hp.2.1, hp.2.2, if_true]

theorem parse_scan_none (wanted alt fuel : Nat) (skipped : List packet)
    (hs : ∀ q ∈ skipped, q.type < 64 ∧ q.len < 2 ^ 32 ∧ q.type ≠ wanted ∧ q.type ≠ alt)
    (hf : skipped.length ≤ fuel) :
    parse_scan wanted alt fuel (secret_key skipped) = (none, []) := by
  obtain ⟨f, rfl⟩ : ∃ f, fuel = f + skipped.length := ⟨fuel - skipped.length, by omega⟩
  have h := parse_scan_skip wanted alt f skipped [] hs
  rw [List.append_nil] at h
  rw [h]
  cases f <;> simp [parse_scan, parse_packet, parse_header]

theorem stream_at_rest (S : List Nat) (pre rem : List Nat) (hS : S = pre ++ rem) :
    (stream_at S ((S.length : Int) - (rem.length : Nat))).contents.drop
      ((stream_at S ((S.length : Int) - (rem.length : Nat))).pos.toNat) = rem := by
  subst hS
  have e : (((pre ++ rem).length : Nat) : Int) - (rem.length : Nat) = ((pre.length : Nat) : Int) := by
    simp
  simp only [stream_at, stream.contents, e, Int.toNat_ofNat, List.take_length, List.drop_left]

theorem parse_stream_found (S pre : List Nat) (wanted alt : Nat) (skipped : List packet)
    (p : packet) (tail : List Nat)
    (hS : S = pre ++ (secret_key skipped ++ (framed p ++ tail)))
    (hs : ∀ q ∈ skipped, q.type < 64 ∧ q.len < 2 ^ 32 ∧ q.type ≠ wanted ∧ q.type ≠ alt)
    (hp : p.type < 64 ∧ p.len < 2 ^ 32 ∧ (p.type = wanted ∨ p.type = alt)) :
    parse (stream_at S ((S.length : Int) -
        ((secret_key skipped ++ (framed p ++ tail)).length : Nat))) wanted alt =
      (some p, stream_at S ((S.length : Int) - (tail.length : Nat))) := by
  have hb := stream_at_rest S pre _ hS
  have hfuel : skipped.length < (secret_key skipped ++ (framed p ++ tail)).length := by
    have h1 := secret_key_length_ge skipped
    have h2 := openpgp_header_length_ge p.type p.len
    simp only [List.length_append, framed_length]
    omega
  simp only [parse, hb, parse_scan_found wanted alt _ skipped p tail hs hp hfuel]
  rfl

theorem parse_stream_none (S pre : List Nat) (wanted alt : Nat) (skipped : List packet)
    (hS : S = pre ++ secret_key skipped)
    (hs : ∀ q ∈ skipped, q.type < 64 ∧ q.len < 2 ^ 32 ∧ q.type ≠ wanted ∧ q.type ≠ alt) :
    parse (stream_at S ((S.length : Int) - ((secret_key skipped).length : Nat))) wanted alt =
      (none, stream_at S (S.length : Int)) := by
  have hb := stream_at_rest S pre _ hS
  have hfuel : skipped.length ≤ (secret_key skipped).length := by
    have h1 := secret_key_length_ge skipped
    omega
  simp only [parse, hb, parse_scan_none wanted alt _ skipped hs hfuel]
  simp [stream_at]

theorem secret_key_append (a b : List packet) :
    secret_key (a ++ b) = secret_key a ++ secret_key b := by
  simp [secret_key]

theorem parse_yields_subkeys (sha1 : List Nat → List Nat) (S : List Nat) (rest : List packet)
    (pre : List Nat) (skipped : List packet)
    (hS : S = pre ++ secret_key (skipped ++ rest))
    (hs : ∀ q ∈ skipped, q.type < 64 ∧ q.len < 2 ^ 32 ∧ q.type ≠ 7 ∧ q.type ≠ 5)
    (hr : ∀ q ∈ rest, q.type < 64 ∧ q.len < 2 ^ 32 ∧ q.type ≠ 5) :
    parse_yields (spec_collaborators sha1) 7 5
      (stream_at S ((S.length : Int) - ((secret_key (skipped ++ rest)).length : Nat)))
      (rest.filter (fun q => decide (q.type = 7))) (stream_at S (S.length : Int)) := by
  induction rest generalizing pre skipped with
  | nil =>
    simp only [List.append_nil, List.filter_nil, parse_yields] at hS ⊢
    exact parse_stream_none S pre 7 5 skipped hS hs
  | cons q rest ih =>
    obtain ⟨h1, h2, h3⟩ := hr q (List.mem_cons_self _ _)
    by_cases h7 : q.type = 7
    · have hf : (q :: rest).filter (fun q => decide (q.type = 7)) =
          q :: rest.filter (fun q => decide (q.type = 7)) := by
        simp [List.filter_cons, h7]
      rw [hf]
      have hS1 : S = pre ++ (secret_key skipped ++ (framed q ++ secret_key rest)) := by
        rw [hS, secret_key_append, secret_key_cons]
      have hS2 : S = (pre ++ secret_key skipped ++ framed q) ++ secret_key ([] ++ rest) := by
        rw [hS1]
        simp
      refine ⟨stream_at S ((S.length : Int) - ((secret_key rest).length : Nat)), ?_, ?_⟩
      · have := parse_stream_found S pre 7 5 skipped q (secret_key rest) hS1 hs
          ⟨h1, h2, Or.inl h7⟩
        rw [secret_key_append, secret_key_cons]
        exact this
      · exact ih _ [] hS2 (by simp) (fun x hx => hr x (List.mem_cons_of_mem _ hx))
    · have hf : (q :: rest).filter (fun q => decide (q.type = 7)) =
          rest.filter (fun q => decide (q.type = 7)) := by
        simp [List.filter_cons, h7]
      rw [hf]
      have e : skipped ++ q :: rest = (skipped ++ [q]) ++ rest := by simp
      rw [e] at hS ⊢
      refine ih pre (skipped ++ [q]) hS ?_ (fun x hx => hr x (List.mem_cons_of_mem _ hx))
      intro x hx
      rcases List.mem_append.mp hx with hx | hx
      · exact hs x hx
      · rw [List.mem_singleton] at hx
        subst hx
        exact ⟨h1, h2, h7, h3⟩

/-! ## `extract` as a sequence of output calls -/

theorem output_seq_append (type : data_type) (n : Nat) (a b : List (List Nat))
    (st : stream × emitter) :
    output_seq type n (a ++ b) st = output_seq type n b (output_seq type n a st) := by
  induction a generalizing st with
  | nil => rfl
  | cons x rest ih => exact ih _

theorem output_record_eq (x : collaborators) (type : data_type) (n : Nat) (output : stream)
    (e : emitter) (p : packet) (h0 : 0 ≤ x.extract_secrets p)
    (h1 : x.extract_secrets p ≤ p.len) (h2 : 1 ≤ p.len)
    (h3 : p.len - (x.extract_secrets p).toNat ≤ 65535)
    (h4 : (x.calculate_fingerprint p (x.extract_secrets p)).length = 20) :
    output_record output type p (x.extract_secrets p)
        (x.calculate_fingerprint p (x.extract_secrets p)) n e =
      some (output_seq type n (record_buffers x p) (output, e)) := by
  have hL := secret_length_eq p _ h0 h1 h3
  have hfp20 : (x.calculate_fingerprint p (x.extract_secrets p)).take 20 =
      x.calculate_fingerprint p (x.extract_secrets p) := List.take_of_length_le (by omega)
  have hsec : (p.buf.drop (x.extract_secrets p).toNat).take
      (p.len - (x.extract_secrets p).toNat) = p.buf.drop (x.extract_secrets p).toNat :=
    List.take_of_length_le (by simp [packet.len])
  have e1 : ((p.len - (x.extract_secrets p).toNat) >>> 8) % 256 =
      (p.len - (x.extract_secrets p).toNat) / 256 := by
    rw [Nat.shiftRight_eq_div_pow]
    omega
  simp only [output_record, hL, hfp20, hsec, output_length16, h3, if_true, e1,
    take_one_eq p h2, record_buffers, output_seq]

theorem extract_subkeys_eq (x : collaborators) (type : data_type) (n : Nat) (ps : List packet)
    (fuel : Nat) (input final output : stream) (e : emitter)
    (hy : parse_yields x 7 5 input ps final)
    (hv : ∀ p ∈ ps, 0 ≤ x.extract_secrets p ∧ x.extract_secrets p ≤ p.len ∧ 1 ≤ p.len ∧
      p.len - (x.extract_secrets p).toNat ≤ 65535 ∧
      (x.calculate_fingerprint p (x.extract_secrets p)).length = 20)
    (hf : ps.length < fuel) :
    extract_subkeys x type n fuel input output e =
      run.returned (0, final,
        (output_finish (output_seq type n (ps.map (record_buffers x)).flatten (output, e)).1
          type n (output_seq type n (ps.map (record_buffers x)).flatten (output, e)).2).1) := by
  induction ps generalizing fuel input output e with
  | nil =>
    obtain ⟨f, rfl⟩ : ∃ f, fuel = f + 1 := ⟨fuel - 1, by simp at hf; omega⟩
    simp only [parse_yields] at hy
    simp only [extract_subkeys, hy, List.map_nil, List.flatten_nil, output_seq]
  | cons p rest ih =>
    obtain ⟨f, rfl⟩ : ∃ f, fuel = f + 1 := ⟨fuel - 1, by simp at hf; omega⟩
    obtain ⟨input1, hp, hy1⟩ := hy
    obtain ⟨v0, v1, v4, v2, v3⟩ := hv p (List.mem_cons_self _ _)
    have hne : ¬ x.extract_secrets p = -1 := by omega
    simp only [extract_subkeys, hp, hne, if_false, output_record_eq x type n output e p v0 v1 v4 v2 v3]
    rw [ih f input1 _ _ hy1 (fun q hq => hv q (List.mem_cons_of_mem _ hq))
      (by simp at hf; omega)]
    simp only [List.map_cons, List.flatten_cons, output_seq_append]

theorem extract_eq (x : collaborators) (env : banner) (fuel line_items : Nat)
    (input input1 final output : stream) (type : data_type) (p0 : packet) (ps : List packet)
    (width : Nat)
    (h0 : x.parse input 5 0 = (some p0, input1))
    (hy : parse_yields x 7 5 input1 ps final)
    (hv : ∀ p ∈ p0 :: ps, 0 ≤ x.extract_secrets p ∧ x.extract_secrets p ≤ p.len ∧ 1 ≤ p.len ∧
      p.len - (x.extract_secrets p).toNat ≤ 65535 ∧
      (x.calculate_fingerprint p (x.extract_secrets p)).length = 20)
    (hf : ps.length < fuel) :
    extract x env fuel line_items input output type width =
      run.returned (0, final,
        emit_all type
          (output_start env output type (x.calculate_fingerprint p0 (x.extract_secrets p0))
            width line_items).2.2
          (paper_key_buffers x (p0 :: ps))
          (output_start env output type (x.calculate_fingerprint p0 (x.extract_secrets p0))
            width line_items).2.1) := by
  obtain ⟨v0, v1, v4, v2, v3⟩ := hv p0 (List.mem_cons_self _ _)
  have hne : ¬ x.extract_secrets p0 = -1 := by omega
  simp only [extract, h0, hne, if_false, output_record_eq x type _ _ _ p0 v0 v1 v4 v2 v3]
  rw [extract_subkeys_eq x type _ ps fuel input1 final _ _ hy
    (fun q hq => hv q (List.mem_cons_of_mem _ hq)) hf]
  simp only [emit_all, paper_key_buffers, List.map_cons, List.flatten_cons,
    List.singleton_append, output_seq_append]
  rfl

/-! ## The secret locator of the specification stays within the body -/

theorem skip_mpi_bounds (buf : List Nat) (i j : Nat) (h : skip_mpi buf i = some j) :
    i ≤ j ∧ j ≤ buf.length := by
  unfold skip_mpi at h
  by_cases h1 : i + 2 ≤ buf.length
  · simp only [h1, if_true] at h
    by_cases h2 : i + 2 + (buf.getD i 0 * 256 + buf.getD (i + 1) 0 + 7) / 8 ≤ buf.length
    · simp only [h2, if_true, Option.some.injEq] at h
      omega
    · simp only [h2, if_false] at h
      exact Option.noConfusion h
  · simp only [h1, if_false] at h
    exact Option.noConfusion h

theorem skip_mpis_bounds (buf : List Nat) (count i j : Nat) (h : skip_mpis buf count i = some j) :
    i ≤ j ∧ j ≤ buf.length ∨ (count = 0 ∧ i = j) := by
  induction count generalizing i with
  | zero =>
    simp only [skip_mpis, Option.some.injEq] at h
    exact Or.inr ⟨rfl, h⟩
  | succ c ih =>
    simp only [skip_mpis] at h
    cases h1 : skip_mpi buf i with
    | none => simp only [h1] at h; exact Option.noConfusion h
    | some k =>
      simp only [h1] at h
      have b1 := skip_mpi_bounds buf i k h1
      rcases ih k h with b2 | ⟨_, b2⟩
      · exact Or.inl ⟨by omega, b2.2⟩
      · exact Or.inl ⟨by omega, by omega⟩

theorem skip_block_bounds (buf : List Nat) (i j : Nat) (h : skip_block buf i = some j) :
    i ≤ j ∧ j ≤ buf.length := by
  unfold skip_block at h
  by_cases h1 : i + 1 ≤ buf.length
  · simp only [h1, if_true] at h
    by_cases h2 : i + 1 + buf.getD i 0 ≤ buf.length
    · simp only [h2, if_true, Option.some.injEq] at h
      omega
    · simp only [h2, if_false] at h
      exact Option.noConfusion h
  · simp only [h1, if_false] at h
    exact Option.noConfusion h

theorem skip_public_fields_bounds (buf : List Nat) (alg i j : Nat)
    (h : skip_public_fields buf alg i = some j) : i ≤ j ∧ j ≤ buf.length := by
  unfold skip_public_fields at h
  split at h
  · rcases skip_mpis_bounds buf 2 i j h with b | ⟨b, _⟩
    · exact b
    · omega
  · split at h
    · rcases skip_mpis_bounds buf 3 i j h with b | ⟨b, _⟩
      · exact b
      · omega
    · split at h
      · rcases skip_mpis_bounds buf 4 i j h with b | ⟨b, _⟩
        · exact b
        · omega
      · split at h
        · cases h1 : skip_block buf i with
          | none => simp only [h1] at h; exact Option.noConfusion h
          | some a =>
            simp only [h1] at h
            cases h2 : skip_mpi buf a with
            | none => simp only [h2] at h; exact Option.noConfusion h
            | some b =>
              simp only [h2] at h
              have b1 := skip_block_bounds buf i a h1
              have b2 := skip_mpi_bounds buf a b h2
              have b3 := skip_block_bounds buf b j h
              omega
        · split at h
          · cases h1 : skip_block buf i with
            | none => simp only [h1] at h; exact Option.noConfusion h
            | some a =>
              simp only [h1] at h
              have b1 := skip_block_bounds buf i a h1
              have b2 := skip_mpi_bounds buf a j h
              omega
          · exact Option.noConfusion h

theorem extract_secrets_bounds (p : packet) (h : extract_secrets p ≠ -1) :
    ∃ o : Nat, extract_secrets p = (o : Int) ∧ 6 ≤ o ∧ o ≤ p.len := by
  unfold extract_secrets at h ⊢
  split at h
  · exact absurd rfl h
  · split at h
    · exact absurd rfl h
    · rename_i h1 h2
      simp only [h1, h2, if_false]
      cases h3 : skip_public_fields p.buf (p.buf.getD 5 0) 6 with
      | none => rw [h3] at h; exact absurd rfl h
      | some o =>
        have b := skip_public_fields_bounds p.buf _ 6 o h3
        exact ⟨o, rfl, b.1, b.2⟩

/-! ## The RAW artifact read back -/

theorem decode_raw_artifact (P : List Nat) : decode_raw (P ++ crc24_bytes P) = some P := by
  have hl : (P ++ crc24_bytes P).length - 3 = P.length := by
    simp [crc24_bytes]
  have h3 : ¬ (P ++ crc24_bytes P).length < 3 := by
    simp [crc24_bytes]
  have ht : (P ++ crc24_bytes P).take P.length = P := by simp
  have hd : (P ++ crc24_bytes P).drop P.length = crc24_bytes P := by simp
  have hc : [((do_crc24 CRC24_INIT P &&& 0xFFFFFF) >>> 16) % 256,
      ((do_crc24 CRC24_INIT P &&& 0xFFFFFF) >>> 8) % 256,
      (do_crc24 CRC24_INIT P &&& 0xFFFFFF) % 256] = crc24_bytes P := by
    rw [do_crc24_init_mask, crc_tail_eq _ (crc24_lt P)]
    rfl
  simp only [decode_raw, h3, if_false, hl, ht, hd, hc, if_true]

theorem record_fields (b : Nat) (fp tl : List Nat) (a c : Nat) (hfp : fp.length = 20) :
    (b :: (fp ++ (a :: c :: tl))).drop 23 = tl ∧
      (b :: (fp ++ (a :: c :: tl))).getD 21 0 = a ∧
      (b :: (fp ++ (a :: c :: tl))).getD 22 0 = c ∧
      ((b :: (fp ++ (a :: c :: tl))).drop 1).take 20 = fp ∧
      ¬ (b :: (fp ++ (a :: c :: tl))).length < 23 := by
  have e0 : b :: (fp ++ a :: c :: tl) = (b :: fp) ++ (a :: c :: tl) := rfl
  have e1 : b :: (fp ++ a :: c :: tl) = (b :: fp ++ [a]) ++ (c :: tl) := by simp
  have e2 : b :: (fp ++ a :: c :: tl) = (b :: fp ++ [a, c]) ++ tl := by simp
  have l0 : (b :: fp).length = 21 := by simp [hfp]
  have l1 : (b :: fp ++ [a]).length = 22 := by simp [hfp]
  have l2 : (b :: fp ++ [a, c]).length = 23 := by simp [hfp]
  refine ⟨?_, ?_, ?_, ?_, ?_⟩
  · rw [e2, ← l2, List.drop_left]
  · rw [e0, List.getD_eq_getElem?_getD, List.getElem?_append_right (by rw [l0]), l0]
    simp
  · rw [e1, List.getD_eq_getElem?_getD, List.getElem?_append_right (by rw [l1]), l1]
    simp
  · rw [List.drop_succ_cons, List.drop_zero, ← hfp, List.take_left]
  · rw [e2, List.length_append, l2]
    omega

theorem read_records_records (sha1 : List Nat → List Nat) (ps : List packet) (fuel : Nat)
    (hv : ∀ p ∈ ps, 0 ≤ extract_secrets p ∧ extract_secrets p ≤ p.len ∧
      p.len - (extract_secrets p).toNat ≤ 65535 ∧
      (calculate_fingerprint sha1 p (extract_secrets p)).length = 20)
    (hf : ps.length ≤ fuel) :
    read_records fuel ((ps.map (secret_record (spec_collaborators sha1))).flatten) =
      some (ps.map (fun p => (calculate_fingerprint sha1 p (extract_secrets p),
        p.buf.drop (extract_secrets p).toNat))) := by
  induction ps generalizing fuel with
  | nil => cases fuel <;> simp [read_records]
  | cons p rest ih =>
    obtain ⟨f, rfl⟩ : ∃ f, fuel = f + 1 := ⟨fuel - 1, by simp at hf; omega⟩
    obtain ⟨v0, v1, v2, v3⟩ := hv p (List.mem_cons_self _ _)
    have hsec : (p.buf.drop (extract_secrets p).toNat).length =
        p.len - (extract_secrets p).toNat := by simp [packet.len]
    have hrec : (secret_record (spec_collaborators sha1) p ++
        (rest.map (secret_record (spec_collaborators sha1))).flatten) =
        p.buf.getD 0 0 :: (calculate_fingerprint sha1 p (extract_secrets p) ++
          ((p.len - (extract_secrets p).toNat) / 256 ::
            (p.len - (extract_secrets p).toNat) % 256 ::
              (p.buf.drop (extract_secrets p).toNat ++
                (rest.map (secret_record (spec_collaborators sha1))).flatten))) := by
      simp [secret_record, spec_collaborators]
    rw [List.map_cons, List.flatten_cons, hrec]
    obtain ⟨d1, d2, d3, d4, d5⟩ := record_fields (p.buf.getD 0 0)
      (calculate_fingerprint sha1 p (extract_secrets p))
      (p.buf.drop (extract_secrets p).toNat ++
        (rest.map (secret_record (spec_collaborators sha1))).flatten)
      ((p.len - (extract_secrets p).toNat) / 256) ((p.len - (extract_secrets p).toNat) % 256) v3
    have hL : (p.len - (extract_secrets p).toNat) / 256 * 256 +
        (p.len - (extract_secrets p).toNat) % 256 = p.len - (extract_secrets p).toNat := by
      omega
    have hnot : ¬ (p.buf.drop (extract_secrets p).toNat ++
        (rest.map (secret_record (spec_collaborators sha1))).flatten).length <
        p.len - (extract_secrets p).toNat := by
      rw [List.length_append, hsec]
      omega
    simp only [read_records, d1, d2, d3, d4, d5, if_false, hL, hnot]
    rw [← hsec, List.drop_left, List.take_left,
      ih f (fun q hq => hv q (List.mem_cons_of_mem _ hq)) (by simp at hf; omega)]
    simp

/-! ## The merge of restore -/

theorem framed_ne_nil (q : packet) : ∃ b bytes, framed q = b :: bytes := by
  have h := openpgp_header_length_ge q.type q.len
  rcases hq : framed q with _ | ⟨b, bytes⟩
  · have := congrArg List.length hq
    rw [framed_length, List.length_nil] at this
    omega
  · exact ⟨b, bytes, rfl⟩

theorem parse_all_framed (qs : List packet) (fuel : Nat)
    (hq : ∀ q ∈ qs, q.type < 64 ∧ q.len < 2 ^ 32) (hf : qs.length ≤ fuel) :
    parse_all fuel (secret_key qs) = some (qs.map read_entry) := by
  induction qs generalizing fuel with
  | nil => cases fuel <;> simp [secret_key, parse_all]
  | cons q rest ih =>
    obtain ⟨f, rfl⟩ : ∃ f, fuel = f + 1 := ⟨fuel - 1, by simp at hf; omega⟩
    obtain ⟨h1, h2⟩ := hq q (List.mem_cons_self _ _)
    obtain ⟨b, bytes, hb⟩ := framed_ne_nil q
    have hp := parse_packet_framed q (secret_key rest) h1 h2
    have hcons : secret_key (q :: rest) = b :: (bytes ++ secret_key rest) := by
      rw [secret_key_cons, hb]
      rfl
    have hraw : (b :: (bytes ++ secret_key rest)).take
        ((b :: (bytes ++ secret_key rest)).length - (secret_key rest).length) = framed q := by
      have e : b :: (bytes ++ secret_key rest) = framed q ++ secret_key rest := by
        rw [hb]
        rfl
      rw [e, List.length_append, Nat.add_sub_cancel, List.take_left]
    rw [hcons]
    rw [hb] at hp
    simp only [parse_all]
    rw [show b :: (bytes ++ secret_key rest) = b :: bytes ++ secret_key rest from rfl, hp]
    simp only []
    rw [ih f (fun x hx => hq x (List.mem_cons_of_mem _ hx)) (by simp at hf; omega)]
    simp only [List.map_cons, Option.some.injEq, List.cons.injEq, and_true]
    rw [show b :: bytes ++ secret_key rest = b :: (bytes ++ secret_key rest) from rfl, hraw]
    rfl

theorem assign_record_skip (sha1 : List Nat → List Nat) (tag : Nat)
    (record : List Nat × List Nat) (done entries : List pub_entry)
    (hd : ∀ e ∈ done, ¬ (e.p.type = tag ∧ e.secret = none)) :
    assign_record sha1 tag record (done ++ entries) =
      (assign_record sha1 tag record entries).map (fun l => done ++ l) := by
  induction done with
  | nil => simp
  | cons e rest ih =>
    have he : ¬ (e.p.type = tag ∧ e.secret = none ∧
        calculate_fingerprint sha1 e.p (e.p.len : Nat) = record.1) := by
      intro h
      exact hd e (List.mem_cons_self _ _) ⟨h.1, h.2.1⟩
    have ih1 := ih (fun x hx => hd x (List.mem_cons_of_mem _ hx))
    simp only [List.cons_append, assign_record, he, if_false]
    change (match assign_record sha1 tag record (rest ++ entries) with
      | none => none
      | some rest1 => some (e :: rest1)) = _
    rw [ih1]
    cases assign_record sha1 tag record entries <;> rfl

theorem public_fingerprint (sha1 : List Nat → List Nat) (p : packet) (o : Nat)
    (ho : extract_secrets p = (o : Int)) (hle : o ≤ p.len) (q : packet)
    (hq : q.buf = p.buf.take o) :
    calculate_fingerprint sha1 q (q.len : Nat) = calculate_fingerprint sha1 p (extract_secrets p) := by
  have hl : q.len = o := by
    simp [packet.len, hq]
    exact hle
  simp only [calculate_fingerprint, ho, hl, Int.toNat_ofNat, hq, List.take_take, Nat.min_self]

theorem emit_merged_entry (p : packet)
    (hk : (p.type = 5 ∨ p.type = 7) → extract_secrets p ≠ -1)
    (hn : p.type ≠ 6 ∧ p.type ≠ 14) : emit_entry (merged_entry p) = framed p := by
  by_cases h5 : p.type = 5
  · obtain ⟨o, ho, _, hle⟩ := extract_secrets_bounds p (hk (Or.inl h5))
    have hlen : (p.buf.take o).length + (p.buf.drop o).length = p.len := by
      simp [packet.len]
      omega
    simp only [emit_entry, merged_entry, public_packet, h5, true_or, if_true, ho,
      Int.toNat_ofNat, packet.len, hlen, framed, List.append_assoc, List.take_append_drop]
  · by_cases h7 : p.type = 7
    · obtain ⟨o, ho, _, hle⟩ := extract_secrets_bounds p (hk (Or.inr h7))
      have hlen : (p.buf.take o).length + (p.buf.drop o).length = p.len := by
        simp [packet.len]
        omega
      have h75 : ¬ ((7 : Nat) = 5) := by decide
      have h146 : ¬ ((14 : Nat) = 6) := by decide
      simp only [emit_entry, merged_entry, public_packet, h7, h75, or_true, if_true, if_false,
        ho, Int.toNat_ofNat, packet.len, h146, framed, List.append_assoc,
        List.take_append_drop]
      rw [show (List.take o p.buf).length + (List.drop o p.buf).length = p.buf.length from hlen]
    · simp only [emit_entry, merged_entry, public_packet, h5, h7, or_self, if_false, hn.1, hn.2]

theorem assign_subkeys_rest (sha1 : List Nat → List Nat) (rest : List packet)
    (done : List pub_entry)
    (hd : ∀ e ∈ done, ¬ (e.p.type = 14 ∧ e.secret = none))
    (hr : ∀ p ∈ rest, p.type ≠ 5 ∧ p.type ≠ 6 ∧ p.type ≠ 14 ∧
      (p.type = 7 → extract_secrets p ≠ -1)) :
    assign_subkeys sha1 ((rest.filter (fun q => decide (q.type = 7))).map (record_of sha1))
        (done ++ (rest.map public_packet).map read_entry) =
      some (done ++ rest.map merged_entry) := by
  induction rest generalizing done with
  | nil => simp [assign_subkeys]
  | cons q rest ih =>
    obtain ⟨n5, n6, n14, hk⟩ := hr q (List.mem_cons_self _ _)
    by_cases h7 : q.type = 7
    · obtain ⟨o, ho, _, hle⟩ := extract_secrets_bounds q (hk h7)
      have h75 : ¬ ((7 : Nat) = 5) := by decide
      have hpub : public_packet q = { type := 14, buf := q.buf.take o } := by
        simp [public_packet, h7, h75, ho]
      have hfp := public_fingerprint sha1 q o ho hle (public_packet q) (by rw [hpub])
      have hcond : (read_entry (public_packet q)).p.type = 14 ∧
          (read_entry (public_packet q)).secret = none ∧
          calculate_fingerprint sha1 (read_entry (public_packet q)).p
            ((read_entry (public_packet q)).p.len : Nat) = (record_of sha1 q).1 := by
        refine ⟨by rw [hpub]; rfl, rfl, ?_⟩
        exact hfp
      have hm : ({ read_entry (public_packet q) with secret := some (record_of sha1 q).2 } :
          pub_entry) = merged_entry q := by
        simp [read_entry, merged_entry, h7, record_of]
      have hf : (q :: rest).filter (fun q => decide (q.type = 7)) =
          q :: rest.filter (fun q => decide (q.type = 7)) := by
        simp [List.filter_cons, h7]
      rw [hf, List.map_cons, List.map_cons, List.map_cons, assign_subkeys,
        assign_record_skip sha1 14 _ done _ hd]
      simp only [assign_record, hcond, and_self, if_true, Option.map_some', hm]
      have := ih (done ++ [merged_entry q]) (by
        intro e he
        rcases List.mem_append.mp he with he | he
        · exact hd e he
        · rw [List.mem_singleton] at he
          subst he
          simp [merged_entry, h7]) (fun x hx => hr x (List.mem_cons_of_mem _ hx))
      simp only [List.append_assoc, List.singleton_append] at this
      rw [this]
      simp
    · have hpub : public_packet q = q := by
        simp [public_packet, n5, h7]
      have hm : merged_entry q = read_entry q := by
        simp [merged_entry, read_entry, hpub, n5, h7]
      have hf : (q :: rest).filter (fun q => decide (q.type = 7)) =
          rest.filter (fun q => decide (q.type = 7)) := by
        simp [List.filter_cons, h7]
      rw [hf, List.map_cons, List.map_cons, List.map_cons, hpub, hm]
      have := ih (done ++ [read_entry q]) (by
        intro e he
        rcases List.mem_append.mp he with he | he
        · exact hd e he
        · rw [List.mem_singleton] at he
          subst he
          simp [read_entry, n14]) (fun x hx => hr x (List.mem_cons_of_mem _ hx))
      simp only [List.append_assoc, List.singleton_append] at this
      exact this

theorem secret_records_length_ge (x : collaborators) (ks : List packet) :
    ks.length ≤ ((ks.map (secret_record x)).flatten).length := by
  induction ks with
  | nil => simp
  | cons k rest ih =>
    simp only [List.map_cons, List.flatten_cons, List.length_append, List.length_cons]
    have : 1 ≤ (secret_record x k).length := by simp [secret_record]
    omega

theorem public_packet_bounds (p : packet) (ht : p.type < 64) (hl : p.len < 2 ^ 32)
    (hk : (p.type = 5 ∨ p.type = 7) → extract_secrets p ≠ -1) :
    (public_packet p).type < 64 ∧ (public_packet p).len < 2 ^ 32 := by
  by_cases h5 : p.type = 5
  · obtain ⟨o, ho, _, hle⟩ := extract_secrets_bounds p (hk (Or.inl h5))
    simp only [public_packet, h5, if_true, ho, Int.toNat_ofNat, packet.len, List.length_take]
    unfold packet.len at hl hle
    exact ⟨by norm_num, by omega⟩
  · by_cases h7 : p.type = 7
    · obtain ⟨o, ho, _, hle⟩ := extract_secrets_bounds p (hk (Or.inr h7))
      have h75 : ¬ ((7 : Nat) = 5) := by decide
      simp only [public_packet, h7, h75, if_true, if_false, ho, Int.toNat_ofNat, packet.len,
        List.length_take]
      unfold packet.len at hl hle
      exact ⟨by norm_num, by omega⟩
    · simp only [public_packet, h5, h7, if_false]
      exact ⟨ht, hl⟩

theorem assign_record_hit (sha1 : List Nat → List Nat) (tag : Nat)
    (record : List Nat × List Nat) (e : pub_entry) (rest : List pub_entry)
    (hc : e.p.type = tag ∧ e.secret = none ∧
      calculate_fingerprint sha1 e.p (e.p.len : Nat) = record.1) :
    assign_record sha1 tag record (e :: rest) =
      some ({ e with secret := some record.2 } :: rest) := by
  rw [assign_record, if_pos hc]

theorem merge_paper_key_round_trip (sha1 : List Nat → List Nat) (p0 : packet)
    (rest : List packet)
    (hsha : ∀ l, (sha1 l).length = 20)
    (h0 : p0.type = 5)
    (hr : ∀ p ∈ rest, p.type < 64 ∧ p.type ≠ 5 ∧ p.type ≠ 6 ∧ p.type ≠ 14)
    (hk : ∀ p ∈ p0 :: rest, (p.type = 5 ∨ p.type = 7) →
      extract_secrets p ≠ -1 ∧ p.len - (extract_secrets p).toNat ≤ 65535)
    (hl : ∀ p ∈ p0 :: rest, p.len < 2 ^ 32) :
    merge_paper_key sha1 (public_key (p0 :: rest))
        ([0] ++ ((p0 :: rest.filter (fun q => decide (q.type = 7))).map
          (secret_record (spec_collaborators sha1))).flatten) =
      some (secret_key (p0 :: rest)) := by
  have hkeys : ∀ p ∈ p0 :: rest.filter (fun q => decide (q.type = 7)),
      0 ≤ extract_secrets p ∧ extract_secrets p ≤ p.len ∧
      p.len - (extract_secrets p).toNat ≤ 65535 ∧
      (calculate_fingerprint sha1 p (extract_secrets p)).length = 20 := by
    intro p hp
    have hmem : p ∈ p0 :: rest ∧ (p.type = 5 ∨ p.type = 7) := by
      rcases List.mem_cons.mp hp with rfl | hp
      · exact ⟨List.mem_cons_self _ _, Or.inl h0⟩
      · have := List.mem_filter.mp hp
        exact ⟨List.mem_cons_of_mem _ this.1, Or.inr (by simpa using this.2)⟩
    obtain ⟨a1, a2⟩ := hk p hmem.1 hmem.2
    obtain ⟨o, ho, _, hle⟩ := extract_secrets_bounds p a1
    refine ⟨by rw [ho]; exact Int.ofNat_nonneg _, by rw [ho]; exact_mod_cast hle, a2, ?_⟩
    exact hsha _
  have hrec := read_records_records sha1 (p0 :: rest.filter (fun q => decide (q.type = 7)))
    ((p0 :: rest.filter (fun q => decide (q.type = 7))).map
      (secret_record (spec_collaborators sha1))).flatten.length hkeys
    (secret_records_length_ge _ _)
  have hpubs : ∀ q ∈ (p0 :: rest).map public_packet, q.type < 64 ∧ q.len < 2 ^ 32 := by
    intro q hq
    obtain ⟨p, hp, rfl⟩ := List.mem_map.mp hq
    have ht : p.type < 64 := by
      rcases List.mem_cons.mp hp with rfl | hp
      · rw [h0]; norm_num
      · exact (hr p hp).1
    exact public_packet_bounds p ht (hl p hp) (fun h => (hk p hp h).1)
  have hall := parse_all_framed ((p0 :: rest).map public_packet)
    (secret_key ((p0 :: rest).map public_packet)).length hpubs (by
      have := secret_key_length_ge ((p0 :: rest).map public_packet)
      omega)
  have hpk : public_key (p0 :: rest) = secret_key ((p0 :: rest).map public_packet) := rfl
  obtain ⟨o, ho, _, hle⟩ := extract_secrets_bounds p0 (hk p0 (List.mem_cons_self _ _) (Or.inl h0)).1
  have hpub0 : public_packet p0 = { type := 6, buf := p0.buf.take o } := by
    simp [public_packet, h0, ho]
  have hfp0 := public_fingerprint sha1 p0 o ho hle (public_packet p0) (by rw [hpub0])
  have hcond : (read_entry (public_packet p0)).p.type = 6 ∧
      (read_entry (public_packet p0)).secret = none ∧
      calculate_fingerprint sha1 (read_entry (public_packet p0)).p
        ((read_entry (public_packet p0)).p.len : Nat) = (record_of sha1 p0).1 := by
    refine ⟨by rw [hpub0]; rfl, rfl, ?_⟩
    exact hfp0
  have hm0 : ({ read_entry (public_packet p0) with secret := some (record_of sha1 p0).2 } :
      pub_entry) = merged_entry p0 := by
    simp [read_entry, merged_entry, h0, record_of]
  have hsub := assign_subkeys_rest sha1 rest [merged_entry p0] (by
    intro e he
    rw [List.mem_singleton] at he
    subst he
    simp [merged_entry, h0]) (fun p hp => ⟨(hr p hp).2.1, (hr p hp).2.2.1, (hr p hp).2.2.2,
      fun h7 => (hk p (List.mem_cons_of_mem _ hp) (Or.inr h7)).1⟩)
  have hemit : (((p0 :: rest).map merged_entry).map emit_entry).flatten =
      secret_key (p0 :: rest) := by
    unfold secret_key
    congr 1
    rw [List.map_map]
    apply List.map_congr_left
    intro p hp
    have hn : p.type ≠ 6 ∧ p.type ≠ 14 := by
      rcases List.mem_cons.mp hp with rfl | hp
      · rw [h0]; exact ⟨by decide, by decide⟩
      · exact ⟨(hr p hp).2.2.1, (hr p hp).2.2.2⟩
    exact emit_merged_entry p (fun h => (hk p hp h).1) hn
  have hz : ¬ ((0 : Nat) ≠ 0) := by simp
  have hrec2 : read_records
      ((p0 :: rest.filter (fun q => decide (q.type = 7))).map
        (secret_record (spec_collaborators sha1))).flatten.length
      ((p0 :: rest.filter (fun q => decide (q.type = 7))).map
        (secret_record (spec_collaborators sha1))).flatten =
      some (record_of sha1 p0 ::
        (rest.filter (fun q => decide (q.type = 7))).map (record_of sha1)) := hrec
  have hall2 : parse_all (public_key (p0 :: rest)).length (public_key (p0 :: rest)) =
      some (read_entry (public_packet p0) :: (rest.map public_packet).map read_entry) := hall
  have hassign : assign_record sha1 6 (record_of sha1 p0)
      (read_entry (public_packet p0) :: (rest.map public_packet).map read_entry) =
      some (merged_entry p0 :: (rest.map public_packet).map read_entry) := by
    rw [assign_record_hit sha1 6 _ _ _ hcond, hm0]
  have hsub2 : assign_subkeys sha1
      ((rest.filter (fun q => decide (q.type = 7))).map (record_of sha1))
      (merged_entry p0 :: (rest.map public_packet).map read_entry) =
      some (merged_entry p0 :: rest.map merged_entry) := hsub
  have hemit2 : ((merged_entry p0 :: rest.map merged_entry).map emit_entry).flatten =
      secret_key (p0 :: rest) := hemit
  rw [List.singleton_append]
  simp only [merge_paper_key, hz, if_false, hrec2, hall2, hassign, hsub2, hemit2]

/-! ## The round trip -/

theorem emit_all_raw (bs : List (List Nat)) (n : Nat) (s0 : stream) (hs : s0.appending) :
    (emit_all data_type.RAW n bs s0).contents =
      s0.contents ++ bs.flatten ++ crc24_bytes bs.flatten := by
  obtain ⟨h1, h2, h3⟩ := output_seq_raw bs n (s0, emitter_init) hs
  simp only [emit_all]
  rw [output_finish_raw _ _ _ h1, h2, h3]
  have hc : do_crc24 emitter_init.all_crc bs.flatten &&& 0xFFFFFF = crc24 bs.flatten :=
    do_crc24_init_mask _
  simp only [hc, crc_tail_eq _ (crc24_lt _), crc24_bytes]

theorem paper_key_buffers_flatten (x : collaborators) (ks : List packet) :
    (paper_key_buffers x ks).flatten = [0] ++ (ks.map (secret_record x)).flatten := by
  induction ks with
  | nil => rfl
  | cons k rest ih =>
    simp only [paper_key_buffers, List.map_cons, List.flatten_append, List.flatten_cons,
      List.flatten_nil, List.append_nil, List.singleton_append, List.cons.injEq, true_and] at ih ⊢
    rw [ih]
    simp [record_buffers, secret_record]

theorem appending_size (s : stream) (hs : s.appending) : s.size = (s.contents.length : Nat) := by
  obtain ⟨_, h0, hm, hl⟩ := hs
  obtain ⟨k, hk⟩ := Int.eq_ofNat_of_zero_le h0
  obtain ⟨m, hm'⟩ := Int.eq_ofNat_of_zero_le (le_trans h0 hm)
  rw [hm'] at hl hm
  rw [hk] at hm
  simp only [Int.toNat_ofNat] at hl
  have : k ≤ m := by exact_mod_cast hm
  simp only [stream.contents, hk, Int.toNat_ofNat, List.length_take, hl]
  congr 1
  omega

theorem stream_of_contents (bytes : List Nat) :
    (stream_of bytes).contents.drop (stream_of bytes).pos.toNat = bytes := by
  simp [stream_of, stream_at, stream.contents]

theorem restore_of_bytes (sha1 : List Nat → List Nat) (pub : List Nat) (artifact : stream)
    (type : data_type) (S : List Nat)
    (h : restore_bytes sha1 pub artifact.contents type = some S) :
    (restore sha1 (stream_of pub) { artifact with pos := 0 } type create_empty_stream).1 = 0 ∧
      (restore sha1 (stream_of pub) { artifact with pos := 0 } type
        create_empty_stream).2.contents = S ∧
      (restore sha1 (stream_of pub) { artifact with pos := 0 } type
        create_empty_stream).2.size = (S.length : Nat) := by
  have hp : ({ artifact with pos := 0 } : stream).contents.drop
      ({ artifact with pos := 0 } : stream).pos.toNat = artifact.contents := by
    simp [stream.contents]
  obtain ⟨a1, a2⟩ := stream_write_appending create_empty_stream S create_empty_stream_appending
  rw [create_empty_stream_contents, List.nil_append] at a2
  have a3 := appending_size _ a1
  rw [a2] at a3
  simp only [restore, stream_of_contents, hp, h]
  exact ⟨trivial, a2, a3⟩

theorem key_packets_valid (sha1 : List Nat → List Nat) (p0 : packet) (rest : List packet)
    (hsha : ∀ l, (sha1 l).length = 20) (h0 : p0.type = 5)
    (hk : ∀ p ∈ p0 :: rest, (p.type = 5 ∨ p.type = 7) →
      extract_secrets p ≠ -1 ∧ p.len - (extract_secrets p).toNat ≤ 65535) :
    ∀ p ∈ p0 :: rest.filter (fun q => decide (q.type = 7)),
      0 ≤ (spec_collaborators sha1).extract_secrets p ∧
        (spec_collaborators sha1).extract_secrets p ≤ p.len ∧ 1 ≤ p.len ∧
        p.len - ((spec_collaborators sha1).extract_secrets p).toNat ≤ 65535 ∧
        ((spec_collaborators sha1).calculate_fingerprint p
          ((spec_collaborators sha1).extract_secrets p)).length = 20 := by
  intro p hp
  have hmem : p ∈ p0 :: rest ∧ (p.type = 5 ∨ p.type = 7) := by
    rcases List.mem_cons.mp hp with rfl | hp
    · exact ⟨List.mem_cons_self _ _, Or.inl h0⟩
    · have := List.mem_filter.mp hp
      exact ⟨List.mem_cons_of_mem _ this.1, Or.inr (by simpa using this.2)⟩
  obtain ⟨a1, a2⟩ := hk p hmem.1 hmem.2
  obtain ⟨o, ho, h6, hle⟩ := extract_secrets_bounds p a1
  show 0 ≤ extract_secrets p ∧ extract_secrets p ≤ p.len ∧ 1 ≤ p.len ∧
    p.len - (extract_secrets p).toNat ≤ 65535 ∧
    (calculate_fingerprint sha1 p (extract_secrets p)).length = 20
  refine ⟨by rw [ho]; exact Int.ofNat_nonneg _, by rw [ho]; exact_mod_cast hle, by omega, a2,
    hsha _⟩

theorem extract_of_secret_key (sha1 : List Nat → List Nat) (env : banner)
    (fuel line_items : Nat) (type : data_type) (p0 : packet) (rest : List packet)
    (hsha : ∀ l, (sha1 l).length = 20) (h0 : p0.type = 5)
    (hr : ∀ p ∈ rest, p.type < 64 ∧ p.type ≠ 5 ∧ p.type ≠ 6 ∧ p.type ≠ 14)
    (hk : ∀ p ∈ p0 :: rest, (p.type = 5 ∨ p.type = 7) →
      extract_secrets p ≠ -1 ∧ p.len - (extract_secrets p).toNat ≤ 65535)
    (hl : ∀ p ∈ p0 :: rest, p.len < 2 ^ 32) (hf : rest.length < fuel) :
    extract (spec_collaborators sha1) env fuel line_items (stream_of (secret_key (p0 :: rest)))
        create_empty_stream type 78 =
      run.returned (0, stream_at (secret_key (p0 :: rest)) ((secret_key (p0 :: rest)).length : Nat),
        emit_all type
          (output_start env create_empty_stream type
            (calculate_fingerprint sha1 p0 (extract_secrets p0)) 78 line_items).2.2
          (paper_key_buffers (spec_collaborators sha1)
            (p0 :: rest.filter (fun q => decide (q.type = 7))))
          (output_start env create_empty_stream type
            (calculate_fingerprint sha1 p0 (extract_secrets p0)) 78 line_items).2.1) := by
  have hp0 : p0.type < 64 ∧ p0.len < 2 ^ 32 ∧ (p0.type = 5 ∨ p0.type = 0) :=
    ⟨by rw [h0]; norm_num, hl p0 (List.mem_cons_self _ _), Or.inl h0⟩
  have hparse0 := parse_stream_found (secret_key (p0 :: rest)) [] 5 0 [] p0 (secret_key rest)
    (by simp [secret_key]) (by simp) hp0
  have e0 : stream_at (secret_key (p0 :: rest)) (((secret_key (p0 :: rest)).length : Nat) -
      ((secret_key [] ++ (framed p0 ++ secret_key rest)).length : Nat)) =
      stream_of (secret_key (p0 :: rest)) := by
    have : secret_key [] ++ (framed p0 ++ secret_key rest) = secret_key (p0 :: rest) := by
      simp [secret_key]
    rw [this, sub_self]
    rfl
  rw [e0] at hparse0
  have hy := parse_yields_subkeys sha1 (secret_key (p0 :: rest)) rest (framed p0) []
    (by simp [secret_key]) (by simp)
    (fun q hq => ⟨(hr q hq).1, hl q (List.mem_cons_of_mem _ hq), (hr q hq).2.1⟩)
  rw [List.nil_append] at hy
  have hf2 : (rest.filter (fun q => decide (q.type = 7))).length < fuel :=
    lt_of_le_of_lt (List.length_filter_le _ _) hf
  exact extract_eq (spec_collaborators sha1) env fuel line_items _ _ _ create_empty_stream type
    p0 _ 78 hparse0 hy (key_packets_valid sha1 p0 rest hsha h0 hk) hf2

theorem round_trip_raw (sha1 : List Nat → List Nat) (env : banner) (fuel line_items : Nat)
    (p0 : packet) (rest : List packet)
    (hsha : ∀ l, (sha1 l).length = 20) (h0 : p0.type = 5)
    (hr : ∀ p ∈ rest, p.type < 64 ∧ p.type ≠ 5 ∧ p.type ≠ 6 ∧ p.type ≠ 14)
    (hk : ∀ p ∈ p0 :: rest, (p.type = 5 ∨ p.type = 7) →
      extract_secrets p ≠ -1 ∧ p.len - (extract_secrets p).toNat ≤ 65535)
    (hl : ∀ p ∈ p0 :: rest, p.len < 2 ^ 32) (hf : rest.length < fuel) :
    round_trips sha1 env fuel line_items (p0 :: rest) data_type.RAW := by
  refine ⟨_, _, extract_of_secret_key sha1 env fuel line_items data_type.RAW p0 rest hsha h0 hr
    hk hl hf, ?_⟩
  apply restore_of_bytes
  have hart : (emit_all data_type.RAW
      (output_start env create_empty_stream data_type.RAW
        (calculate_fingerprint sha1 p0 (extract_secrets p0)) 78 line_items).2.2
      (paper_key_buffers (spec_collaborators sha1)
        (p0 :: rest.filter (fun q => decide (q.type = 7))))
      (output_start env create_empty_stream data_type.RAW
        (calculate_fingerprint sha1 p0 (extract_secrets p0)) 78 line_items).2.1).contents =
      ([0] ++ ((p0 :: rest.filter (fun q => decide (q.type = 7))).map
        (secret_record (spec_collaborators sha1))).flatten) ++
      crc24_bytes ([0] ++ ((p0 :: rest.filter (fun q => decide (q.type = 7))).map
        (secret_record (spec_collaborators sha1))).flatten) := by
    have := emit_all_raw (paper_key_buffers (spec_collaborators sha1)
      (p0 :: rest.filter (fun q => decide (q.type = 7)))) line_items create_empty_stream
      create_empty_stream_appending
    rw [create_empty_stream_contents, List.nil_append, paper_key_buffers_flatten] at this
    exact this
  rw [hart]
  simp only [restore_bytes, decode_artifact, decode_raw_artifact]
  exact merge_paper_key_round_trip sha1 p0 rest hsha h0 hr hk hl

/-! ## The base-16 artifact read back -/

theorem hex_value_hexDigit (d : Nat) (hd : d < 16) : hex_value (hexDigit d) = some d := by
  interval_cases d <;> rfl

theorem hex_number_octet (b : Nat) (hb : b < 256) :
    hex_number 0 [hexDigit (b / 16), hexDigit (b % 16)] = some b := by
  simp only [hex_number, hex_value_hexDigit (b / 16) (by omega),
    hex_value_hexDigit (b % 16) (by omega)]
  congr 1
  omega

theorem hex_number_token (v : Nat) (hv : v < 2 ^ 24) : hex_number 0 (hex_token v) = some v := by
  simp only [hex_token, hex_number, hex_value_hexDigit (v / 16 ^ 5 % 16) (Nat.mod_lt _ (by norm_num)),
    hex_value_hexDigit (v / 16 ^ 4 % 16) (Nat.mod_lt _ (by norm_num)),
    hex_value_hexDigit (v / 16 ^ 3 % 16) (Nat.mod_lt _ (by norm_num)),
    hex_value_hexDigit (v / 16 ^ 2 % 16) (Nat.mod_lt _ (by norm_num)),
    hex_value_hexDigit (v / 16 % 16) (Nat.mod_lt _ (by norm_num)),
    hex_value_hexDigit (v % 16) (Nat.mod_lt _ (by norm_num))]
  congr 1
  norm_num at hv ⊢
  omega

theorem hexDigit_not_space (d : Nat) : is_space (hexDigit d) = false := by
  have := hexDigit_ge d
  simp only [is_space, Bool.or_eq_false_iff, decide_eq_false_iff_not]
  omega

theorem tokens_from_word (cur w rest : List Nat) (hw : ∀ c ∈ w, is_space c = false) :
    tokens_from cur (w ++ rest) = tokens_from (cur ++ w) rest := by
  induction w generalizing cur with
  | nil => simp
  | cons c cs ih =>
    have hc : is_space c = false := hw c (List.mem_cons_self _ _)
    rw [List.cons_append]
    show (if is_space c = true then
        (if cur = [] then tokens_from [] (cs ++ rest) else cur :: tokens_from [] (cs ++ rest))
      else tokens_from (cur ++ [c]) (cs ++ rest)) = _
    rw [hc, if_neg (by simp), ih _ (fun x hx => hw x (List.mem_cons_of_mem _ hx))]
    simp

theorem tokens_from_space (cur rest : List Nat) (hcur : cur ≠ []) :
    tokens_from cur (32 :: rest) = cur :: tokens_from [] rest := by
  show (if is_space 32 = true then
      (if cur = [] then tokens_from [] rest else cur :: tokens_from [] rest)
    else tokens_from (cur ++ [32]) rest) = _
  rw [if_pos (by decide), if_neg hcur]

theorem tokens_from_octets (c : List Nat) (rest : List Nat) :
    tokens_from [] (hex_octets c ++ rest) =
      c.map (fun b => [hexDigit (b / 16), hexDigit (b % 16)]) ++ tokens_from [] rest := by
  induction c with
  | nil => simp [hex_octets]
  | cons b bs ih =>
    have hw : ∀ x ∈ [hexDigit (b / 16), hexDigit (b % 16)], is_space x = false := by
      intro x hx
      simp only [List.mem_cons, List.mem_singleton, List.not_mem_nil, or_false] at hx
      rcases hx with rfl | rfl <;> exact hexDigit_not_space _
    have e : hex_octets (b :: bs) ++ rest =
        [hexDigit (b / 16), hexDigit (b % 16)] ++ (32 :: (hex_octets bs ++ rest)) := by
      simp [hex_octets]
    rw [e, tokens_from_word [] _ _ hw, List.nil_append, tokens_from_space _ _ (by simp), ih]
    simp

theorem tokens_from_token (v : Nat) : tokens_from [] (hex_token v) = [hex_token v] := by
  have hw : ∀ x ∈ hex_token v, is_space x = false := by
    intro x hx
    simp only [hex_token, List.mem_cons, List.mem_singleton, List.not_mem_nil, or_false] at hx
    rcases hx with rfl | rfl | rfl | rfl | rfl | rfl <;> exact hexDigit_not_space _
  have h := tokens_from_word [] (hex_token v) [] hw
  rw [List.append_nil, List.nil_append] at h
  rw [h]
  simp [tokens_from, hex_token]

theorem decode_tokens_line (c : List Nat) (v : Nat) (hc : ∀ b ∈ c, b < 256) (hv : v < 2 ^ 24) :
    decode_tokens (c.map (fun b => [hexDigit (b / 16), hexDigit (b % 16)]) ++ [hex_token v]) =
      some (c, v) := by
  induction c with
  | nil =>
    simp only [List.map_nil, List.nil_append, decode_tokens, hex_token_length, if_true,
      hex_number_token v hv]
  | cons b bs ih =>
    have hb := hc b (List.mem_cons_self _ _)
    have ih1 := ih (fun x hx => hc x (List.mem_cons_of_mem _ hx))
    obtain ⟨t, ts, hts⟩ : ∃ t ts, bs.map (fun b => [hexDigit (b / 16), hexDigit (b % 16)]) ++
        [hex_token v] = t :: ts := by
      cases bs with
      | nil => exact ⟨_, _, rfl⟩
      | cons y ys => exact ⟨_, _, rfl⟩
    rw [List.map_cons, List.cons_append, hts]
    rw [hts] at ih1
    simp only [decode_tokens, List.length_cons, List.length_nil, if_true, hex_number_octet b hb,
      ih1]

theorem digitsRev_lt (base : Nat) (hb : 0 < base) (fuel n : Nat) :
    ∀ d ∈ digitsRev base fuel n, d < base := by
  induction fuel generalizing n with
  | zero => simp [digitsRev]
  | succ f ih =>
    intro d hd
    simp only [digitsRev, List.mem_cons] at hd
    rcases hd with rfl | hd
    · exact Nat.mod_lt _ hb
    · split at hd
      · simp at hd
      · exact ih _ d hd

theorem fmt_3u_shape (k : Nat) :
    ∃ (m d : Nat) (ds : List Nat), fmt_3u k = List.replicate m 32 ++ decDigit d :: ds.map decDigit ∧ d < 10 ∧
      ∀ x ∈ ds, x < 10 := by
  have hlt : ∀ d ∈ digits 10 k, d < 10 := by
    intro d hd
    simp only [digits, List.mem_reverse] at hd
    exact digitsRev_lt 10 (by norm_num) _ _ d hd
  have hne : digits 10 k ≠ [] := by
    simp [digits, digitsRev]
  obtain ⟨d, ds, hds⟩ := List.exists_cons_of_ne_nil hne
  refine ⟨3 - ((digits 10 k).map decDigit).length, d, ds, ?_, ?_, ?_⟩
  · simp only [fmt_3u, padLeft, hds, List.map_cons]
  · exact hlt d (by rw [hds]; exact List.mem_cons_self _ _)
  · intro x hx
    exact hlt x (by rw [hds]; exact List.mem_cons_of_mem _ hx)

theorem first_visible_spaces (m : Nat) (rest : List Nat) :
    first_visible (List.replicate m 32 ++ rest) = first_visible rest := by
  induction m with
  | zero => simp
  | succ m ih =>
    rw [List.replicate_succ, List.cons_append]
    show (if is_space 32 = true then first_visible (List.replicate m 32 ++ rest) else some 32) = _
    rw [if_pos (by decide), ih]

theorem first_visible_fmt_3u (k : Nat) (rest : List Nat) :
    ∃ c, first_visible (fmt_3u k ++ rest) = some c ∧ c ≠ 35 := by
  obtain ⟨m, d, ds, h, hd, _⟩ := fmt_3u_shape k
  refine ⟨decDigit d, ?_, by unfold decDigit; omega⟩
  rw [h, List.append_assoc, first_visible_spaces, List.cons_append]
  have hs : is_space (decDigit d) = false := by
    simp only [is_space, decDigit, Bool.or_eq_false_iff, decide_eq_false_iff_not]
    omega
  show (if is_space (decDigit d) = true then _ else some (decDigit d)) = _
  rw [hs]
  simp

theorem after_colon_skip (w rest : List Nat) (hw : ∀ c ∈ w, c ≠ 58) :
    after_colon (w ++ 58 :: rest) = some rest := by
  induction w with
  | nil => simp [after_colon]
  | cons c cs ih =>
    have hc : c ≠ 58 := hw c (List.mem_cons_self _ _)
    rw [List.cons_append]
    show (if c = 58 then some (cs ++ 58 :: rest) else after_colon (cs ++ 58 :: rest)) = _
    rw [if_neg hc, ih (fun x hx => hw x (List.mem_cons_of_mem _ hx))]

theorem fmt_3u_no_colon (k : Nat) : ∀ c ∈ fmt_3u k, c ≠ 58 := by
  obtain ⟨m, d, ds, h, hd, hds⟩ := fmt_3u_shape k
  intro c hc
  rw [h] at hc
  simp only [List.mem_append, List.mem_replicate, List.mem_cons, List.mem_map] at hc
  rcases hc with ⟨_, rfl⟩ | rfl | ⟨x, hx, rfl⟩
  · omega
  · unfold decDigit; omega
  · have := hds x hx
    unfold decDigit; omega

theorem decode_lines_data (k : Nat) (b : Nat) (c : List Nat) (rest : List (List Nat))
    (acc : List Nat) (hc : ∀ x ∈ b :: c, x < 256) :
    decode_lines (data_line_text k (b :: c) :: rest) acc = decode_lines rest (acc ++ b :: c) := by
  obtain ⟨v, hv, hv35⟩ := first_visible_fmt_3u k
    ([58, 32] ++ hex_octets (b :: c) ++ hex_token (crc24 (b :: c)))
  have hfv : first_visible (data_line_text k (b :: c)) = some v := by
    rw [← hv]
    simp only [data_line_text, List.append_assoc]
  have hac : after_colon (data_line_text k (b :: c)) =
      some (32 :: (hex_octets (b :: c) ++ hex_token (crc24 (b :: c)))) := by
    have := after_colon_skip (fmt_3u k) (32 :: (hex_octets (b :: c) ++ hex_token (crc24 (b :: c))))
      (fmt_3u_no_colon k)
    rw [← this]
    simp only [data_line_text, List.append_assoc, List.cons_append, List.nil_append]
  have htok : tokens_from [] (32 :: (hex_octets (b :: c) ++ hex_token (crc24 (b :: c)))) =
      (b :: c).map (fun b => [hexDigit (b / 16), hexDigit (b % 16)]) ++
        [hex_token (crc24 (b :: c))] := by
    show (if is_space 32 = true then
        (if ([] : List Nat) = [] then tokens_from [] (hex_octets (b :: c) ++ hex_token (crc24 (b :: c)))
          else [] :: tokens_from [] (hex_octets (b :: c) ++ hex_token (crc24 (b :: c))))
      else _) = _
    rw [if_pos (by decide), if_pos rfl, tokens_from_octets, tokens_from_token]
  have hdec := decode_tokens_line (b :: c) (crc24 (b :: c)) hc (crc24_lt _)
  have hcrc : crc24 (b :: c) = do_crc24 CRC24_INIT (b :: c) &&& 0xFFFFFF :=
    (do_crc24_init_mask _).symm
  rw [decode_lines]
  simp only [hfv, hv35, if_false, hac, htok, hdec]
  rw [if_pos hcrc]

theorem decode_lines_terminator (k : Nat) (rest : List (List Nat)) (acc : List Nat) :
    decode_lines (terminator_text k (crc24 acc) :: rest) acc = some acc := by
  obtain ⟨v, hv, hv35⟩ := first_visible_fmt_3u k ([58, 32] ++ hex_token (crc24 acc))
  have hfv : first_visible (terminator_text k (crc24 acc)) = some v := by
    rw [← hv]
    simp only [terminator_text, List.append_assoc]
  have hac : after_colon (terminator_text k (crc24 acc)) = some (32 :: hex_token (crc24 acc)) := by
    have := after_colon_skip (fmt_3u k) (32 :: hex_token (crc24 acc)) (fmt_3u_no_colon k)
    rw [← this]
    simp only [terminator_text, List.append_assoc, List.cons_append, List.nil_append]
  have htok : tokens_from [] (32 :: hex_token (crc24 acc)) = [hex_token (crc24 acc)] := by
    show (if is_space 32 = true then
        (if ([] : List Nat) = [] then tokens_from [] (hex_token (crc24 acc))
          else [] :: tokens_from [] (hex_token (crc24 acc)))
      else _) = _
    rw [if_pos (by decide), if_pos rfl, tokens_from_token]
  have hdec := decode_tokens_line [] (crc24 acc) (by simp) (crc24_lt _)
  simp only [List.map_nil, List.nil_append] at hdec
  have hcrc : crc24 acc = do_crc24 CRC24_INIT acc &&& 0xFFFFFF := (do_crc24_init_mask _).symm
  rw [decode_lines]
  simp only [hfv, hv35, if_false, hac, htok, hdec]
  rw [if_pos hcrc]

theorem decode_lines_ignored (ls rest : List (List Nat)) (acc : List Nat)
    (hl : ∀ l ∈ ls, first_visible l = none ∨ first_visible l = some 35) :
    decode_lines (ls ++ rest) acc = decode_lines rest acc := by
  induction ls with
  | nil => rfl
  | cons l ls ih =>
    have ih1 := ih (fun x hx => hl x (List.mem_cons_of_mem _ hx))
    rw [List.cons_append, decode_lines]
    rcases hl l (List.mem_cons_self _ _) with h | h
    · simp only [h]
      exact ih1
    · simp only [h, if_true]
      exact ih1

theorem decode_lines_data_lines (cs : List (List Nat)) (k : Nat) (m : Nat) (acc : List Nat)
    (hne : ∀ c ∈ cs, c ≠ []) (hb : ∀ c ∈ cs, ∀ x ∈ c, x < 256) :
    decode_lines ((cs.enumFrom k).map (fun kc => data_line_text kc.1 kc.2) ++
        [terminator_text m (crc24 (acc ++ cs.flatten))]) acc = some (acc ++ cs.flatten) := by
  induction cs generalizing k acc with
  | nil =>
    simp only [List.enumFrom_nil, List.map_nil, List.nil_append, List.flatten_nil,
      List.append_nil]
    exact decode_lines_terminator m [] acc
  | cons c rest ih =>
    obtain ⟨b, bs, rfl⟩ := List.exists_cons_of_ne_nil (hne c (List.mem_cons_self _ _))
    rw [List.enumFrom_cons, List.map_cons, List.cons_append,
      decode_lines_data k b bs _ acc (hb _ (List.mem_cons_self _ _))]
    have := ih (k + 1) (acc ++ b :: bs) (fun x hx => hne x (List.mem_cons_of_mem _ hx))
      (fun x hx => hb x (List.mem_cons_of_mem _ hx))
    rw [List.flatten_cons, ← List.append_assoc]
    exact this

/-! ## The header of a base-16 artifact is ignored by its reader -/

theorem first_visible_append (cur tail : List Nat) (v : Nat) (h : first_visible cur = some v) :
    first_visible (cur ++ tail) = some v := by
  induction cur with
  | nil => simp [first_visible] at h
  | cons c cs ih =>
    rw [List.cons_append]
    by_cases hs : is_space c = true
    · have h1 : first_visible (c :: cs) = first_visible cs := by
        show (if is_space c = true then first_visible cs else some c) = _
        rw [if_pos hs]
      rw [h1] at h
      show (if is_space c = true then first_visible (cs ++ tail) else some c) = _
      rw [if_pos hs]
      exact ih h
    · have h1 : first_visible (c :: cs) = some c := by
        show (if is_space c = true then first_visible cs else some c) = _
        rw [if_neg hs]
      rw [h1] at h
      show (if is_space c = true then first_visible (cs ++ tail) else some c) = _
      rw [if_neg hs]
      exact h

theorem comment_state_nil : comment_state [] true :=
  ⟨[], [], by simp, rfl, fun _ => rfl⟩

theorem comment_state_scan (t : List Nat) (text : List Nat) (f f1 : Bool)
    (h : comment_state text f) (hs : comment_scan f t = some f1) :
    comment_state (text ++ t) f1 := by
  induction t generalizing text f with
  | nil =>
    cases f <;> simp only [comment_scan, Option.some.injEq] at hs <;> subst hs <;>
      simpa using h
  | cons c rest ih =>
    obtain ⟨ls, cur, hls, hcur, htl⟩ := h
    have happ : text ++ c :: rest = (text ++ [c]) ++ rest := by simp
    rw [happ]
    cases f with
    | true =>
      simp only [if_true] at hcur
      subst hcur
      by_cases h10 : c = 10
      · have hs1 : comment_scan true rest = some f1 := by
          simpa [comment_scan, h10] using hs
        refine ih (text ++ [c]) true ⟨ls ++ [[]], [], ?_, rfl, ?_⟩ hs1
        · intro l hl
          rcases List.mem_append.mp hl with hl | hl
          · exact hls l hl
          · simp only [List.mem_singleton] at hl
            subst hl
            exact Or.inl rfl
        · intro tail
          rw [List.append_assoc, htl, h10]
          simp [text_lines_from]
      · by_cases h35 : c = 35
        · have hs1 : comment_scan false rest = some f1 := by
            simpa [comment_scan, h35] using hs
          refine ih (text ++ [c]) false ⟨ls, [35], hls, ?_, ?_⟩ hs1
          · simp [first_visible, is_space]
          · intro tail
            rw [List.append_assoc, htl, h35]
            simp [text_lines_from]
        · simp [comment_scan, h10, h35] at hs
    | false =>
      simp only [Bool.false_eq_true, if_false] at hcur
      by_cases h10 : c = 10
      · have hs1 : comment_scan true rest = some f1 := by
          simpa [comment_scan, h10] using hs
        refine ih (text ++ [c]) true ⟨ls ++ [cur], [], ?_, rfl, ?_⟩ hs1
        · intro l hl
          rcases List.mem_append.mp hl with hl | hl
          · exact hls l hl
          · simp only [List.mem_singleton] at hl
            subst hl
            exact Or.inr hcur
        · intro tail
          rw [List.append_assoc, htl, h10]
          simp [text_lines_from]
      · have hs1 : comment_scan false rest = some f1 := by
          simpa [comment_scan, h10] using hs
        refine ih (text ++ [c]) false ⟨ls, cur ++ [c], hls, ?_, ?_⟩ hs1
        · simp only [Bool.false_eq_true, if_false]
          exact first_visible_append cur [c] 35 hcur
        · intro tail
          rw [List.append_assoc, htl]
          simp [text_lines_from, h10]

theorem comment_scan_append (a b : List Nat) (f f1 f2 : Bool)
    (ha : comment_scan f a = some f1) (hb : comment_scan f1 b = some f2) :
    comment_scan f (a ++ b) = some f2 := by
  induction a generalizing f with
  | nil =>
    cases f <;> simp only [comment_scan, Option.some.injEq] at ha <;> subst ha <;> simpa using hb
  | cons c rest ih =>
    rw [List.cons_append]
    cases f with
    | true =>
      by_cases h10 : c = 10
      · have h1 : comment_scan true rest = some f1 := by simpa [comment_scan, h10] using ha
        simpa [comment_scan, h10] using ih true h1
      · by_cases h35 : c = 35
        · have h1 : comment_scan false rest = some f1 := by simpa [comment_scan, h35] using ha
          simpa [comment_scan, h35] using ih false h1
        · simp [comment_scan, h10, h35] at ha
    | false =>
      by_cases h10 : c = 10
      · have h1 : comment_scan true rest = some f1 := by simpa [comment_scan, h10] using ha
        simpa [comment_scan, h10] using ih true h1
      · have h1 : comment_scan false rest = some f1 := by simpa [comment_scan, h10] using ha
        simpa [comment_scan, h10] using ih false h1

theorem comment_scan_line (t : List Nat) (h : ∀ c ∈ t, c ≠ 10) :
    comment_scan false t = some false := by
  induction t with
  | nil => rfl
  | cons c rest ih =>
    have hc : c ≠ 10 := h c (List.mem_cons_self _ _)
    simpa [comment_scan, hc] using ih (fun x hx => h x (List.mem_cons_of_mem _ hx))

theorem header_step (s : stream) (text : List Nat) (f f1 : Bool) (h : header_state s f)
    (hs : comment_scan f text = some f1) (hl : text.length < 1024 ∨ f1 = f) :
    header_state (stream_printf s text).2 f1 := by
  by_cases hlen : text.length < 1024
  · obtain ⟨a1, a2⟩ := stream_printf_appending s text h.1 hlen
    refine ⟨a1, ?_⟩
    rw [a2]
    exact comment_state_scan text s.contents f f1 h.2 hs
  · have hf : f1 = f := by
      rcases hl with hl | hl
      · exact absurd hl hlen
      · exact hl
    have h1 : (((text.length : Nat) : Int) < 0 ∨ ((text.length : Nat) : Int) ≥ 1024) := by
      omega
    simp only [stream_printf, h1, if_true]
    rw [hf]
    exact h

theorem print_bytes_header (bs : List Nat) (s : stream) (h : header_state s false)
    (hb : ∀ b ∈ bs, b < 256) : header_state (print_bytes s bs) false := by
  induction bs generalizing s with
  | nil => exact h
  | cons b rest ih =>
    have hb0 := hb b (List.mem_cons_self _ _)
    rw [print_bytes]
    apply ih _ _ (fun x hx => hb x (List.mem_cons_of_mem _ hx))
    apply header_step s _ false false h
    · apply comment_scan_line
      rw [fmt_02X_eq b hb0]
      intro c hc
      simp only [List.mem_cons, List.mem_singleton, List.not_mem_nil, or_false] at hc
      have h1 := hexDigit_ge (b / 16)
      have h2 := hexDigit_ge (b % 16)
      rcases hc with rfl | rfl <;> omega
    · left
      rw [fmt_02X_eq b hb0]
      simp

theorem printf_lines_header (ls : List (List Nat)) (pre : List Nat) (s : stream)
    (h : header_state s true)
    (hl : ∀ l ∈ ls, (pre ++ l).length < 1024 ∧ comment_scan true (pre ++ l) = some true) :
    header_state (printf_lines s pre ls) true := by
  induction ls generalizing s with
  | nil => exact h
  | cons l rest ih =>
    rw [printf_lines]
    apply ih _ _ (fun x hx => hl x (List.mem_cons_of_mem _ hx))
    exact header_step s _ true true h (hl l (List.mem_cons_self _ _)).2
      (Or.inl (hl l (List.mem_cons_self _ _)).1)

theorem file_format_lines_comments :
    ∀ l ∈ file_format_lines, (ascii "# " ++ l).length < 1024 ∧
      comment_scan true (ascii "# " ++ l) = some true := by
  decide

theorem output_start_base16 (env : banner) (fp : List Nat) (li : Nat) (s : stream)
    (hs : header_state s true) (hfp : ∀ b ∈ fp, b < 256)
    (hct : ∀ c ∈ env.ctime_now.take 24, c ≠ 10) (hpk : ∀ c ∈ env.package_string, c ≠ 10) :
    (output_start env s data_type.BASE16 fp 78 li).2.2 = 22 ∧
      header_state (output_start env s data_type.BASE16 fp 78 li).2.1 true := by
  have h1 : header_state (stream_printf s (ascii "# Secret portions of key ")).2 false :=
    header_step s _ true false hs (by decide) (Or.inl (by decide))
  have h2 := print_bytes_header (fp.take 20) _ h1 (fun b hb => hfp b (List.mem_of_mem_take hb))
  have h3 := header_step _ (ascii "\n") false true h2 (by decide) (Or.inl (by decide))
  have h4 := header_step _ (ascii "# Base16 data extracted " ++ env.ctime_now.take 24 ++ ascii "\n")
    true true h3
    (comment_scan_append _ _ true false true
      (comment_scan_append _ _ true false false (by decide) (comment_scan_line _ hct))
      (by decide)) (Or.inr rfl)
  have h5 := header_step _
    (ascii "# Created with " ++ env.package_string ++ ascii " by David Shaw\n#\n") true true h4
    (comment_scan_append _ _ true false true
      (comment_scan_append _ _ true false false (by decide) (comment_scan_line _ hpk))
      (by decide)) (Or.inr rfl)
  have h6 := printf_lines_header file_format_lines (ascii "# ") _ h5 file_format_lines_comments
  have h7 := header_step _
    (ascii "#\n# Each base16 line ends with a CRC-24 of that line.\n") true true h6
    (by decide) (Or.inr rfl)
  have h8 := header_step _
    (ascii "# The entire block of data ends with a CRC-24 of the entire block of data.\n\n")
    true true h7 (by decide) (Or.inr rfl)
  refine ⟨by simp only [output_start]; decide, ?_⟩
  simp only [output_start, output_file_format]
  exact h8

theorem create_empty_stream_header : header_state create_empty_stream true := by
  refine ⟨create_empty_stream_appending, ?_⟩
  rw [create_empty_stream_contents]
  exact comment_state_nil

theorem decode_base16_artifact (header : stream) (hh : header_state header true)
    (bs : List (List Nat)) (hP : bs.flatten ≠ []) (hb : ∀ b ∈ bs.flatten, b < 256)
    (hlen : bs.flatten.length + 1 < 2 ^ 32) :
    decode_base16 (emit_all data_type.BASE16 22 bs header).contents = some bs.flatten := by
  obtain ⟨ls, cur, hls, hcur, htl⟩ := hh.2
  simp only [if_true] at hcur
  subst hcur
  rw [emit_all_base16 data_type.BASE16 (by decide) 22 (by norm_num) bs header hh.1 hP hb hlen,
    decode_base16, text_lines, List.append_assoc, htl]
  have h1 := text_lines_artifact 1 (chunks 22 bs.flatten) ((chunks 22 bs.flatten).length + 1)
    (crc24 bs.flatten)
  rw [text_lines] at h1
  rw [h1, decode_lines_ignored ls _ [] hls]
  have hsz := chunksFuel_sizes 22 (by norm_num) bs.flatten.length bs.flatten
  have hfl := chunksFuel_flatten 22 (by norm_num) bs.flatten.length bs.flatten (le_refl _)
  have h2 := decode_lines_data_lines (chunks 22 bs.flatten) 1
    ((chunks 22 bs.flatten).length + 1) []
    (by
      intro c hc hnil
      have := (hsz.1 c hc).1
      rw [hnil] at this
      simp at this)
    (by
      intro c hc x hx
      apply hb
      rw [← hfl]
      exact List.mem_flatten.mpr ⟨c, hc, hx⟩)
  simp only [List.nil_append] at h2
  rw [show (chunks 22 bs.flatten).flatten = bs.flatten from hfl] at h2
  exact h2

theorem framed_bytes_le (ps : List packet) (p : packet) (hp : p ∈ ps) :
    (framed p).length ≤ (secret_key ps).length := by
  induction ps with
  | nil => simp at hp
  | cons q rest ih =>
    rw [secret_key_cons, List.length_append]
    rcases List.mem_cons.mp hp with rfl | hp
    · omega
    · have := ih hp
      omega

theorem secret_record_length_le (sha1 : List Nat → List Nat) (p : packet)
    (hsha : ∀ l, (sha1 l).length = 20) (hk : extract_secrets p ≠ -1) :
    (secret_record (spec_collaborators sha1) p).length ≤ 3 * (framed p).length := by
  obtain ⟨o, ho, h6, hle⟩ := extract_secrets_bounds p hk
  have hfp : (calculate_fingerprint sha1 p (o : Int)).length = 20 := hsha _
  have h2 := openpgp_header_length_ge p.type p.len
  rw [framed_length]
  simp only [secret_record, spec_collaborators, List.length_append, List.length_cons,
    List.length_nil, List.length_drop, ho, hfp, Int.toNat_ofNat]
  unfold packet.len at hle h2 ⊢
  omega

theorem subkey_records_length_le (sha1 : List Nat → List Nat) (ps : List packet)
    (hsha : ∀ l, (sha1 l).length = 20)
    (hk : ∀ p ∈ ps, p.type = 7 → extract_secrets p ≠ -1) :
    (((ps.filter (fun q => decide (q.type = 7))).map
      (secret_record (spec_collaborators sha1))).flatten).length ≤
        3 * (secret_key ps).length := by
  induction ps with
  | nil => simp [secret_key]
  | cons p rest ih =>
    have ih1 := ih (fun q hq => hk q (List.mem_cons_of_mem _ hq))
    rw [secret_key_cons, List.length_append]
    by_cases h7 : p.type = 7
    · have hrec := secret_record_length_le sha1 p hsha (hk p (List.mem_cons_self _ _) h7)
      rw [List.filter_cons_of_pos (by simpa using h7), List.map_cons, List.flatten_cons,
        List.length_append]
      omega
    · rw [List.filter_cons_of_neg (by simpa using h7)]
      omega

theorem secret_record_bytes (sha1 : List Nat → List Nat) (p : packet)
    (hsha : ∀ l, ∀ b ∈ sha1 l, b < 256) (hb : ∀ b ∈ p.buf, b < 256)
    (hlen : p.len - (extract_secrets p).toNat ≤ 65535) :
    ∀ b ∈ secret_record (spec_collaborators sha1) p, b < 256 := by
  intro b hb1
  simp only [secret_record, spec_collaborators, List.mem_append, List.mem_cons,
    List.mem_singleton, List.not_mem_nil, or_false, false_or] at hb1
  rcases hb1 with ((h | h) | h | h) | h
  · rw [h]
    cases hbuf : p.buf with
    | nil => simp
    | cons c cs =>
      simp only [List.getD_cons_zero]
      exact hb c (by rw [hbuf]; exact List.mem_cons_self _ _)
  · exact hsha _ b h
  · rw [h]
    omega
  · rw [h]
    omega
  · exact hb b (List.mem_of_mem_drop h)

theorem round_trip_base16 (sha1 : List Nat → List Nat) (env : banner) (fuel line_items : Nat)
    (p0 : packet) (rest : List packet)
    (hsha : ∀ l, (sha1 l).length = 20 ∧ ∀ b ∈ sha1 l, b < 256)
    (hct : ∀ c ∈ env.ctime_now.take 24, c ≠ 10) (hpk : ∀ c ∈ env.package_string, c ≠ 10)
    (h0 : p0.type = 5)
    (hr : ∀ p ∈ rest, p.type < 64 ∧ p.type ≠ 5 ∧ p.type ≠ 6 ∧ p.type ≠ 14)
    (hk : ∀ p ∈ p0 :: rest, (p.type = 5 ∨ p.type = 7) →
      extract_secrets p ≠ -1 ∧ p.len - (extract_secrets p).toNat ≤ 65535)
    (hbytes : ∀ p ∈ p0 :: rest, ∀ b ∈ p.buf, b < 256)
    (hsize : (secret_key (p0 :: rest)).length < 2 ^ 30) (hf : rest.length < fuel) :
    round_trips sha1 env fuel line_items (p0 :: rest) data_type.BASE16 := by
  have hsha1 : ∀ l, (sha1 l).length = 20 := fun l => (hsha l).1
  have hl : ∀ p ∈ p0 :: rest, p.len < 2 ^ 32 := by
    intro p hp
    have h1 := framed_bytes_le (p0 :: rest) p hp
    rw [framed_length] at h1
    omega
  refine ⟨_, _, extract_of_secret_key sha1 env fuel line_items data_type.BASE16 p0 rest hsha1 h0
    hr hk hl hf, ?_⟩
  apply restore_of_bytes
  obtain ⟨a1, a2⟩ := output_start_base16 env (calculate_fingerprint sha1 p0 (extract_secrets p0))
    line_items create_empty_stream create_empty_stream_header (fun b hb => (hsha _).2 b hb)
    hct hpk
  rw [a1]
  have hflat := paper_key_buffers_flatten (spec_collaborators sha1)
    (p0 :: rest.filter (fun q => decide (q.type = 7)))
  have hb : ∀ b ∈ (paper_key_buffers (spec_collaborators sha1)
      (p0 :: rest.filter (fun q => decide (q.type = 7)))).flatten, b < 256 := by
    intro b hb
    rw [hflat] at hb
    rcases List.mem_append.mp hb with hb | hb
    · simp only [List.mem_singleton] at hb
      omega
    · obtain ⟨r, hr1, hr2⟩ := List.mem_flatten.mp hb
      obtain ⟨p, hp1, rfl⟩ := List.mem_map.mp hr1
      have hmem : p ∈ p0 :: rest ∧ (p.type = 5 ∨ p.type = 7) := by
        rcases List.mem_cons.mp hp1 with rfl | hp
        · exact ⟨List.mem_cons_self _ _, Or.inl h0⟩
        · have := List.mem_filter.mp hp
          exact ⟨List.mem_cons_of_mem _ this.1, Or.inr (by simpa using this.2)⟩
      exact secret_record_bytes sha1 p (fun l => (hsha l).2) (hbytes p hmem.1)
        (hk p hmem.1 hmem.2).2 b hr2
  have hlen : (paper_key_buffers (spec_collaborators sha1)
      (p0 :: rest.filter (fun q => decide (q.type = 7)))).flatten.length + 1 < 2 ^ 32 := by
    rw [hflat]
    have e1 := secret_record_length_le sha1 p0 hsha1
      (hk p0 (List.mem_cons_self _ _) (Or.inl h0)).1
    have e2 := subkey_records_length_le sha1 rest hsha1
      (fun p hp h7 => (hk p (List.mem_cons_of_mem _ hp) (Or.inr h7)).1)
    rw [secret_key_cons, List.length_append] at hsize
    simp only [List.map_cons, List.flatten_cons, List.length_append, List.length_cons,
      List.length_nil]
    omega
  rw [restore_bytes, decode_artifact,
    decode_base16_artifact _ a2 _ (by rw [hflat]; simp) hb hlen, hflat]
  exact merge_paper_key_round_trip sha1 p0 rest hsha1 h0 hr hk hl

/-! ## Claims -/

/-- C2: for every byte sequence and every starting state, the low 24 bits of the state left by
`do_crc24` equal the reference OpenPGP CRC-24 run from the low 24 bits of the starting state;
the bits above bit 23 that the accumulator keeps never reach the emitted value. -/
theorem do_crc24_refines_reference (s : Nat) (buf : List Nat) :
    do_crc24 s buf &&& 0xFFFFFF = crc24_ref (s &&& 0xFFFFFF) buf :=
  do_crc24_mask s buf

/-- C4: in RAW framing, the buffers `b1 .. bn` passed to `output_bytes` on an empty stream with
`all_crc` at `0xB704CE`, followed by `output_finish`, leave in the stream the concatenation of
the buffers followed by exactly three bytes, the CRC-24 of the concatenation, most significant
byte first. -/
theorem raw_stream_is_payload_then_crc24 (bs : List (List Nat)) (line_items : Nat)
    (e : emitter) :
    (output_finish
        (output_seq data_type.RAW line_items bs
          (create_empty_stream, { e with all_crc := CRC24_INIT })).1
        data_type.RAW line_items
        (output_seq data_type.RAW line_items bs
          (create_empty_stream, { e with all_crc := CRC24_INIT })).2).1.contents =
      bs.flatten ++ [crc24 bs.flatten / 65536, crc24 bs.flatten / 256 % 256, crc24 bs.flatten % 256] := by
  obtain ⟨h1, h2, h3⟩ := output_seq_raw bs line_items
    (create_empty_stream, { e with all_crc := CRC24_INIT }) create_empty_stream_appending
  rw [output_finish_raw _ _ _ h1, h2, h3]
  simp only [create_empty_stream_contents, List.nil_append, do_crc24_init_mask,
    Nat.shiftRight_eq_div_pow]
  have := crc24_lt bs.flatten
  congr 2
  norm_num
  omega

/-- C8: for every tag in 0..63 and every length below 2^32, the bytes `output_openpgp_header`
writes (RAW framing, empty stream), read back with the framing rules of the packet reader, give
the same tag and the same length and leave exactly what follows the header; the header is
neither an old-format indeterminate-length one nor a new-format partial-length one. -/
theorem openpgp_header_decodes_to_tag_and_length (tag length line_items : Nat) (e : emitter)
    (rest : List Nat) (ht : tag < 64) (hl : length < 2 ^ 32) :
    parse_header
        ((output_openpgp_header create_empty_stream data_type.RAW tag length
          line_items e).2.1.contents ++ rest) = some (tag, length, rest) ∧
      ¬ ((output_openpgp_header create_empty_stream data_type.RAW tag length
            line_items e).2.1.contents.headD 0 >>> 6 = 2 ∧
          (output_openpgp_header create_empty_stream data_type.RAW tag length
            line_items e).2.1.contents.headD 0 &&& 3 = 3) ∧
      ¬ ((output_openpgp_header create_empty_stream data_type.RAW tag length
            line_items e).2.1.contents.headD 0 >>> 6 = 3 ∧
          224 ≤ (output_openpgp_header create_empty_stream data_type.RAW tag length
            line_items e).2.1.contents.getD 1 0 ∧
          (output_openpgp_header create_empty_stream data_type.RAW tag length
            line_items e).2.1.contents.getD 1 0 ≤ 254) := by
  rw [output_openpgp_header_raw_contents]
  refine ⟨parse_openpgp_header tag length rest ht hl, ?_, ?_⟩
  · rintro ⟨h1, h2⟩
    rw [openpgp_header_format] at h1
    by_cases h16 : tag < 16
    · rw [openpgp_header_length_type tag length h16] at h2
      split at h2
      · omega
      · split at h2 <;> omega
    · simp [h16] at h1
  · rintro ⟨h1, h2, h3⟩
    rw [openpgp_header_format] at h1
    by_cases h16 : tag < 16
    · simp [h16] at h1
    · rw [openpgp_header_new_length_octet tag length h16] at h2 h3
      by_cases a1 : length ≤ 191
      · simp only [a1, if_true] at h2
        omega
      · by_cases a2 : length ≤ 8383
        · simp only [a1, a2, if_true, if_false] at h2
          omega
        · simp only [a1, a2, if_false] at h3
          omega

/-- Witness of C8: tag 5 with length 300 (old format, two length bytes). -/
theorem openpgp_header_decodes_to_tag_and_length_witness :
    (5 < 64 ∧ 300 < 2 ^ 32) ∧
      (parse_header
        ((output_openpgp_header create_empty_stream data_type.RAW 5 300
          0 emitter_init).2.1.contents ++ [7, 7]) = some (5, 300, [7, 7]) ∧
      ¬ ((output_openpgp_header create_empty_stream data_type.RAW 5 300
            0 emitter_init).2.1.contents.headD 0 >>> 6 = 2 ∧
          (output_openpgp_header create_empty_stream data_type.RAW 5 300
            0 emitter_init).2.1.contents.headD 0 &&& 3 = 3) ∧
      ¬ ((output_openpgp_header create_empty_stream data_type.RAW 5 300
            0 emitter_init).2.1.contents.headD 0 >>> 6 = 3 ∧
          224 ≤ (output_openpgp_header create_empty_stream data_type.RAW 5 300
            0 emitter_init).2.1.contents.getD 1 0 ∧
          (output_openpgp_header create_empty_stream data_type.RAW 5 300
            0 emitter_init).2.1.contents.getD 1 0 ≤ 254)) :=
  ⟨⟨by decide, by decide⟩,
    openpgp_header_decodes_to_tag_and_length 5 300 0 emitter_init [7, 7] (by decide) (by decide)⟩

/-- The bytes `encoded[0..bytes)` of `output_openpgp_header` are an old-format header (top
bits `10`) exactly when the tag is below 16 and a new-format header (top bits `11`) otherwise;
the old format carries 1 length byte up to 255, 2 up to 65535 and 4 above, the length type
saying which, and the new format 1 length octet up to 191, 2 up to 8383 and 5 above. -/
theorem openpgp_header_format_and_size (tag length : Nat) :
    ((openpgp_header tag length).headD 0 >>> 6 = 2 ↔ tag < 16) ∧
      ((openpgp_header tag length).headD 0 >>> 6 = 3 ↔ 16 ≤ tag) ∧
      (openpgp_header tag length).length =
        (if tag < 16 then
          1 + (if length ≤ 255 then 1 else if length ≤ 65535 then 2 else 4)
        else
          1 + (if length ≤ 191 then 1 else if length ≤ 8383 then 2 else 5)) ∧
      (if tag < 16 then
        (openpgp_header tag length).headD 0 &&& 3 =
          (if length ≤ 255 then 0 else if length ≤ 65535 then 1 else 2)
      else
        (openpgp_header tag length).getD 1 0 =
          (if length ≤ 191 then length
           else if length ≤ 8383 then 192 + (length - 192) / 256 else 255)) := by
  refine ⟨?_, ?_, openpgp_header_size tag length, ?_⟩
  · rw [openpgp_header_format]
    by_cases h16 : tag < 16 <;> simp [h16]
  · rw [openpgp_header_format]
    by_cases h16 : tag < 16
    · simp [h16]
    · simp [h16]
      omega
  · by_cases h16 : tag < 16
    · simp only [h16, if_true]
      exact openpgp_header_length_type tag length h16
    · simp only [h16, if_false]
      exact openpgp_header_new_length_octet tag length h16

/-- C10: `output_length16` aborts on every length above 65535, and for a length up to 65535 it
passes to `output_bytes` exactly the two bytes `length >> 8` and `length & 0xFF`, whose
big-endian value is the length; in RAW framing these two bytes are what reaches the stream. -/
theorem output_length16_range (output : stream) (type : data_type) (length line_items : Nat)
    (e : emitter) :
    (65535 < length → output_length16 output type length line_items e = none) ∧
      (length ≤ 65535 →
        output_length16 output type length line_items e =
            some (output_bytes output type (some [length >>> 8, length &&& 0xFF]) line_items e) ∧
          (output_length16 create_empty_stream data_type.RAW length line_items e).map
              (fun r => r.2.1.contents) = some [length >>> 8, length &&& 0xFF] ∧
          length >>> 8 < 256 ∧ length &&& 0xFF < 256 ∧
          (length >>> 8) * 256 + (length &&& 0xFF) = length) := by
  constructor
  · intro h
    have h1 : ¬ length ≤ 65535 := by omega
    simp only [output_length16, h1, if_false]
  · intro h
    have e1 : (length >>> 8) % 256 = length >>> 8 := by
      rw [Nat.shiftRight_eq_div_pow]
      omega
    simp only [output_length16, h, if_true, e1, and_255_eq_mod, Option.map_some', true_and]
    refine ⟨?_, ?_, ?_, ?_⟩
    · have h2 := (output_bytes_raw_some create_empty_stream [length >>> 8, length % 256]
        line_items e create_empty_stream_appending).2.1
      rw [create_empty_stream_contents, List.nil_append] at h2
      rw [h2]
    · rw [Nat.shiftRight_eq_div_pow]
      omega
    · omega
    · rw [Nat.shiftRight_eq_div_pow]
      omega

/-- Witness of C10: a secret region of 65536 bytes is refused, one of 0x1234 bytes is written
as the bytes 0x12 and 0x34. -/
theorem output_length16_range_witness :
    (65535 < 65536 ∧ output_length16 create_empty_stream data_type.RAW 65536 0 emitter_init
        = none) ∧
      (0x1234 ≤ 65535 ∧
        (output_length16 create_empty_stream data_type.RAW 0x1234 0 emitter_init).map
          (fun r => r.2.1.contents) = some [0x12, 0x34]) :=
  ⟨⟨by decide,
      (output_length16_range create_empty_stream data_type.RAW 65536 0 emitter_init).1
        (by decide)⟩,
    ⟨by decide,
      ((output_length16_range create_empty_stream data_type.RAW 0x1234 0 emitter_init).2
        (by decide)).2.1⟩⟩

/-- C9: in RAW framing, on a stream in append position, `output_openpgp_header` appends to
the stream a header `W` and returns the number of its bytes, and in every framing it is `W`
that it passes to `output_bytes`.  `W` is an old-format header (top bits `10`) exactly when
the tag is below 16 and a new-format header (top bits `11`) otherwise; in the old format it
has 1 length byte for a length up to 255, 2 up to 65535 and 4 above, the length type saying
which, and in the new format 1 length octet up to 191, 2 up to 8383 and 5 above. -/
theorem output_openpgp_header_writes_format_and_size (s : stream) (tag length line_items : Nat)
    (e : emitter) (hs : s.appending) :
    (output_openpgp_header s data_type.RAW tag length line_items e).2.1.contents =
        s.contents ++
          written_since s (output_openpgp_header s data_type.RAW tag length line_items e).2.1 ∧
      (output_openpgp_header s data_type.RAW tag length line_items e).1 =
        (((written_since s
          (output_openpgp_header s data_type.RAW tag length line_items e).2.1).length : Nat) :
            Int) ∧
      (∀ type : data_type,
        output_openpgp_header s type tag length line_items e =
          output_bytes s type
            (some (written_since s
              (output_openpgp_header s data_type.RAW tag length line_items e).2.1))
            line_items e) ∧
      ((written_since s
          (output_openpgp_header s data_type.RAW tag length line_items e).2.1).headD 0 >>> 6 = 2
        ↔ tag < 16) ∧
      ((written_since s
          (output_openpgp_header s data_type.RAW tag length line_items e).2.1).headD 0 >>> 6 = 3
        ↔ 16 ≤ tag) ∧
      (written_since s
          (output_openpgp_header s data_type.RAW tag length line_items e).2.1).length =
        (if tag < 16 then
          1 + (if length ≤ 255 then 1 else if length ≤ 65535 then 2 else 4)
        else
          1 + (if length ≤ 191 then 1 else if length ≤ 8383 then 2 else 5)) ∧
      (if tag < 16 then
        (written_since s
          (output_openpgp_header s data_type.RAW tag length line_items e).2.1).headD 0 &&& 3 =
          (if length ≤ 255 then 0 else if length ≤ 65535 then 1 else 2)
      else
        (written_since s
          (output_openpgp_header s data_type.RAW tag length line_items e).2.1).getD 1 0 =
          (if length ≤ 191 then length
           else if length ≤ 8383 then 192 + (length - 192) / 256 else 255)) := by
  have hc : (output_openpgp_header s data_type.RAW tag length line_items e).2.1.contents =
      s.contents ++ openpgp_header tag length :=
    (output_bytes_raw_some s (openpgp_header tag length) line_items e hs).2.1
  have hw : written_since s (output_openpgp_header s data_type.RAW tag length line_items e).2.1 =
      openpgp_header tag length := by
    rw [written_since, hc, List.drop_left]
  rw [hw]
  obtain ⟨a1, a2, a3, a4⟩ := openpgp_header_format_and_size tag length
  exact ⟨hc, rfl, fun _ => rfl, a1, a2, a3, a4⟩

/-- Witness of C9: tag 5 with length 300 after three bytes already in the stream: the old
format with two length bytes, `95 01 2C`. -/
theorem output_openpgp_header_writes_format_and_size_witness :
    (stream_write_seq create_empty_stream [[1, 2, 3]]).appending ∧
      (output_openpgp_header (stream_write_seq create_empty_stream [[1, 2, 3]]) data_type.RAW
          5 300 0 emitter_init).2.1.contents =
        (stream_write_seq create_empty_stream [[1, 2, 3]]).contents ++
          written_since (stream_write_seq create_empty_stream [[1, 2, 3]])
            (output_openpgp_header (stream_write_seq create_empty_stream [[1, 2, 3]])
              data_type.RAW 5 300 0 emitter_init).2.1 ∧
      written_since (stream_write_seq create_empty_stream [[1, 2, 3]])
          (output_openpgp_header (stream_write_seq create_empty_stream [[1, 2, 3]])
            data_type.RAW 5 300 0 emitter_init).2.1 = [0x95, 0x01, 0x2C] :=
  ⟨⟨by decide, by decide, by decide, by decide⟩,
    (output_openpgp_header_writes_format_and_size
      (stream_write_seq create_empty_stream [[1, 2, 3]]) 5 300 0 emitter_init
      ⟨by decide, by decide, by decide, by decide⟩).1,
    by decide⟩

/-- C5: in BASE16 framing, for every `line_items >= 1` and every non-empty payload, however it
is split into `output_bytes` calls, the data line that lists the octets of the k-th piece of the
payload ends in the six uppercase hexadecimal digits of the CRC-24 of exactly these octets, run
from the initial value `0xB704CE`: nothing of the earlier lines enters it. -/
theorem base16_line_crc_is_crc24_of_its_octets (n : Nat) (bs : List (List Nat)) (s0 : stream)
    (k : Nat) (c : List Nat) (hn : 1 ≤ n) (hs : s0.appending) (hP : bs.flatten ≠ [])
    (hb : ∀ b ∈ bs.flatten, b < 256) (hlen : bs.flatten.length + 1 < 2 ^ 32)
    (hk : (chunks n bs.flatten)[k]? = some c) :
    (text_lines (written_since s0 (emit_all data_type.BASE16 n bs s0)))[k]? =
      some (fmt_3u (k + 1) ++ [58, 32] ++ hex_octets c ++
        hex_token (crc24_ref CRC24_INIT c)) := by
  have hlt : k < (chunks n bs.flatten).length := by
    by_contra h
    rw [List.getElem?_eq_none (by omega)] at hk
    exact Option.noConfusion hk
  rw [text_lines_written data_type.BASE16 (by decide) n hn bs s0 hs hP hb hlen,
    List.getElem?_append_left (by simpa using hlt),
    data_line_texts_getElem? 1 _ k c hk, Nat.add_comm 1 k]
  rfl

/-- Witness of C5: the payload 01 02 03 04 FF 00 10 written in two calls, three octets to a
line; the second line lists 04 FF 00. -/
theorem base16_line_crc_is_crc24_of_its_octets_witness :
    (1 ≤ 3 ∧ create_empty_stream.appending ∧ [[1, 2, 3, 4], [255, 0, 16]].flatten ≠ [] ∧
        (∀ b ∈ [[1, 2, 3, 4], [255, 0, 16]].flatten, b < 256) ∧
        [[1, 2, 3, 4], [255, 0, 16]].flatten.length + 1 < 2 ^ 32 ∧
        (chunks 3 [[1, 2, 3, 4], [255, 0, 16]].flatten)[1]? = some [4, 255, 0]) ∧
      (text_lines (written_since create_empty_stream
          (emit_all data_type.BASE16 3 [[1, 2, 3, 4], [255, 0, 16]] create_empty_stream)))[1]? =
        some (fmt_3u (1 + 1) ++ [58, 32] ++ hex_octets [4, 255, 0] ++
          hex_token (crc24_ref CRC24_INIT [4, 255, 0])) :=
  ⟨⟨by decide, create_empty_stream_appending, by decide, by decide, by decide, by decide⟩,
    base16_line_crc_is_crc24_of_its_octets 3 [[1, 2, 3, 4], [255, 0, 16]] create_empty_stream
      1 [4, 255, 0] (by decide) create_empty_stream_appending (by decide) (by decide)
      (by decide) (by decide)⟩

/-- C6: in BASE16 framing, for every `line_items >= 1` and every non-empty payload,
`output_finish` appends to the stream the CRC-24 of the octets of the open data line and a
newline, and then the terminator line `N+1: CRC` and a newline, where `N` is the number of the
last data line and `CRC` the CRC-24 of the entire payload; the text written has exactly `N + 1`
lines, the last data line being line `N` and the terminator the only line after it. -/
theorem base16_finish_writes_line_crc_and_terminator (n : Nat) (bs : List (List Nat))
    (s0 : stream) (hn : 1 ≤ n) (hs : s0.appending) (hP : bs.flatten ≠ [])
    (hb : ∀ b ∈ bs.flatten, b < 256) (hlen : bs.flatten.length + 1 < 2 ^ 32) :
    ∃ last, (chunks n bs.flatten).getLast? = some last ∧
      (emit_all data_type.BASE16 n bs s0).contents =
        (output_seq data_type.BASE16 n bs (s0, emitter_init)).1.contents ++
          hex_token (crc24_ref CRC24_INIT last) ++ [10] ++
          (fmt_3u ((chunks n bs.flatten).length + 1) ++ [58, 32] ++
            hex_token (crc24_ref CRC24_INIT bs.flatten) ++ [10]) ∧
      (text_lines (written_since s0 (emit_all data_type.BASE16 n bs s0))).length =
        (chunks n bs.flatten).length + 1 ∧
      (text_lines (written_since s0 (emit_all data_type.BASE16 n bs s0)))[
          (chunks n bs.flatten).length - 1]? =
        some (fmt_3u (chunks n bs.flatten).length ++ [58, 32] ++ hex_octets last ++
          hex_token (crc24_ref CRC24_INIT last)) ∧
      (text_lines (written_since s0 (emit_all data_type.BASE16 n bs s0)))[
          (chunks n bs.flatten).length]? =
        some (fmt_3u ((chunks n bs.flatten).length + 1) ++ [58, 32] ++
          hex_token (crc24_ref CRC24_INIT bs.flatten)) := by
  obtain ⟨a1, a2, a3, a4, a5, last, a6, a7⟩ := print_base16_chunks n hn bs.flatten.length
    bs.flatten s0 emitter_init hs (by simp [emitter_init]) (le_refl _) hP hb
    (by simp only [emitter_init]; omega) (by simp only [emitter_init]; omega) (fun _ => rfl)
  have hle := chunksFuel_length_le n hn bs.flatten.length bs.flatten
  have hN : (chunks n bs.flatten).length = (chunksFuel n bs.flatten.length bs.flatten).length :=
    rfl
  have hpos : 0 < (chunks n bs.flatten).length := by
    rcases hc : chunks n bs.flatten with _ | ⟨x, xs⟩
    · rw [chunks] at hc
      rw [hc] at a6
      exact Option.noConfusion a6
    · simp
  refine ⟨last, a6, ?_, ?_, ?_, ?_⟩
  · simp only [emit_all]
    rw [output_seq_base16 data_type.BASE16 (by decide)]
    rw [output_finish_base16 data_type.BASE16 (by decide) n _ _ a1 (by
      show (bs.flatten.foldl (print_base16_byte n) (s0, emitter_init)).2.line + 1 < 2 ^ 32
      rw [a3]
      simp only [emitter_init]
      omega)]
    show (bs.flatten.foldl (print_base16_byte n) (s0, emitter_init)).1.contents ++
        hex_token ((bs.flatten.foldl (print_base16_byte n) (s0, emitter_init)).2.line_crc
          % 2 ^ 24) ++ [10] ++ terminator_line
          ((bs.flatten.foldl (print_base16_byte n) (s0, emitter_init)).2.line + 1)
          (do_crc24 emitter_init.all_crc bs.flatten % 2 ^ 24) = _
    rw [a7, a3]
    simp only [emitter_init, zero_add, do_crc24_init_mod, chunks, terminator_line,
      terminator_text, crc24]
  · rw [text_lines_written data_type.BASE16 (by decide) n hn bs s0 hs hP hb hlen]
    simp
  · rw [text_lines_written data_type.BASE16 (by decide) n hn bs s0 hs hP hb hlen,
      List.getElem?_append_left (by simp; omega),
      data_line_texts_getElem? 1 _ _ last (by
        rw [← a6, List.getLast?_eq_getElem?]
        rfl)]
    have e1 : 1 + ((chunks n bs.flatten).length - 1) = (chunks n bs.flatten).length := by
      omega
    rw [e1]
    rfl
  · rw [text_lines_written data_type.BASE16 (by decide) n hn bs s0 hs hP hb hlen,
      List.getElem?_append_right (by simp)]
    simp [terminator_text, crc24]

/-- Witness of C6: the payload 01 02 03 04 FF 00 10 written in two calls, three octets to a
line. -/
theorem base16_finish_writes_line_crc_and_terminator_witness :
    (1 ≤ 3 ∧ create_empty_stream.appending ∧ [[1, 2, 3, 4], [255, 0, 16]].flatten ≠ [] ∧
        (∀ b ∈ [[1, 2, 3, 4], [255, 0, 16]].flatten, b < 256) ∧
        [[1, 2, 3, 4], [255, 0, 16]].flatten.length + 1 < 2 ^ 32) ∧
      ∃ last, (chunks 3 [[1, 2, 3, 4], [255, 0, 16]].flatten).getLast? = some last ∧
        (emit_all data_type.BASE16 3 [[1, 2, 3, 4], [255, 0, 16]] create_empty_stream).contents =
          (output_seq data_type.BASE16 3 [[1, 2, 3, 4], [255, 0, 16]]
              (create_empty_stream, emitter_init)).1.contents ++
            hex_token (crc24_ref CRC24_INIT last) ++ [10] ++
            (fmt_3u ((chunks 3 [[1, 2, 3, 4], [255, 0, 16]].flatten).length + 1) ++ [58, 32] ++
              hex_token (crc24_ref CRC24_INIT [[1, 2, 3, 4], [255, 0, 16]].flatten) ++ [10]) ∧
        (text_lines (written_since create_empty_stream
            (emit_all data_type.BASE16 3 [[1, 2, 3, 4], [255, 0, 16]]
              create_empty_stream))).length =
          (chunks 3 [[1, 2, 3, 4], [255, 0, 16]].flatten).length + 1 ∧
        (text_lines (written_since create_empty_stream
            (emit_all data_type.BASE16 3 [[1, 2, 3, 4], [255, 0, 16]] create_empty_stream)))[
            (chunks 3 [[1, 2, 3, 4], [255, 0, 16]].flatten).length - 1]? =
          some (fmt_3u (chunks 3 [[1, 2, 3, 4], [255, 0, 16]].flatten).length ++ [58, 32] ++
            hex_octets last ++ hex_token (crc24_ref CRC24_INIT last)) ∧
        (text_lines (written_since create_empty_stream
            (emit_all data_type.BASE16 3 [[1, 2, 3, 4], [255, 0, 16]] create_empty_stream)))[
            (chunks 3 [[1, 2, 3, 4], [255, 0, 16]].flatten).length]? =
          some (fmt_3u ((chunks 3 [[1, 2, 3, 4], [255, 0, 16]].flatten).length + 1) ++
            [58, 32] ++ hex_token (crc24_ref CRC24_INIT [[1, 2, 3, 4], [255, 0, 16]].flatten)) :=
  ⟨⟨by decide, create_empty_stream_appending, by decide, by decide, by decide⟩,
    base16_finish_writes_line_crc_and_terminator 3 [[1, 2, 3, 4], [255, 0, 16]]
      create_empty_stream (by decide) create_empty_stream_appending (by decide) (by decide)
      (by decide)⟩

/-- C7: in BASE16 framing, for every `line_items >= 1` and every non-empty payload `P`, the
stream receives the data lines of the pieces of `P`, numbered consecutively from 1, each
octet as two uppercase hexadecimal digits and a space, and then the terminator line; the
pieces concatenated are `P`, there are `ceil (|P| / line_items)` of them, every piece but the
last has `line_items` octets and every piece between 1 and `line_items`; `P` is what RAW
framing writes before its CRC. -/
theorem base16_data_lines_layout (n : Nat) (bs : List (List Nat)) (s0 : stream)
    (hn : 1 ≤ n) (hs : s0.appending) (hP : bs.flatten ≠ [])
    (hb : ∀ b ∈ bs.flatten, b < 256) (hlen : bs.flatten.length + 1 < 2 ^ 32) :
    (emit_all data_type.BASE16 n bs s0).contents =
        s0.contents ++
          (((chunks n bs.flatten).enumFrom 1).map (fun kc =>
            fmt_3u kc.1 ++ [58, 32] ++ hex_octets kc.2 ++ hex_token (crc24 kc.2) ++ [10])).flatten
          ++ terminator_line ((chunks n bs.flatten).length + 1) (crc24 bs.flatten) ∧
      (chunks n bs.flatten).flatten = bs.flatten ∧
      (chunks n bs.flatten).length = (bs.flatten.length + n - 1) / n ∧
      (∀ c ∈ (chunks n bs.flatten).dropLast, c.length = n) ∧
      (∀ c ∈ chunks n bs.flatten, 1 ≤ c.length ∧ c.length ≤ n) ∧
      (output_seq data_type.RAW n bs (create_empty_stream, emitter_init)).1.contents =
        (chunks n bs.flatten).flatten := by
  have hfl := chunksFuel_flatten n hn bs.flatten.length bs.flatten (le_refl _)
  refine ⟨emit_all_base16 data_type.BASE16 (by decide) n hn bs s0 hs hP hb hlen, hfl,
    chunksFuel_length n hn bs.flatten.length bs.flatten (le_refl _),
    (chunksFuel_sizes n hn bs.flatten.length bs.flatten).2,
    (chunksFuel_sizes n hn bs.flatten.length bs.flatten).1, ?_⟩
  have h := (output_seq_raw bs n (create_empty_stream, emitter_init)
    create_empty_stream_appending).2.1
  rw [h, create_empty_stream_contents, List.nil_append]
  exact hfl.symm

/-- Witness of C7: the payload 01 02 03 04 FF 00 10 written in two calls, three octets to a
line. -/
theorem base16_data_lines_layout_witness :
    (1 ≤ 3 ∧ create_empty_stream.appending ∧ [[1, 2, 3, 4], [255, 0, 16]].flatten ≠ [] ∧
        (∀ b ∈ [[1, 2, 3, 4], [255, 0, 16]].flatten, b < 256) ∧
        [[1, 2, 3, 4], [255, 0, 16]].flatten.length + 1 < 2 ^ 32) ∧
      ((emit_all data_type.BASE16 3 [[1, 2, 3, 4], [255, 0, 16]] create_empty_stream).contents =
        create_empty_stream.contents ++
          (((chunks 3 [[1, 2, 3, 4], [255, 0, 16]].flatten).enumFrom 1).map (fun kc =>
            fmt_3u kc.1 ++ [58, 32] ++ hex_octets kc.2 ++ hex_token (crc24 kc.2) ++ [10])).flatten
          ++ terminator_line ((chunks 3 [[1, 2, 3, 4], [255, 0, 16]].flatten).length + 1)
            (crc24 [[1, 2, 3, 4], [255, 0, 16]].flatten) ∧
      (chunks 3 [[1, 2, 3, 4], [255, 0, 16]].flatten).flatten =
        [[1, 2, 3, 4], [255, 0, 16]].flatten ∧
      (chunks 3 [[1, 2, 3, 4], [255, 0, 16]].flatten).length =
        ([[1, 2, 3, 4], [255, 0, 16]].flatten.length + 3 - 1) / 3 ∧
      (∀ c ∈ (chunks 3 [[1, 2, 3, 4], [255, 0, 16]].flatten).dropLast, c.length = 3) ∧
      (∀ c ∈ chunks 3 [[1, 2, 3, 4], [255, 0, 16]].flatten, 1 ≤ c.length ∧ c.length ≤ 3) ∧
      (output_seq data_type.RAW 3 [[1, 2, 3, 4], [255, 0, 16]]
          (create_empty_stream, emitter_init)).1.contents =
        (chunks 3 [[1, 2, 3, 4], [255, 0, 16]].flatten).flatten) :=
  ⟨⟨by decide, create_empty_stream_appending, by decide, by decide, by decide⟩,
    base16_data_lines_layout 3 [[1, 2, 3, 4], [255, 0, 16]] create_empty_stream (by decide)
      create_empty_stream_appending (by decide) (by decide) (by decide)⟩

/-- C3: in RAW framing, when `parse` yields the primary packet `p0` and then the packets `ps`
in that order, and the secret locator returns for each of them an offset within the body that
leaves a secret region of at most 65535 bytes, `extract` returns 0 and has written exactly: the
octet 0x00, then for each packet in order its first octet, its 20-byte fingerprint, the two
bytes of `L = len - offset`, big-endian, and the `L` bytes of the body from the offset on, and
then the three bytes of the CRC-24 of all of this.  The primary record is first. -/
theorem extract_raw_writes_version_records_crc (x : collaborators) (env : banner)
    (fuel line_items : Nat) (input input1 final output : stream) (p0 : packet)
    (ps : List packet) (width : Nat)
    (h0 : x.parse input 5 0 = (some p0, input1))
    (hy : parse_yields x 7 5 input1 ps final)
    (hv : ∀ p ∈ p0 :: ps, 0 ≤ x.extract_secrets p ∧ x.extract_secrets p ≤ p.len ∧ 1 ≤ p.len ∧
      p.len - (x.extract_secrets p).toNat ≤ 65535 ∧
      (x.calculate_fingerprint p (x.extract_secrets p)).length = 20)
    (hf : ps.length < fuel) (hs : output.appending) :
    (∃ out, extract x env fuel line_items input output data_type.RAW width =
          run.returned (0, final, out) ∧
        out.contents =
          output.contents ++
            ([0] ++ ((p0 :: ps).map (fun p =>
              [p.buf.getD 0 0] ++ x.calculate_fingerprint p (x.extract_secrets p) ++
                [(p.len - (x.extract_secrets p).toNat) / 256,
                  (p.len - (x.extract_secrets p).toNat) % 256] ++
                p.buf.drop (x.extract_secrets p).toNat)).flatten) ++
            crc24_bytes ([0] ++ ((p0 :: ps).map (secret_record x)).flatten)) ∧
      ∀ p ∈ p0 :: ps,
        (p.len - (x.extract_secrets p).toNat) / 256 < 256 ∧
          (p.len - (x.extract_secrets p).toNat) / 256 * 256 +
            (p.len - (x.extract_secrets p).toNat) % 256 = p.len - (x.extract_secrets p).toNat ∧
          (p.buf.drop (x.extract_secrets p).toNat).length =
            p.len - (x.extract_secrets p).toNat := by
  refine ⟨extract_raw x env fuel line_items input input1 final output p0 ps width h0 hy hv hf hs,
    ?_⟩
  intro p hp
  obtain ⟨_, _, _, v2, _⟩ := hv p hp
  refine ⟨by omega, by omega, ?_⟩
  simp [packet.len]

/-- Witness of C3: the sample key, a primary packet and one subkey packet with a user ID
packet between them, read by the packet reader and the locator of the specification. -/
theorem extract_raw_writes_version_records_crc_witness :
    ((spec_collaborators sample_hash).parse (stream_of sample_secret_key) 5 0 =
        (some sample_primary, stream_at sample_secret_key 17) ∧
      parse_yields (spec_collaborators sample_hash) 7 5 (stream_at sample_secret_key 17)
        [sample_subkey] (stream_at sample_secret_key 38) ∧
      (∀ p ∈ [sample_primary, sample_subkey],
        0 ≤ (spec_collaborators sample_hash).extract_secrets p ∧
          (spec_collaborators sample_hash).extract_secrets p ≤ p.len ∧ 1 ≤ p.len ∧
          p.len - ((spec_collaborators sample_hash).extract_secrets p).toNat ≤ 65535 ∧
          ((spec_collaborators sample_hash).calculate_fingerprint p
            ((spec_collaborators sample_hash).extract_secrets p)).length = 20) ∧
      [sample_subkey].length < 2 ∧ create_empty_stream.appending) ∧
    ∃ out, extract (spec_collaborators sample_hash) { ctime_now := [], package_string := [] }
          2 0 (stream_of sample_secret_key) create_empty_stream data_type.RAW 78 =
        run.returned (0, stream_at sample_secret_key 38, out) ∧
      out.contents =
        create_empty_stream.contents ++
          ([0] ++ ([sample_primary, sample_subkey].map (fun p =>
              [p.buf.getD 0 0] ++
                (spec_collaborators sample_hash).calculate_fingerprint p
                  ((spec_collaborators sample_hash).extract_secrets p) ++
                [(p.len - ((spec_collaborators sample_hash).extract_secrets p).toNat) / 256,
                  (p.len - ((spec_collaborators sample_hash).extract_secrets p).toNat) % 256] ++
                p.buf.drop ((spec_collaborators sample_hash).extract_secrets p).toNat)).flatten)
          ++ crc24_bytes ([0] ++ ([sample_primary, sample_subkey].map
            (secret_record (spec_collaborators sample_hash))).flatten) :=
  ⟨⟨by decide, ⟨stream_at sample_secret_key 38, by decide,
        (by decide : (spec_collaborators sample_hash).parse (stream_at sample_secret_key 38) 7 5
          = (none, stream_at sample_secret_key 38))⟩,
      by decide, by decide, create_empty_stream_appending⟩,
    (extract_raw_writes_version_records_crc (spec_collaborators sample_hash)
      { ctime_now := [], package_string := [] } 2 0 (stream_of sample_secret_key)
      (stream_at sample_secret_key 17) (stream_at sample_secret_key 38) create_empty_stream
      sample_primary [sample_subkey] 78 (by decide)
      ⟨stream_at sample_secret_key 38, by decide,
        (by decide : (spec_collaborators sample_hash).parse (stream_at sample_secret_key 38) 7 5
          = (none, stream_at sample_secret_key 38))⟩
      (by decide) (by decide) create_empty_stream_appending).1⟩

/-- C1: round trip in both framings.  A secret key is given by its packets, each framed by the
policy of the writer (`secret_key`): the primary secret key packet (tag 5) first, then packets
of any other tags but 5, 6 and 14.  When the secret locator finds the secret region of every
key and subkey packet and that region is at most 65535 bytes long, all bytes are below 256 (of
the bodies and of the hash `sha1`, which gives 20 bytes), the key is shorter than `2 ^ 30`
bytes, and the banner texts hold no newline, then for RAW and for BASE16, with enough passes
of the subkey loop: `extract` at width 78 returns 0, and `restore` on the public key and the
artifact rewound to position 0 returns 0 and has written exactly the bytes of the secret key,
the size of its output being their number. -/
theorem extract_then_restore_round_trip (sha1 : List Nat → List Nat) (env : banner)
    (fuel line_items : Nat) (p0 : packet) (rest : List packet)
    (hsha : ∀ l, (sha1 l).length = 20 ∧ ∀ b ∈ sha1 l, b < 256)
    (hct : ∀ c ∈ env.ctime_now.take 24, c ≠ 10) (hpk : ∀ c ∈ env.package_string, c ≠ 10)
    (h0 : p0.type = 5)
    (hr : ∀ p ∈ rest, p.type < 64 ∧ p.type ≠ 5 ∧ p.type ≠ 6 ∧ p.type ≠ 14)
    (hk : ∀ p ∈ p0 :: rest, (p.type = 5 ∨ p.type = 7) →
      extract_secrets p ≠ -1 ∧ p.len - (extract_secrets p).toNat ≤ 65535)
    (hbytes : ∀ p ∈ p0 :: rest, ∀ b ∈ p.buf, b < 256)
    (hsize : (secret_key (p0 :: rest)).length < 2 ^ 30) (hf : rest.length < fuel) :
    round_trips sha1 env fuel line_items (p0 :: rest) data_type.RAW ∧
      round_trips sha1 env fuel line_items (p0 :: rest) data_type.BASE16 := by
  have hl : ∀ p ∈ p0 :: rest, p.len < 2 ^ 32 := by
    intro p hp
    have h1 := framed_bytes_le (p0 :: rest) p hp
    rw [framed_length] at h1
    omega
  exact ⟨round_trip_raw sha1 env fuel line_items p0 rest (fun l => (hsha l).1) h0 hr hk hl hf,
    round_trip_base16 sha1 env fuel line_items p0 rest hsha hct hpk h0 hr hk hbytes hsize hf⟩

/-- Witness of C1: the sample key, a primary packet, a user ID packet and a subkey packet, with
the sample hash and the sample banner. -/
theorem extract_then_restore_round_trip_witness :
    ((∀ l, (sample_hash l).length = 20 ∧ ∀ b ∈ sample_hash l, b < 256) ∧
      (∀ c ∈ sample_banner.ctime_now.take 24, c ≠ 10) ∧
      (∀ c ∈ sample_banner.package_string, c ≠ 10) ∧
      sample_primary.type = 5 ∧
      (∀ p ∈ [sample_user_id, sample_subkey],
        p.type < 64 ∧ p.type ≠ 5 ∧ p.type ≠ 6 ∧ p.type ≠ 14) ∧
      (∀ p ∈ [sample_primary, sample_user_id, sample_subkey], (p.type = 5 ∨ p.type = 7) →
        extract_secrets p ≠ -1 ∧ p.len - (extract_secrets p).toNat ≤ 65535) ∧
      (∀ p ∈ [sample_primary, sample_user_id, sample_subkey], ∀ b ∈ p.buf, b < 256) ∧
      (secret_key [sample_primary, sample_user_id, sample_subkey]).length < 2 ^ 30 ∧
      [sample_user_id, sample_subkey].length < 3) ∧
    round_trips sample_hash sample_banner 3 0 [sample_primary, sample_user_id, sample_subkey]
      data_type.RAW ∧
    round_trips sample_hash sample_banner 3 0 [sample_primary, sample_user_id, sample_subkey]
      data_type.BASE16 :=
  ⟨⟨fun l => ⟨by simp [sample_hash], by
        intro b hb
        simp only [sample_hash, List.mem_replicate] at hb
        omega⟩,
      by decide, by decide, by decide, by decide, by decide, by decide, by decide, by decide⟩,
    extract_then_restore_round_trip sample_hash sample_banner 3 0 sample_primary
      [sample_user_id, sample_subkey]
      (fun l => ⟨by simp [sample_hash], by
        intro b hb
        simp only [sample_hash, List.mem_replicate] at hb
        omega⟩)
      (by decide) (by decide) (by decide) (by decide) (by decide) (by decide) (by decide)
      (by decide)⟩

/-! ## The failures of `extract` -/

theorem chunksFuel_one_replicate (b m fuel : Nat) (h : m ≤ fuel) :
    chunksFuel 1 fuel (List.replicate m b) = List.replicate m [b] := by
  induction m generalizing fuel with
  | zero => cases fuel <;> simp [chunksFuel]
  | succ m ih =>
    obtain ⟨f, rfl⟩ : ∃ f, fuel = f + 1 := ⟨fuel - 1, by omega⟩
    rw [chunksFuel_cons 1 f _ (by simp [List.replicate_succ])]
    simp only [List.replicate_succ, List.take_succ_cons, List.take_zero, List.drop_succ_cons,
      List.drop_zero]
    rw [ih f (by omega)]

theorem hex_octets_length (c : List Nat) : (hex_octets c).length = 3 * c.length := by
  induction c with
  | nil => rfl
  | cons b rest ih =>
    simp only [hex_octets, List.length_cons, ih]
    omega

theorem data_line_text_length (k : Nat) (c : List Nat) :
    (data_line_text k c).length = (fmt_3u k).length + 3 * c.length + 8 := by
  simp only [data_line_text, List.length_append, hex_octets_length, hex_token_length,
    List.length_cons, List.length_nil]
  omega

theorem fmt_3u_length_three (k : Nat) (hk : k < 1000) : (fmt_3u k).length = 3 := by
  have h := digitsRev_length_le 10 (by norm_num) 3 (k + 1) k (by omega)
    (by norm_num; omega) (by norm_num)
  simp only [fmt_3u, padLeft, digits, List.length_append, List.length_replicate,
    List.length_map, List.length_reverse]
  omega

theorem data_line_fits_below_1000 (w k : Nat) (c : List Nat) (hw : 14 ≤ w) (hw2 : w < 2 ^ 32)
    (hk : k < 1000)
    (hc : c.length ≤ ((w + (UINT_MOD - 5) + (UINT_MOD - 6)) % UINT_MOD) / 3) :
    (data_line_text k c).length ≤ w := by
  rw [data_line_text_length, fmt_3u_length_three k hk]
  have e : (w + (UINT_MOD - 5) + (UINT_MOD - 6)) % UINT_MOD = w - 11 := by
    unfold UINT_MOD
    omega
  rw [e] at hc
  omega

theorem output_start_header (env : banner) (type : data_type) (ht : type ≠ data_type.RAW)
    (fp : List Nat) (w li : Nat) (s : stream)
    (hs : header_state s true) (hfp : ∀ b ∈ fp, b < 256)
    (hct : ∀ c ∈ env.ctime_now.take 24, c ≠ 10) (hpk : ∀ c ∈ env.package_string, c ≠ 10) :
    header_state (output_start env s type fp w li).2.1 true := by
  have h1 : header_state (stream_printf s (ascii "# Secret portions of key ")).2 false :=
    header_step s _ true false hs (by decide) (Or.inl (by decide))
  have h2 := print_bytes_header (fp.take 20) _ h1 (fun b hb => hfp b (List.mem_of_mem_take hb))
  have h3 := header_step _ (ascii "\n") false true h2 (by decide) (Or.inl (by decide))
  have h4 := header_step _ (ascii "# Base16 data extracted " ++ env.ctime_now.take 24 ++ ascii "\n")
    true true h3
    (comment_scan_append _ _ true false true
      (comment_scan_append _ _ true false false (by decide) (comment_scan_line _ hct))
      (by decide)) (Or.inr rfl)
  have h5 := header_step _
    (ascii "# Created with " ++ env.package_string ++ ascii " by David Shaw\n#\n") true true h4
    (comment_scan_append _ _ true false true
      (comment_scan_append _ _ true false false (by decide) (comment_scan_line _ hpk))
      (by decide)) (Or.inr rfl)
  have h6 := printf_lines_header file_format_lines (ascii "# ") _ h5 file_format_lines_comments
  have h7 := header_step _
    (ascii "#\n# Each base16 line ends with a CRC-24 of that line.\n") true true h6
    (by decide) (Or.inr rfl)
  have h8 := header_step _
    (ascii "# The entire block of data ends with a CRC-24 of the entire block of data.\n\n")
    true true h7 (by decide) (Or.inr rfl)
  cases type with
  | RAW => exact absurd rfl ht
  | AUTO =>
    simp only [output_start, output_file_format]
    exact h8
  | BASE16 =>
    simp only [output_start, output_file_format]
    exact h8

theorem sample_header_state (w : Nat) :
    header_state (output_start sample_banner create_empty_stream data_type.BASE16
      (sample_hash []) w 0).2.1 true :=
  output_start_header sample_banner data_type.BASE16 (by decide) (sample_hash []) w 0
    create_empty_stream create_empty_stream_header (by
      intro b hb
      simp only [sample_hash, List.mem_replicate] at hb
      omega) (by decide) (by decide)

theorem line_1000_at_width_14 :
    (text_lines (written_since
      (output_start sample_banner create_empty_stream data_type.BASE16 (sample_hash []) 14 0).2.1
      (emit_all data_type.BASE16
        (output_start sample_banner create_empty_stream data_type.BASE16
          (sample_hash []) 14 0).2.2
        [List.replicate 1000 0]
        (output_start sample_banner create_empty_stream data_type.BASE16
          (sample_hash []) 14 0).2.1)))[999]? = some (data_line_text 1000 [0]) := by
  have hli : (output_start sample_banner create_empty_stream data_type.BASE16
      (sample_hash []) 14 0).2.2 = 1 := by decide
  rw [hli, text_lines_written data_type.BASE16 (by decide) 1 (le_refl _) _ _
    (sample_header_state 14).1 (by simp) (by
      intro b hb
      simp only [List.flatten_cons, List.flatten_nil, List.append_nil,
        List.mem_replicate] at hb
      omega) (by simp)]
  have hch : chunks 1 [List.replicate 1000 0].flatten = List.replicate 1000 [0] := by
    simp only [List.flatten_cons, List.flatten_nil, List.append_nil, chunks,
      List.length_replicate]
    exact chunksFuel_one_replicate 0 1000 1000 (le_refl _)
  rw [hch, List.getElem?_append_left (by simp)]
  exact data_line_texts_getElem? 1 _ 999 [0] (by simp [List.getElem?_replicate])

/-! ## The line numbers of the base-16 artifact -/

theorem digitsRev_small (fuel v : Nat) (hf : 1 ≤ fuel) (hv : v < 10) :
    digitsRev 10 fuel v = [v] := by
  obtain ⟨f, rfl⟩ : ∃ f, fuel = f + 1 := ⟨fuel - 1, by omega⟩
  have h1 : v / 10 = 0 := by omega
  have h2 : v % 10 = v := by omega
  simp only [digitsRev, h1, h2, if_true]

theorem digitsRev_step (fuel v : Nat) (hf : 1 ≤ fuel) (hv : 10 ≤ v) :
    digitsRev 10 fuel v = (v % 10) :: digitsRev 10 (fuel - 1) (v / 10) := by
  obtain ⟨f, rfl⟩ : ∃ f, fuel = f + 1 := ⟨fuel - 1, by omega⟩
  have h1 : ¬ v / 10 = 0 := by omega
  simp only [digitsRev, h1, if_false, Nat.add_sub_cancel]

theorem fmt_3u_one_digit (k : Nat) (h : k < 10) : fmt_3u k = [32, 32, 48 + k] := by
  simp only [fmt_3u, digits, digitsRev_small (k + 1) k (by omega) h, padLeft, decDigit]
  rfl

theorem fmt_3u_two_digits (k : Nat) (h1 : 10 ≤ k) (h2 : k < 100) :
    fmt_3u k = [32, 48 + k / 10, 48 + k % 10] := by
  simp only [fmt_3u, digits, digitsRev_step (k + 1) k (by omega) h1,
    digitsRev_small (k + 1 - 1) (k / 10) (by omega) (by omega), padLeft, decDigit]
  rfl

theorem fmt_3u_three_digits (k : Nat) (h1 : 100 ≤ k) (h2 : k < 1000) :
    fmt_3u k = [48 + k / 100, 48 + k / 10 % 10, 48 + k % 10] := by
  have e : k / 10 / 10 = k / 100 := by omega
  have e3 := digitsRev_small (k + 1 - 1 - 1) (k / 10 / 10) (by omega) (by omega)
  rw [e] at e3
  simp only [fmt_3u, digits, digitsRev_step (k + 1) k (by omega) (by omega),
    digitsRev_step (k + 1 - 1) (k / 10) (by omega) (by omega), e, e3, padLeft, decDigit]
  rfl

theorem base16_line_prefix (type : data_type) (ht : type ≠ data_type.RAW) (n : Nat)
    (hn : 1 ≤ n) (bs : List (List Nat)) (s0 : stream) (hs : s0.appending)
    (hP : bs.flatten ≠ []) (hb : ∀ b ∈ bs.flatten, b < 256)
    (hlen : bs.flatten.length + 1 < 2 ^ 32) (k : Nat) (l : List Nat)
    (hl : (text_lines (written_since s0 (emit_all type n bs s0)))[k]? = some l) :
    ∃ rest, l = fmt_3u (k + 1) ++ [58, 32] ++ rest := by
  rw [text_lines_written type ht n hn bs s0 hs hP hb hlen] at hl
  by_cases hk : k < (chunks n bs.flatten).length
  · rw [List.getElem?_append_left (by simpa using hk)] at hl
    have hc : (chunks n bs.flatten)[k]? = some ((chunks n bs.flatten).get ⟨k, hk⟩) := by
      simp
    rw [data_line_texts_getElem? 1 _ k _ hc] at hl
    refine ⟨hex_octets ((chunks n bs.flatten).get ⟨k, hk⟩) ++
      hex_token (crc24 ((chunks n bs.flatten).get ⟨k, hk⟩)), ?_⟩
    simp only [Option.some.injEq] at hl
    rw [← hl, data_line_text, Nat.add_comm 1 k]
    simp only [List.append_assoc]
  · rw [List.getElem?_append_right (by simpa using hk)] at hl
    simp only [List.length_map, List.enumFrom_length] at hl
    have hk2 : k - (chunks n bs.flatten).length = 0 := by
      by_contra hne
      obtain ⟨j, hj⟩ : ∃ j, k - (chunks n bs.flatten).length = j + 1 :=
        ⟨k - (chunks n bs.flatten).length - 1, by omega⟩
      rw [hj] at hl
      simp at hl
    rw [hk2] at hl
    simp only [List.getElem?_cons_zero, Option.some.injEq] at hl
    have hk3 : (chunks n bs.flatten).length = k := by omega
    refine ⟨hex_token (crc24 bs.flatten), ?_⟩
    rw [← hl, terminator_text, hk3]

/-! ## Writing a stream and reading it back -/

theorem to_int_small (v : Nat) (h : v < 2 ^ 31) : to_int (v : Int) = (v : Int) := by
  unfold to_int UINT_MOD
  push_cast
  omega

theorem to_ulong_small (v : Nat) (h : v < 2 ^ 64) : to_ulong (v : Int) = v := by
  unfold to_ulong ULONG_MOD
  push_cast
  omega

theorem memcpy_at_take_ge (B d : List Nat) (p n : Nat) (hp : p ≤ B.length)
    (hn : p + d.length ≤ n) :
    (memcpy_at B (p : Int) d).take n =
      B.take p ++ d ++ (B.drop (p + d.length)).take (n - (p + d.length)) := by
  simp only [memcpy_at, Int.toNat_ofNat]
  have hl : (List.take p B ++ d).length = p + d.length := by
    simp [List.length_take, hp]
  rw [List.take_append_eq_append_take, hl, List.take_of_length_le (by omega)]

theorem put_contents (B B1 d : List Nat) (p z : Nat) (hpz : p ≤ z) (hz : z ≤ B.length)
    (hB1 : B1.take z = B.take z) (hlen : max z (p + d.length) ≤ B1.length) :
    (memcpy_at B1 (p : Int) d).take (max z (p + d.length)) =
      (B.take z).take p ++ d ++ (B.take z).drop (p + d.length) := by
  have hz1 : z ≤ B1.length := le_trans (le_max_left _ _) hlen
  rw [memcpy_at_take_ge B1 d p _ (by omega) (le_max_right _ _)]
  have e1 : B1.take p = (B.take z).take p := by
    rw [← hB1, List.take_take, min_eq_left hpz]
  rw [e1]
  congr 1
  by_cases hk : p + d.length ≤ z
  · rw [max_eq_left hk, ← hB1, List.drop_take]
  · have hk2 : z < p + d.length := not_le.mp hk
    rw [max_eq_right (le_of_lt hk2), Nat.sub_self, List.take_zero]
    symm
    apply List.drop_eq_nil_of_le
    rw [List.length_take]
    omega

theorem stream_put_valid (s : stream) (d : List Nat) (h : s.valid) :
    (stream_put s d (d.length : Nat)).valid ∧
      (stream_put s d (d.length : Nat)).pos = s.pos + (d.length : Nat) ∧
      (stream_put s d (d.length : Nat)).size = max s.size (s.pos + (d.length : Nat)) ∧
      (stream_put s d (d.length : Nat)).contents =
        s.contents.take s.pos.toNat ++ d ++ s.contents.drop (s.pos.toNat + d.length) := by
  obtain ⟨buffer, size, pos, memsize⟩ := s
  obtain ⟨h0, hps, hm, hl⟩ := h
  simp only at h0 hps hm hl
  obtain ⟨p, rfl⟩ := Int.eq_ofNat_of_zero_le h0
  obtain ⟨z, rfl⟩ := Int.eq_ofNat_of_zero_le (le_trans h0 hps)
  obtain ⟨m, rfl⟩ := Int.eq_ofNat_of_zero_le (le_trans (le_trans h0 hps) hm)
  have hpz : p ≤ z := by exact_mod_cast hps
  have hzm : z ≤ m := by exact_mod_cast hm
  simp only [Int.toNat_ofNat] at hl
  have e2 : (2 : Int) * ((p : Int) + ((d.length : Nat) : Int)) =
      ((2 * (p + d.length) : Nat) : Int) := by
    push_cast; ring
  have e1 : (p : Int) + ((d.length : Nat) : Int) = ((p + d.length : Nat) : Int) := by
    push_cast; ring
  unfold stream_put
  simp only [stream.valid, stream.contents, Int.toNat_ofNat, List.take_length]
  by_cases hg : (p : Int) + ((d.length : Nat) : Int) ≥ (m : Int)
  · have hg2 : m ≤ p + d.length := by exact_mod_cast hg
    have hB : (realloc buffer ((2 * (p + d.length) : Nat) : Int)).length =
        2 * (p + d.length) := realloc_length _ _
    have hT : (realloc buffer ((2 * (p + d.length) : Nat) : Int)).take z = buffer.take z :=
      realloc_take _ _ _ (by omega) (by omega)
    simp only [hg, if_true]
    by_cases hn : (p : Int) + ((d.length : Nat) : Int) > (z : Int)
    · have hn2 : z < p + d.length := by exact_mod_cast hn
      simp only [hn, if_true]
      rw [e2, e1]
      simp only [Int.toNat_ofNat]
      have hmx : max z (p + d.length) = p + d.length := max_eq_right (le_of_lt hn2)
      refine ⟨⟨by omega, by omega, by omega, ?_⟩, trivial,
        (max_eq_right (by exact_mod_cast le_of_lt hn2)).symm, ?_⟩
      · rw [memcpy_at_length _ _ _ (by rw [hB]; omega), hB]
      · have := put_contents buffer _ d p z hpz (by omega) hT (by rw [hB, hmx]; omega)
        rw [hmx] at this
        exact this
    · have hn2 : p + d.length ≤ z := by
        have : (p : Int) + ((d.length : Nat) : Int) ≤ (z : Int) := not_lt.mp hn
        exact_mod_cast this
      simp only [hn, if_false]
      rw [e2]
      simp only [Int.toNat_ofNat]
      have hmx : max z (p + d.length) = z := max_eq_left hn2
      refine ⟨⟨by omega, by omega, by omega, ?_⟩, trivial,
        (max_eq_left (by exact_mod_cast hn2)).symm, ?_⟩
      · rw [memcpy_at_length _ _ _ (by rw [hB]; omega), hB]
      · have := put_contents buffer _ d p z hpz (by omega) hT (by rw [hB, hmx]; omega)
        rw [hmx] at this
        exact this
  · have hg2 : p + d.length < m := by
      have : (p : Int) + ((d.length : Nat) : Int) < (m : Int) := not_le.mp hg
      exact_mod_cast this
    simp only [hg, if_false]
    by_cases hn : (p : Int) + ((d.length : Nat) : Int) > (z : Int)
    · have hn2 : z < p + d.length := by exact_mod_cast hn
      simp only [hn, if_true]
      rw [e1]
      simp only [Int.toNat_ofNat]
      have hmx : max z (p + d.length) = p + d.length := max_eq_right (le_of_lt hn2)
      refine ⟨⟨by omega, by omega, by omega, ?_⟩, trivial,
        (max_eq_right (by exact_mod_cast le_of_lt hn2)).symm, ?_⟩
      · rw [memcpy_at_length _ _ _ (by omega), hl]
      · have := put_contents buffer buffer d p z hpz (by omega) rfl (by rw [hmx]; omega)
        rw [hmx] at this
        exact this
    · have hn2 : p + d.length ≤ z := by
        have : (p : Int) + ((d.length : Nat) : Int) ≤ (z : Int) := not_lt.mp hn
        exact_mod_cast this
      simp only [hn, if_false]
      simp only [Int.toNat_ofNat]
      have hmx : max z (p + d.length) = z := max_eq_left hn2
      refine ⟨⟨by omega, by omega, by omega, ?_⟩, trivial,
        (max_eq_left (by exact_mod_cast hn2)).symm, ?_⟩
      · rw [memcpy_at_length _ _ _ (by omega), hl]
      · have := put_contents buffer buffer d p z hpz (by omega) rfl (by rw [hmx]; omega)
        rw [hmx] at this
        exact this

theorem remaining_length (s : stream) (h : s.valid) :
    (s.remaining.length : Int) = s.size - s.pos := by
  obtain ⟨h0, hps, hm, hl⟩ := h
  obtain ⟨p, hp⟩ := Int.eq_ofNat_of_zero_le h0
  obtain ⟨z, hz⟩ := Int.eq_ofNat_of_zero_le (le_trans h0 hps)
  obtain ⟨m, hmm⟩ := Int.eq_ofNat_of_zero_le (le_trans (le_trans h0 hps) hm)
  rw [hp, hz] at hps
  rw [hz, hmm] at hm
  rw [hmm] at hl
  simp only [Int.toNat_ofNat] at hl
  simp only [stream.remaining, stream.contents, hp, hz, Int.toNat_ofNat, List.length_drop,
    List.length_take, hl]
  omega

theorem stream_getc_eof (s : stream) (h : s.valid) (hr : s.remaining = []) :
    stream_getc s = (EOF, s) ∧ stream_eof s = 1 := by
  have hlen := remaining_length s h
  rw [hr] at hlen
  simp only [List.length_nil, Nat.cast_zero] at hlen
  have he : stream_eof s = 1 := by
    unfold stream_eof
    rw [if_pos (by omega)]
  refine ⟨?_, he⟩
  unfold stream_getc
  rw [he]
  simp

theorem take_drop_head (B : List Nat) (z p c : Nat) (rest : List Nat)
    (h : (B.take z).drop p = c :: rest) :
    B.getD p 0 = c ∧ (B.take z).drop (p + 1) = rest := by
  have h1 : ((B.take z).drop p)[0]? = some c := by rw [h]; simp
  rw [List.getElem?_drop, Nat.add_zero] at h1
  have h2 : B[p]? = some c := by
    by_cases hpz : p < z
    · rw [List.getElem?_take_of_lt hpz] at h1
      exact h1
    · rw [List.getElem?_take_eq_none (by omega)] at h1
      exact absurd h1 (by simp)
  refine ⟨by simp [List.getD_eq_getElem?_getD, h2], ?_⟩
  rw [← List.drop_drop 1 p, h]
  rfl

theorem stream_getc_byte (s : stream) (h : s.valid) (c : Nat) (rest : List Nat)
    (hr : s.remaining = c :: rest) :
    stream_getc s = ((c : Int), { s with pos := s.pos + 1 }) ∧
      ({ s with pos := s.pos + 1 } : stream).valid ∧
      ({ s with pos := s.pos + 1 } : stream).remaining = rest ∧ stream_eof s = 0 := by
  have hlen := remaining_length s h
  rw [hr] at hlen
  simp only [List.length_cons] at hlen
  obtain ⟨h0, hps, hm, hl⟩ := h
  have hlt : s.pos < s.size := by
    push_cast at hlen
    omega
  have he : stream_eof s = 0 := by
    unfold stream_eof
    rw [if_neg (by omega)]
  obtain ⟨p, hp⟩ := Int.eq_ofNat_of_zero_le h0
  have hhead := take_drop_head s.buffer s.size.toNat p c rest (by
    simpa [stream.remaining, stream.contents, hp] using hr)
  refine ⟨?_, ⟨by show 0 ≤ s.pos + 1; omega, by show s.pos + 1 ≤ s.size; omega, hm, hl⟩, ?_, he⟩
  · unfold stream_getc
    rw [he]
    simp only [ne_eq, not_true_eq_false, if_false, hp, Int.toNat_ofNat, hhead.1]
  · have e : ((p : Int) + 1).toNat = p + 1 := by omega
    simp only [stream.remaining, stream.contents, hp, e]
    exact hhead.2

theorem stream_gets_loop_eq (k : Nat) (buf : List Nat) (s : stream) (h : s.valid) :
    stream_gets_loop k buf s =
      (if s.remaining = [] ∧ buf = [] ∧ k ≠ 0 then none
        else some (buf ++ s.remaining.take
          (min k (min s.remaining.length (s.remaining.indexOf 10 + 1))) ++ [0]),
        { s with pos := s.pos +
          ((min k (min s.remaining.length (s.remaining.indexOf 10 + 1)) : Nat) : Int) }) := by
  induction k generalizing buf s with
  | zero =>
    cases s
    simp [stream_gets_loop]
  | succ k ih =>
    cases hr : s.remaining with
    | nil =>
      obtain ⟨hg, _⟩ := stream_getc_eof s h hr
      rw [stream_gets_loop, hg]
      simp only [if_true, List.length_nil, Nat.zero_min, Nat.min_zero, List.take_nil,
        List.append_nil, Nat.cast_zero, add_zero, true_and, ne_eq, Nat.add_one_ne_zero,
        not_false_eq_true, and_true]
      by_cases hb : buf = []
      · subst hb
        cases s
        simp
      · have hb2 : ¬ buf.length = 0 := fun hz => hb (List.length_eq_zero.mp hz)
        cases s
        simp [hb, hb2]
    | cons c rest =>
      obtain ⟨hg, hv1, hr1, _⟩ := stream_getc_byte s h c rest hr
      have hne : ¬ ((c : Int) = EOF) := by
        unfold EOF
        omega
      rw [stream_gets_loop, hg]
      simp only [hne, if_false, Int.toNat_ofNat]
      by_cases h10 : c = 10
      · subst h10
        have hm : min (k + 1) (min (10 :: rest).length (List.indexOf 10 (10 :: rest) + 1)) = 1 := by
          rw [List.indexOf_cons_self]
          simp
        rw [hm]
        simp
      · have h10i : ¬ ((c : Int) = 10) := by omega
        have hm : min (k + 1) (min (c :: rest).length (List.indexOf 10 (c :: rest) + 1)) =
            min k (min rest.length (List.indexOf 10 rest + 1)) + 1 := by
          rw [List.indexOf_cons_ne _ h10, List.length_cons]
          omega
        rw [hm]
        simp only [h10i, if_false]
        rw [ih (buf ++ [c]) _ hv1, hr1]
        simp only [List.append_eq_nil, List.cons_ne_self, and_false, false_and, if_false,
          List.take_succ_cons, List.append_assoc, List.singleton_append, List.cons_append,
          List.nil_append, reduceCtorEq]
        congr 2
        push_cast
        ring

/-! ## One `output_bytes` call or two -/

theorem output_bytes_split_base16 (type : data_type) (ht : type ≠ data_type.RAW) (n : Nat)
    (a b : List Nat) (s : stream) (e : emitter) :
    (output_bytes s type (some (a ++ b)) n e).2 =
      (output_bytes (output_bytes s type (some a) n e).2.1 type (some b) n
        (output_bytes s type (some a) n e).2.2).2 := by
  rw [output_bytes_base16_some type ht n (a ++ b) s e,
    output_bytes_base16_some type ht n b _ _, output_bytes_base16_some type ht n a s e]
  simp only [print_base16_fold_all_crc, List.foldl_append, do_crc24_append]

theorem splice_twice (C a b : List Nat) (p : Nat) (hp : p ≤ C.length) :
    (C.take p ++ a ++ C.drop (p + a.length)).take (p + a.length) ++ b ++
        (C.take p ++ a ++ C.drop (p + a.length)).drop (p + a.length + b.length) =
      C.take p ++ (a ++ b) ++ C.drop (p + (a ++ b).length) := by
  have hl : (C.take p ++ a).length = p + a.length := by
    simp [List.length_take, hp]
  have e1 : (C.take p ++ a ++ C.drop (p + a.length)).take (p + a.length) = C.take p ++ a := by
    rw [← hl, List.take_left]
  have e2 : (C.take p ++ a ++ C.drop (p + a.length)).drop (p + a.length + b.length) =
      C.drop (p + (a ++ b).length) := by
    rw [← hl, List.drop_append, List.drop_drop, hl, List.length_append]
    congr 1
    omega
  rw [e1, e2]
  simp only [List.append_assoc]

theorem contents_length (s : stream) (h : s.valid) : s.contents.length = s.size.toNat := by
  obtain ⟨h0, hps, hm, hl⟩ := h
  simp only [stream.contents, List.length_take, hl]
  omega

theorem output_bytes_raw_valid (s : stream) (d : List Nat) (n : Nat) (e : emitter)
    (h : s.valid) :
    (output_bytes s data_type.RAW (some d) n e).2.1.valid ∧
      (output_bytes s data_type.RAW (some d) n e).2.1.pos = s.pos + (d.length : Nat) ∧
      (output_bytes s data_type.RAW (some d) n e).2.1.contents =
        s.contents.take s.pos.toNat ++ d ++ s.contents.drop (s.pos.toNat + d.length) ∧
      (output_bytes s data_type.RAW (some d) n e).2.2 =
        { e with all_crc := do_crc24 e.all_crc d } := by
  obtain ⟨a1, a2, _, a4⟩ := stream_put_valid s d h
  simp only [output_bytes, Option.getD_some, stream_write, Nat.one_mul]
  exact ⟨a1, a2, a4, trivial⟩

theorem output_bytes_split_raw (n : Nat) (a b : List Nat) (s : stream) (e : emitter)
    (h : s.valid) :
    (output_bytes s data_type.RAW (some (a ++ b)) n e).2.1.contents =
        (output_bytes (output_bytes s data_type.RAW (some a) n e).2.1 data_type.RAW (some b) n
          (output_bytes s data_type.RAW (some a) n e).2.2).2.1.contents ∧
      (output_bytes s data_type.RAW (some (a ++ b)) n e).2.1.pos =
        (output_bytes (output_bytes s data_type.RAW (some a) n e).2.1 data_type.RAW (some b) n
          (output_bytes s data_type.RAW (some a) n e).2.2).2.1.pos ∧
      (output_bytes s data_type.RAW (some (a ++ b)) n e).2.2 =
        (output_bytes (output_bytes s data_type.RAW (some a) n e).2.1 data_type.RAW (some b) n
          (output_bytes s data_type.RAW (some a) n e).2.2).2.2 := by
  obtain ⟨a1, a2, a3, a4⟩ := output_bytes_raw_valid s a n e h
  obtain ⟨b1, b2, b3, b4⟩ := output_bytes_raw_valid
    (output_bytes s data_type.RAW (some a) n e).2.1 b n
    (output_bytes s data_type.RAW (some a) n e).2.2 a1
  obtain ⟨c1, c2, c3, c4⟩ := output_bytes_raw_valid s (a ++ b) n e h
  obtain ⟨p, hp⟩ := Int.eq_ofNat_of_zero_le h.1
  have hpl : p ≤ s.contents.length := by
    rw [contents_length s h]
    have := h.2.1
    omega
  refine ⟨?_, ?_, ?_⟩
  · rw [c3, b3, a2, a3, hp]
    have e : ((p : Int) + ((a.length : Nat) : Int)).toNat = p + a.length := by omega
    rw [e, Int.toNat_ofNat]
    exact (splice_twice s.contents a b p hpl).symm
  · rw [c2, b2, a2, List.length_append]
    push_cast
    ring
  · rw [c4, b4, a4, do_crc24_append]

theorem output_seq_raw_valid (bs : List (List Nat)) (n : Nat) (s : stream) (e : emitter)
    (h : s.valid) :
    (output_seq data_type.RAW n bs (s, e)).1.contents =
        (output_bytes s data_type.RAW (some bs.flatten) n e).2.1.contents ∧
      (output_seq data_type.RAW n bs (s, e)).1.pos =
        (output_bytes s data_type.RAW (some bs.flatten) n e).2.1.pos ∧
      (output_seq data_type.RAW n bs (s, e)).2 =
        (output_bytes s data_type.RAW (some bs.flatten) n e).2.2 := by
  induction bs generalizing s e with
  | nil =>
    obtain ⟨_, a2, a3, a4⟩ := output_bytes_raw_valid s [] n e h
    have hp : s.pos.toNat ≤ s.contents.length := by
      rw [contents_length s h]
      have := h.2.1
      omega
    simp only [output_seq, List.flatten_nil]
    refine ⟨?_, ?_, ?_⟩
    · rw [a3]
      simp
    · rw [a2]
      simp
    · rw [a4]
      rfl
  | cons b rest ih =>
    obtain ⟨a1, _, _, _⟩ := output_bytes_raw_valid s b n e h
    obtain ⟨i1, i2, i3⟩ := ih (output_bytes s data_type.RAW (some b) n e).2.1
      (output_bytes s data_type.RAW (some b) n e).2.2 a1
    obtain ⟨c1, c2, c3⟩ := output_bytes_split_raw n b rest.flatten s e h
    simp only [output_seq, List.flatten_cons]
    exact ⟨by rw [i1, c1], by rw [i2, c2], by rw [i3, c3]⟩

theorem output_seq_base16_single (type : data_type) (ht : type ≠ data_type.RAW) (n : Nat)
    (bs : List (List Nat)) (s : stream) (e : emitter) :
    output_seq type n bs (s, e) = (output_bytes s type (some bs.flatten) n e).2 := by
  rw [output_seq_base16 type ht, output_bytes_base16_some type ht]

/-- C12: the code run where the claim fails.  At output width 14 `output_start` sets
`line_items` to 1; for a payload of 1000 zero bytes the data line number 1000 written after
the header is `1000: 00 ` followed by the six digits of its CRC-24: 15 characters without the
newline, one more than the output width. -/
theorem base16_line_1000_exceeds_width_14 :
    (output_start sample_banner create_empty_stream data_type.BASE16
        (sample_hash []) 14 0).2.2 = 1 ∧
      (text_lines (written_since
        (output_start sample_banner create_empty_stream data_type.BASE16
          (sample_hash []) 14 0).2.1
        (emit_all data_type.BASE16
          (output_start sample_banner create_empty_stream data_type.BASE16
            (sample_hash []) 14 0).2.2
          [List.replicate 1000 0]
          (output_start sample_banner create_empty_stream data_type.BASE16
            (sample_hash []) 14 0).2.1)))[999]? = some (data_line_text 1000 [0]) ∧
      data_line_text 1000 [0] = ascii "1000: 00 " ++ hex_token (crc24 [0]) ∧
      (data_line_text 1000 [0]).length = 15 ∧ 14 < (data_line_text 1000 [0]).length :=
  ⟨by decide, line_1000_at_width_14, by decide, by decide, by decide⟩

/-- C13, the claim as stated fails: the first line of the artifact of the one-byte payload 00
begins with two spaces and `1: `, not with `001: `. -/
theorem base16_first_line_is_not_zero_padded :
    (text_lines (written_since create_empty_stream
        (emit_all data_type.BASE16 22 [[0]] create_empty_stream)))[0]? =
      some (ascii "  1: 00 " ++ hex_token (crc24 [0])) ∧
    (ascii "  1: 00 " ++ hex_token (crc24 [0])).take 5 ≠ ascii "001: " := by
  decide

/-- C13, amended: in the BASE16 artifact every data line and the terminator line begins with
its 1-based line number as the conversion `%3u` writes it, followed by `: `: the number in
decimal, right-aligned in a field of three characters that is filled with spaces, not zeros
(two spaces and a digit below 10, one space and two digits below 100, three digits below
1000). -/
theorem base16_lines_begin_with_space_padded_number (type : data_type) (n : Nat)
    (bs : List (List Nat)) (s0 : stream) (ht : type ≠ data_type.RAW) (hn : 1 ≤ n)
    (hs : s0.appending) (hP : bs.flatten ≠ []) (hb : ∀ b ∈ bs.flatten, b < 256)
    (hlen : bs.flatten.length + 1 < 2 ^ 32) :
    (∀ k l, (text_lines (written_since s0 (emit_all type n bs s0)))[k]? = some l →
        ∃ rest, l = fmt_3u (k + 1) ++ [58, 32] ++ rest) ∧
      (∀ k, k < 10 → fmt_3u k = [32, 32, 48 + k]) ∧
      (∀ k, 10 ≤ k → k < 100 → fmt_3u k = [32, 48 + k / 10, 48 + k % 10]) ∧
      (∀ k, 100 ≤ k → k < 1000 → fmt_3u k = [48 + k / 100, 48 + k / 10 % 10, 48 + k % 10]) :=
  ⟨fun k l hl => base16_line_prefix type ht n hn bs s0 hs hP hb hlen k l hl,
    fmt_3u_one_digit, fmt_3u_two_digits, fmt_3u_three_digits⟩

/-- Witness of C13: the payload 01 02 03 04 FF 00 10 written in two calls, three octets to a
line; the second line begins with two spaces and `2: `. -/
theorem base16_lines_begin_with_space_padded_number_witness :
    (data_type.BASE16 ≠ data_type.RAW ∧ 1 ≤ 3 ∧ create_empty_stream.appending ∧
        [[1, 2, 3, 4], [255, 0, 16]].flatten ≠ [] ∧
        (∀ b ∈ [[1, 2, 3, 4], [255, 0, 16]].flatten, b < 256) ∧
        [[1, 2, 3, 4], [255, 0, 16]].flatten.length + 1 < 2 ^ 32 ∧
        (text_lines (written_since create_empty_stream
          (emit_all data_type.BASE16 3 [[1, 2, 3, 4], [255, 0, 16]] create_empty_stream)))[1]? =
          some (data_line_text 2 [4, 255, 0])) ∧
      (∃ rest, data_line_text 2 [4, 255, 0] = fmt_3u (1 + 1) ++ [58, 32] ++ rest) ∧
      fmt_3u 2 = [32, 32, 48 + 2] :=
  ⟨⟨by decide, by decide, create_empty_stream_appending, by decide, by decide, by decide,
      by decide⟩,
    (base16_lines_begin_with_space_padded_number data_type.BASE16 3
      [[1, 2, 3, 4], [255, 0, 16]] create_empty_stream (by decide) (by decide)
      create_empty_stream_appending (by decide) (by decide) (by decide)).1 1 _ (by decide),
    (base16_lines_begin_with_space_padded_number data_type.BASE16 3
      [[1, 2, 3, 4], [255, 0, 16]] create_empty_stream (by decide) (by decide)
      create_empty_stream_appending (by decide) (by decide) (by decide)).2.1 2 (by decide)⟩

/-- C14, the claim as stated fails: at output width 10 the unsigned subtraction wraps and
`output_start` sets `line_items` to 1431655765, which is at least 1 although the width is
below 14. -/
theorem line_items_at_width_10_is_positive :
    (output_start sample_banner create_empty_stream data_type.BASE16 [] 10 0).2.2 =
        1431655765 ∧
      ¬ (1 ≤ (output_start sample_banner create_empty_stream data_type.BASE16 [] 10 0).2.2 ↔
        14 ≤ 10) := by
  decide

/-- C14, amended: for an `unsigned int` output width `w`, `output_start` in AUTO or BASE16
sets `line_items` to `(w - 5 - 6) / 3` in 32-bit unsigned arithmetic, that is `(w - 11) / 3`
from 11 on and `(w + 2 ^ 32 - 11) / 3` below 11, where the subtraction wraps; `line_items` is
at least 1 exactly when `w` is at least 14 or below 11; so for every width of at least 14 the
divisor of `offset % line_items` is not zero. -/
theorem output_start_line_items (env : banner) (s : stream) (type : data_type)
    (fp : List Nat) (w li : Nat) (ht : type ≠ data_type.RAW) (hw : w < 2 ^ 32) :
    (output_start env s type fp w li).2.2 =
        (if 11 ≤ w then (w - 11) / 3 else (w + 2 ^ 32 - 11) / 3) ∧
      (1 ≤ (output_start env s type fp w li).2.2 ↔ (14 ≤ w ∨ w < 11)) ∧
      (14 ≤ w → (output_start env s type fp w li).2.2 ≠ 0) := by
  have e : (output_start env s type fp w li).2.2 =
      ((w + (UINT_MOD - 5) + (UINT_MOD - 6)) % UINT_MOD) / 3 := by
    cases type with
    | RAW => exact absurd rfl ht
    | AUTO => rfl
    | BASE16 => rfl
  rw [e]
  unfold UINT_MOD
  by_cases h11 : 11 ≤ w
  · rw [if_pos h11]
    have e2 : (w + (2 ^ 32 - 5) + (2 ^ 32 - 6)) % 2 ^ 32 = w - 11 := by omega
    rw [e2]
    refine ⟨rfl, ?_, ?_⟩ <;> omega
  · rw [if_neg h11]
    have e2 : (w + (2 ^ 32 - 5) + (2 ^ 32 - 6)) % 2 ^ 32 = w + 2 ^ 32 - 11 := by omega
    rw [e2]
    refine ⟨rfl, ?_, ?_⟩ <;> omega

/-- Witness of C14: the default width 78 gives 22 octets to a line. -/
theorem output_start_line_items_witness :
    (data_type.BASE16 ≠ data_type.RAW ∧ 78 < 2 ^ 32) ∧
      (output_start sample_banner create_empty_stream data_type.BASE16 [] 78 0).2.2 =
        (if 11 ≤ 78 then (78 - 11) / 3 else (78 + 2 ^ 32 - 11) / 3) :=
  ⟨⟨by decide, by decide⟩,
    (output_start_line_items sample_banner create_empty_stream data_type.BASE16 [] 78 0
      (by decide) (by decide)).1⟩

/-- C15: `output_start`, `output_bytes` and `output_finish` called with type AUTO give the
same results as with type BASE16: the same return value, the same stream (hence the same bytes
written) and the same `line_items` and locals `all_crc`, `line`, `line_crc`, `offset`, for
every stream, fingerprint, width, buffer and state of the locals. -/
theorem auto_output_is_base16_output (env : banner) (s : stream) (fp : List Nat)
    (w li : Nat) (buf : Option (List Nat)) (e : emitter) :
    output_start env s data_type.AUTO fp w li = output_start env s data_type.BASE16 fp w li ∧
      output_bytes s data_type.AUTO buf li e = output_bytes s data_type.BASE16 buf li e ∧
      output_finish s data_type.AUTO li e = output_finish s data_type.BASE16 li e :=
  ⟨rfl, rfl, rfl⟩

/-- C19: for every bound `n` from 2 on (a `size_t`) and every stream with
`0 <= pos <= size <= memsize` and a buffer of `memsize` bytes, `stream_gets` returns `NULL`
exactly when the stream is at end-of-stream, and then leaves it unchanged; otherwise, with `r`
the bytes from the cursor to the end, it returns and consumes the first
`min (n - 1, |r|, j + 1)` bytes of `r`, `j` being the index of the first newline of `r`
(`List.indexOf` is `|r|` when there is none, so that `j + 1` then exceeds `|r|`), followed by
a NUL. -/
theorem stream_gets_reads_a_line (n : Nat) (s : stream) (hn : 2 ≤ n) (hn2 : n < 2 ^ 64)
    (h : s.valid) :
    ((stream_gets n s).1 = none ↔ stream_eof s = 1) ∧
      (stream_eof s = 1 → stream_gets n s = (none, s)) ∧
      (stream_eof s ≠ 1 →
        stream_gets n s =
          (some (s.remaining.take
              (min (n - 1) (min s.remaining.length (s.remaining.indexOf 10 + 1))) ++ [0]),
            { s with pos := s.pos +
              ((min (n - 1) (min s.remaining.length (s.remaining.indexOf 10 + 1)) : Nat) :
                Int) })) := by
  have hk : (n + (ULONG_MOD - 1)) % ULONG_MOD = n - 1 := by
    unfold ULONG_MOD
    omega
  have hloop := stream_gets_loop_eq (n - 1) [] s h
  have hk0 : n - 1 ≠ 0 := by omega
  cases hr : s.remaining with
  | nil =>
    obtain ⟨_, he⟩ := stream_getc_eof s h hr
    have hres : stream_gets n s = (none, s) := by
      rw [stream_gets, hk, hloop, hr]
      cases s
      simp [hk0]
    refine ⟨⟨fun _ => he, fun _ => by rw [hres]⟩, fun _ => hres, fun hne => absurd he hne⟩
  | cons c rest =>
    obtain ⟨_, _, _, he⟩ := stream_getc_byte s h c rest hr
    have hres : stream_gets n s =
        (some ((c :: rest).take
            (min (n - 1) (min (c :: rest).length ((c :: rest).indexOf 10 + 1))) ++ [0]),
          { s with pos := s.pos +
            ((min (n - 1) (min (c :: rest).length ((c :: rest).indexOf 10 + 1)) : Nat) :
              Int) }) := by
      rw [stream_gets, hk, hloop, hr]
      simp
    have he1 : ¬ stream_eof s = 1 := by rw [he]; decide
    refine ⟨⟨fun hnone => ?_, fun h1 => absurd h1 he1⟩, fun h1 => absurd h1 he1,
      fun _ => hres⟩
    rw [hres] at hnone
    exact Option.noConfusion hnone

/-- Witness of C19: two lines read with bound 5 from a stream of four bytes: the first call
returns `AB`, the newline and the NUL. -/
theorem stream_gets_reads_a_line_witness :
    (2 ≤ 5 ∧ 5 < 2 ^ 64 ∧ (stream_of [65, 66, 10, 67]).valid ∧
        stream_eof (stream_of [65, 66, 10, 67]) ≠ 1) ∧
      stream_gets 5 (stream_of [65, 66, 10, 67]) =
        (some ((stream_of [65, 66, 10, 67]).remaining.take
            (min (5 - 1) (min (stream_of [65, 66, 10, 67]).remaining.length
              ((stream_of [65, 66, 10, 67]).remaining.indexOf 10 + 1))) ++ [0]),
          { stream_of [65, 66, 10, 67] with pos := (stream_of [65, 66, 10, 67]).pos +
            ((min (5 - 1) (min (stream_of [65, 66, 10, 67]).remaining.length
              ((stream_of [65, 66, 10, 67]).remaining.indexOf 10 + 1)) : Nat) : Int) }) ∧
      stream_gets 5 (stream_of [65, 66, 10, 67]) =
        (some [65, 66, 10, 0], stream_at [65, 66, 10, 67] 3) :=
  ⟨⟨by decide, by decide, ⟨by decide, by decide, by decide, by decide⟩, by decide⟩,
    (stream_gets_reads_a_line 5 (stream_of [65, 66, 10, 67]) (by decide) (by decide)
      ⟨by decide, by decide, by decide, by decide⟩).2.2 (by decide),
    by decide⟩

/-- C20: for every framing (RAW, BASE16 and AUTO), every `line_items`, every state of the
locals and every stream with `0 <= pos <= size <= memsize` and a buffer of `memsize` bytes,
one `output_bytes` call on `a ++ b` leaves the same stream content, the same cursor and the
same locals (`all_crc`, `line`, `line_crc`, `offset`) as a call on `a` followed by a call on
`b`; hence the calls on the buffers of a list leave what one call on their concatenation
leaves: the artifact depends on the concatenated payload only. -/
theorem output_bytes_split_equals_single_call (type : data_type) (n : Nat) (a b : List Nat)
    (s : stream) (e : emitter) (h : s.valid) :
    ((output_bytes s type (some (a ++ b)) n e).2.1.contents =
          (output_bytes (output_bytes s type (some a) n e).2.1 type (some b) n
            (output_bytes s type (some a) n e).2.2).2.1.contents ∧
        (output_bytes s type (some (a ++ b)) n e).2.1.pos =
          (output_bytes (output_bytes s type (some a) n e).2.1 type (some b) n
            (output_bytes s type (some a) n e).2.2).2.1.pos ∧
        (output_bytes s type (some (a ++ b)) n e).2.2 =
          (output_bytes (output_bytes s type (some a) n e).2.1 type (some b) n
            (output_bytes s type (some a) n e).2.2).2.2) ∧
      ∀ bs : List (List Nat),
        (output_seq type n bs (s, e)).1.contents =
            (output_bytes s type (some bs.flatten) n e).2.1.contents ∧
          (output_seq type n bs (s, e)).1.pos =
            (output_bytes s type (some bs.flatten) n e).2.1.pos ∧
          (output_seq type n bs (s, e)).2 = (output_bytes s type (some bs.flatten) n e).2.2 := by
  by_cases ht : type = data_type.RAW
  · subst ht
    exact ⟨output_bytes_split_raw n a b s e h, fun bs => output_seq_raw_valid bs n s e h⟩
  · refine ⟨?_, fun bs => ?_⟩
    · rw [output_bytes_split_base16 type ht n a b s e]
      exact ⟨rfl, rfl, rfl⟩
    · rw [output_seq_base16_single type ht n bs s e]
      exact ⟨rfl, rfl, rfl⟩

/-- Witness of C20: the payload 01 02 03 04 FF written to the empty stream in BASE16, three
octets to a line, in one call and split after the second byte. -/
theorem output_bytes_split_equals_single_call_witness :
    create_empty_stream.valid ∧
      (output_bytes create_empty_stream data_type.BASE16 (some ([1, 2] ++ [3, 4, 255])) 3
          emitter_init).2.1.contents =
        (output_bytes
          (output_bytes create_empty_stream data_type.BASE16 (some [1, 2]) 3 emitter_init).2.1
          data_type.BASE16 (some [3, 4, 255]) 3
          (output_bytes create_empty_stream data_type.BASE16 (some [1, 2]) 3
            emitter_init).2.2).2.1.contents :=
  ⟨⟨by decide, by decide, by decide, by decide⟩,
    (output_bytes_split_equals_single_call data_type.BASE16 3 [1, 2] [3, 4, 255]
      create_empty_stream emitter_init ⟨by decide, by decide, by decide, by decide⟩).1.1⟩

/-! ## `stream_read` -/

theorem stream_read_eq (s : stream) (sz n : Nat) (h : s.in_bounds) (hsize : s.size < 2 ^ 31)
    (hn : n < 2 ^ 31) :
    stream_read sz n s =
      (((min n ((s.size - s.pos).toNat / sz) * sz : Nat) : Int),
        (s.buffer.drop s.pos.toNat).take (min n ((s.size - s.pos).toNat / sz) * sz),
        { s with pos := s.pos + ((min n ((s.size - s.pos).toNat / sz) * sz : Nat) : Int) }) ∧
      s.pos + ((min n ((s.size - s.pos).toNat / sz) * sz : Nat) : Int) ≤ s.size := by
  obtain ⟨h0, hps, hm⟩ := h
  obtain ⟨p, hp⟩ := Int.eq_ofNat_of_zero_le h0
  obtain ⟨z, hz⟩ := Int.eq_ofNat_of_zero_le (le_trans h0 hps)
  rw [hp, hz] at hps
  rw [hz] at hsize
  have hpz : p ≤ z := by exact_mod_cast hps
  have hz31 : z < 2 ^ 31 := by exact_mod_cast hsize
  have hd : ((z : Int) - (p : Int)).toNat = z - p := by omega
  have hdi : ((z : Int) - (p : Int)) = ((z - p : Nat) : Int) := by omega
  generalize hk : min n ((z - p) / sz) = k
  have hka : k ≤ (z - p) / sz := by rw [← hk]; exact min_le_right _ _
  have hmul : (z - p) / sz * sz ≤ z - p := Nat.div_mul_le_self _ _
  have hks : k * sz ≤ z - p := le_trans (Nat.mul_le_mul_right sz hka) hmul
  have hav : (z - p) / sz ≤ z - p := Nat.div_le_self _ _
  have f1 : z - p < 2 ^ 64 := by omega
  have f2 : (z - p) / sz < 2 ^ 31 := by omega
  have f3 : k * sz < 2 ^ 64 := by omega
  have f4 : p < 2 ^ 64 := by omega
  have f5 : (p + k * sz) % ULONG_MOD = p + k * sz := by
    unfold ULONG_MOD
    omega
  have f6 : p + k * sz < 2 ^ 31 := by omega
  have f7 : k * sz < 2 ^ 31 := by omega
  have f8 : p + k * sz ≤ z := by omega
  have c1 : ((sz : Int) * (k : Int)) = ((k * sz : Nat) : Int) := by push_cast; ring
  have c2 : ((k : Int) * (sz : Int)) = ((k * sz : Nat) : Int) := by push_cast; ring
  have e4 : (if (((z - p) / sz : Nat) : Int) > (n : Int) then (n : Int)
      else (((z - p) / sz : Nat) : Int)) = (k : Int) := by
    rw [← hk]
    by_cases hc : (((z - p) / sz : Nat) : Int) > (n : Int)
    · rw [if_pos hc]
      have : n ≤ (z - p) / sz := by
        have : (n : Int) ≤ (((z - p) / sz : Nat) : Int) := le_of_lt hc
        exact_mod_cast this
      rw [min_eq_left this]
    · rw [if_neg hc]
      have : (z - p) / sz ≤ n := by
        have : (((z - p) / sz : Nat) : Int) ≤ (n : Int) := not_lt.mp hc
        exact_mod_cast this
      rw [min_eq_right this]
  have e1 : to_ulong ((z : Int) - (p : Int)) = z - p := by
    rw [hdi]
    exact to_ulong_small _ f1
  have e2 : to_int ((((z - p) / sz : Nat)) : Int) = (((z - p) / sz : Nat) : Int) :=
    to_int_small _ f2
  have e3 : to_int (n : Int) = (n : Int) := to_int_small n hn
  have e5 : to_ulong ((sz : Int) * (k : Int)) = k * sz := by
    rw [c1]
    exact to_ulong_small _ f3
  have e6 : to_ulong ((k : Int) * (sz : Int)) = k * sz := by
    rw [c2]
    exact to_ulong_small _ f3
  have e7 : to_ulong (p : Int) = p := to_ulong_small p f4
  have e9 : to_int ((p + k * sz : Nat) : Int) = ((p + k * sz : Nat) : Int) :=
    to_int_small _ f6
  have e10 : to_int ((k * sz : Nat) : Int) = ((k * sz : Nat) : Int) := to_int_small _ f7
  refine ⟨?_, ?_⟩
  · simp only [stream_read, hp, hz, hd, e1, e2, e3, e4, e5, e6, e7, f5, e9, e10,
      Int.toNat_ofNat, hk]
    push_cast
    rfl
  · rw [hp, hz, hd, hk]
    exact_mod_cast f8

theorem valid_in_bounds (s : stream) (h : s.valid) : s.in_bounds := ⟨h.1, h.2.1, h.2.2.1⟩

theorem read_bytes_within (B : List Nat) (z p m : Nat) (hz : z ≤ B.length) (hm : p + m ≤ z) :
    ((B.drop p).take m).length = m ∧ (B.drop p).take m = ((B.take z).drop p).take m := by
  refine ⟨?_, ?_⟩
  · rw [List.length_take, List.length_drop]
    omega
  · rw [List.drop_take, List.take_take, min_eq_left (by omega)]

theorem stream_read_within (s : stream) (sz n : Nat) (h : s.valid) :
    ((s.buffer.drop s.pos.toNat).take (min n ((s.size - s.pos).toNat / sz) * sz)).length =
        min n ((s.size - s.pos).toNat / sz) * sz ∧
      (s.buffer.drop s.pos.toNat).take (min n ((s.size - s.pos).toNat / sz) * sz) =
        s.remaining.take (min n ((s.size - s.pos).toNat / sz) * sz) := by
  obtain ⟨h0, hps, hm, hl⟩ := h
  have hka : min n ((s.size - s.pos).toNat / sz) ≤ (s.size - s.pos).toNat / sz :=
    min_le_right _ _
  have hmul : (s.size - s.pos).toNat / sz * sz ≤ (s.size - s.pos).toNat :=
    Nat.div_mul_le_self _ _
  have hks : min n ((s.size - s.pos).toNat / sz) * sz ≤ (s.size - s.pos).toNat :=
    le_trans (Nat.mul_le_mul_right sz hka) hmul
  exact read_bytes_within s.buffer s.size.toNat s.pos.toNat _ (by omega) (by omega)

theorem stream_read_short (sz n k r : Nat) (hk : k * sz ≤ r) (hr : r < n * sz) :
    k * sz < n * sz := lt_of_le_of_lt hk hr

/-! ## The bounds of the fields of a stream -/

theorem create_empty_stream_in_bounds : create_empty_stream.in_bounds :=
  ⟨by decide, by decide, by decide⟩

theorem stream_getc_in_bounds (s : stream) (h : s.in_bounds) : (stream_getc s).2.in_bounds := by
  obtain ⟨h0, hps, hm⟩ := h
  unfold stream_getc stream_eof
  by_cases he : s.pos ≥ s.size
  · simp only [he, if_true, ne_eq, one_ne_zero, not_false_eq_true]
    exact ⟨h0, hps, hm⟩
  · simp only [he, if_false, ne_eq, not_true_eq_false]
    exact ⟨by show 0 ≤ s.pos + 1; omega, by show s.pos + 1 ≤ s.size; omega, hm⟩

theorem stream_revert_in_bounds (s : stream) (h : s.in_bounds) : (stream_revert s).in_bounds := by
  obtain ⟨h0, hps, hm⟩ := h
  unfold stream_revert
  by_cases hp : s.pos > 0
  · rw [if_pos hp]
    exact ⟨by show 0 ≤ s.pos - 1; omega, by show s.pos - 1 ≤ s.size; omega, hm⟩
  · rw [if_neg hp]
    exact ⟨h0, hps, hm⟩

theorem stream_rewind_in_bounds (s : stream) (h : s.in_bounds) :
    ({ s with pos := 0 } : stream).in_bounds := by
  obtain ⟨h0, hps, hm⟩ := h
  exact ⟨le_refl _, by show (0 : Int) ≤ s.size; omega, hm⟩

theorem stream_put_in_bounds (s : stream) (src : List Nat) (total : Int) (h : s.in_bounds)
    (ht : 0 ≤ total) : (stream_put s src total).in_bounds := by
  obtain ⟨h0, hps, hm⟩ := h
  unfold stream_put
  by_cases hg : s.pos + total ≥ s.memsize
  · by_cases hn : s.pos + total > s.size
    · simp only [hg, hn, if_true]
      exact ⟨by show 0 ≤ s.pos + total; omega, by show s.pos + total ≤ s.pos + total; omega,
        by show s.pos + total ≤ 2 * (s.pos + total); omega⟩
    · simp only [hg, hn, if_true, if_false]
      exact ⟨by show 0 ≤ s.pos + total; omega, by show s.pos + total ≤ s.size; omega,
        by show s.size ≤ 2 * (s.pos + total); omega⟩
  · by_cases hn : s.pos + total > s.size
    · simp only [hg, hn, if_true, if_false]
      exact ⟨by show 0 ≤ s.pos + total; omega, by show s.pos + total ≤ s.pos + total; omega,
        by show s.pos + total ≤ s.memsize; omega⟩
    · simp only [hg, hn, if_false]
      exact ⟨by show 0 ≤ s.pos + total; omega, by show s.pos + total ≤ s.size; omega, hm⟩

theorem stream_write_in_bounds (s : stream) (ptr : List Nat) (size nmemb : Nat)
    (h : s.in_bounds) : (stream_write ptr size nmemb s).2.in_bounds :=
  stream_put_in_bounds s ptr _ h (Int.ofNat_nonneg _)

theorem stream_printf_in_bounds (s : stream) (text : List Nat) (h : s.in_bounds) :
    (stream_printf s text).2.in_bounds := by
  unfold stream_printf
  by_cases hl : ((text.length : Nat) : Int) < 0 ∨ ((text.length : Nat) : Int) ≥ 1024
  · simp only [hl, if_true]
    exact h
  · simp only [hl, if_false]
    exact stream_put_in_bounds s text _ h (Int.ofNat_nonneg _)

theorem stream_gets_loop_in_bounds (k : Nat) (buf : List Nat) (s : stream) (h : s.in_bounds) :
    (stream_gets_loop k buf s).2.in_bounds := by
  induction k generalizing buf s with
  | zero => exact h
  | succ k ih =>
    have hg := stream_getc_in_bounds s h
    rw [stream_gets_loop]
    by_cases h1 : (stream_getc s).1 = EOF
    · simp only [h1, if_true]
      by_cases h2 : buf.length = 0
      · simp only [h2, if_true]
        exact hg
      · simp only [h2, if_false]
        exact hg
    · simp only [h1, if_false]
      by_cases h3 : (stream_getc s).1 = 10
      · simp only [h3, if_true]
        exact hg
      · simp only [h3, if_false]
        exact ih _ _ hg

theorem stream_gets_in_bounds (n : Nat) (s : stream) (h : s.in_bounds) :
    (stream_gets n s).2.in_bounds :=
  stream_gets_loop_in_bounds _ [] s h

theorem stream_read_in_bounds (s : stream) (sz n : Nat) (h : s.in_bounds)
    (hsize : s.size < 2 ^ 31) (hn : n < 2 ^ 31) :
    (stream_read sz n s).2.2.in_bounds := by
  obtain ⟨he, hle⟩ := stream_read_eq s sz n h hsize hn
  rw [he]
  obtain ⟨h0, hps, hm⟩ := h
  exact ⟨by
      show 0 ≤ s.pos + ((min n ((s.size - s.pos).toNat / sz) * sz : Nat) : Int)
      have := Int.ofNat_nonneg (min n ((s.size - s.pos).toNat / sz) * sz)
      omega, hle, hm⟩

theorem stream_put_growth (s : stream) (src : List Nat) (total : Int) (h : s.in_bounds)
    (ht : 0 ≤ total) (hg : s.pos + total ≥ s.memsize) :
    (stream_put s src total).memsize = 2 * (s.pos + total) ∧
      (stream_put s src total).size ≤ (stream_put s src total).memsize ∧
      s.memsize ≤ (stream_put s src total).memsize := by
  obtain ⟨h0, hps, hm⟩ := h
  unfold stream_put
  by_cases hn : s.pos + total > s.size
  · simp only [hg, hn, if_true]
    exact ⟨trivial, by show s.pos + total ≤ 2 * (s.pos + total); omega,
      by show s.memsize ≤ 2 * (s.pos + total); omega⟩
  · simp only [hg, hn, if_true, if_false]
    exact ⟨trivial, by show s.size ≤ 2 * (s.pos + total); omega,
      by show s.memsize ≤ 2 * (s.pos + total); omega⟩

theorem stream_write_total_exact (size nmemb : Nat) (h : size * nmemb < 2 ^ 31) :
    stream_write_total size nmemb = ((size * nmemb : Nat) : Int) := by
  unfold stream_write_total
  rw [to_ulong_small _ (lt_trans h (by norm_num)), to_int_small _ h]

/-- The bounds `0 <= pos <= size <= memsize` hold for the stream of `create_empty_stream`
and, for a stream on which they hold, also after `stream_getc`, `stream_revert`, `stream_read`
with an item count that fits in an `int` (the size of the stream being an `int`),
`stream_gets`, `stream_write` with a byte count that fits in an `int`, `stream_printf` and
setting `pos` to 0.  When the buffer is grown the new capacity is `2 * (pos + total)`, which
is neither below the new size nor below the old capacity. -/
theorem stream_operations_keep_bounds (s : stream) (h : s.in_bounds) :
    create_empty_stream.in_bounds ∧
      (stream_getc s).2.in_bounds ∧
      (stream_revert s).in_bounds ∧
      (∀ size nitems : Nat, 1 ≤ size → size < 2 ^ 64 → nitems < 2 ^ 31 → s.size < 2 ^ 31 →
        (stream_read size nitems s).2.2.in_bounds) ∧
      (∀ n : Nat, (stream_gets n s).2.in_bounds) ∧
      (∀ (ptr : List Nat) (size nmemb : Nat), size * nmemb < 2 ^ 31 →
        (stream_write ptr size nmemb s).2.in_bounds) ∧
      (∀ text : List Nat, (stream_printf s text).2.in_bounds) ∧
      ({ s with pos := 0 } : stream).in_bounds ∧
      (∀ (src : List Nat) (total : Nat), s.pos + (total : Int) ≥ s.memsize →
        (stream_put s src (total : Int)).memsize = 2 * (s.pos + (total : Int)) ∧
          (stream_put s src (total : Int)).size ≤ (stream_put s src (total : Int)).memsize ∧
          s.memsize ≤ (stream_put s src (total : Int)).memsize) :=
  ⟨create_empty_stream_in_bounds, stream_getc_in_bounds s h, stream_revert_in_bounds s h,
    fun size nitems _ _ h3 h4 => stream_read_in_bounds s size nitems h h4 h3,
    fun n => stream_gets_in_bounds n s h,
    fun ptr size nmemb _ => stream_write_in_bounds s ptr size nmemb h,
    fun text => stream_printf_in_bounds s text h,
    stream_rewind_in_bounds s h,
    fun src total hg => stream_put_growth s src total h (Int.ofNat_nonneg _) hg⟩

/-- C21: the code run where the claim fails.  On a stream of four bytes with a capacity of
eight, at position 0, `stream_read` with the item size `2 ^ 64 - 5` and the item count
`2 ^ 32 - 1`, which does not fit in an `int`, takes the count as -1, which the clamp to the
items available lets through; the byte count `size * items_count` is 5 in `size_t`
arithmetic, so five bytes are copied, one of them beyond the content, 5 is returned and the
cursor is left at 5, beyond the size 4. -/
theorem stream_read_huge_count_leaves_bounds :
    sample_written_stream.in_bounds ∧ 1 ≤ 2 ^ 64 - 5 ∧
      sample_written_stream.contents = [1, 2, 3, 4] ∧
      (stream_read (2 ^ 64 - 5) (2 ^ 32 - 1) sample_written_stream).1 = 5 ∧
      (stream_read (2 ^ 64 - 5) (2 ^ 32 - 1) sample_written_stream).2.1 = [1, 2, 3, 4, 0] ∧
      (stream_read (2 ^ 64 - 5) (2 ^ 32 - 1) sample_written_stream).2.2.pos = 5 ∧
      (stream_read (2 ^ 64 - 5) (2 ^ 32 - 1) sample_written_stream).2.2.size = 4 ∧
      ¬ (stream_read (2 ^ 64 - 5) (2 ^ 32 - 1) sample_written_stream).2.2.in_bounds :=
  ⟨⟨by decide, by decide, by decide⟩, by decide, by decide, by decide, by decide, by decide,
    by decide, fun h => absurd h.2.1 (by decide)⟩

/-- C22: for every stream with `0 <= pos <= size <= memsize`, a buffer of `memsize` bytes and
a size within the range of `int`, every item size `s` from 1 on (a `size_t`) and every item
count `n` that fits in an `int`, with `k = min (n, (size - pos) / s)`: `stream_read` returns
`k * s`, copies the `k * s` bytes of the buffer from `pos` on, which are bytes of the content
of the stream, and advances the cursor by `k * s`, which leaves it at most at `size`; when
more bytes are requested than remain, fewer than requested are returned. -/
theorem stream_read_copies_whole_items (s : stream) (size nitems : Nat) (h : s.valid)
    (hsize : s.size < 2 ^ 31) (_hs1 : 1 ≤ size) (_hs2 : size < 2 ^ 64)
    (hn : nitems < 2 ^ 31) :
    stream_read size nitems s =
        (((min nitems ((s.size - s.pos).toNat / size) * size : Nat) : Int),
          (s.buffer.drop s.pos.toNat).take (min nitems ((s.size - s.pos).toNat / size) * size),
          { s with pos :=
            s.pos + ((min nitems ((s.size - s.pos).toNat / size) * size : Nat) : Int) }) ∧
      ((s.buffer.drop s.pos.toNat).take
          (min nitems ((s.size - s.pos).toNat / size) * size)).length =
        min nitems ((s.size - s.pos).toNat / size) * size ∧
      (s.buffer.drop s.pos.toNat).take (min nitems ((s.size - s.pos).toNat / size) * size) =
        s.remaining.take (min nitems ((s.size - s.pos).toNat / size) * size) ∧
      s.pos + ((min nitems ((s.size - s.pos).toNat / size) * size : Nat) : Int) ≤ s.size ∧
      ((s.size - s.pos).toNat < nitems * size →
        min nitems ((s.size - s.pos).toNat / size) * size < nitems * size) := by
  obtain ⟨he, hle⟩ := stream_read_eq s size nitems (valid_in_bounds s h) hsize hn
  obtain ⟨hl1, hl2⟩ := stream_read_within s size nitems h
  refine ⟨he, hl1, hl2, hle, fun hr => ?_⟩
  have hmul : (s.size - s.pos).toNat / size * size ≤ (s.size - s.pos).toNat :=
    Nat.div_mul_le_self _ _
  exact stream_read_short size nitems _ _
    (le_trans (Nat.mul_le_mul_right size (min_le_right _ _)) hmul) hr

/-- Witness of C22: three items of two bytes requested from a stream of four bytes: two items
are read, four bytes are returned and the cursor is left at the end. -/
theorem stream_read_copies_whole_items_witness :
    (sample_written_stream.valid ∧ sample_written_stream.size < 2 ^ 31 ∧ 1 ≤ 2 ∧
        2 < 2 ^ 64 ∧ 3 < 2 ^ 31) ∧
      stream_read 2 3 sample_written_stream =
        (((min 3 ((sample_written_stream.size - sample_written_stream.pos).toNat / 2) * 2 :
            Nat) : Int),
          (sample_written_stream.buffer.drop sample_written_stream.pos.toNat).take
            (min 3 ((sample_written_stream.size - sample_written_stream.pos).toNat / 2) * 2),
          { sample_written_stream with pos := sample_written_stream.pos +
            ((min 3 ((sample_written_stream.size - sample_written_stream.pos).toNat / 2) * 2 :
              Nat) : Int) }) ∧
      (stream_read 2 3 sample_written_stream).1 = 4 ∧
      (stream_read 2 3 sample_written_stream).2.1 = [1, 2, 3, 4] ∧
      (stream_read 2 3 sample_written_stream).2.2.pos = 4 :=
  ⟨⟨⟨by decide, by decide, by decide, by decide⟩, by decide, by decide, by decide, by decide⟩,
    (stream_read_copies_whole_items sample_written_stream 2 3
      ⟨by decide, by decide, by decide, by decide⟩ (by decide) (by decide) (by decide)
      (by decide)).1,
    by decide, by decide, by decide⟩
